import Mathlib

/-!
Verification development for the drape font subsystem of organicmaps
(`src/drape/glyph_manager.cpp`, `src/drape/font.cpp`,
`src/drape/texture_manager.cpp`).

The C++ code is embedded shallowly: pure algorithms become Lean functions,
mutable fields become explicit state passing, `int` becomes `Int` (with the
`INT_MAX` sentinel kept explicit), and external collaborators (FreeType, GPU
textures) become function-valued parameters.
-/

namespace dp

/-- `kInvalidFont = -1`, glyph_manager.cpp line 21. -/
def kInvalidFont : Int := -1

/-- `std::numeric_limits<int>::max()` for 32-bit `int`. -/
def intMax : Int := 2 ^ 31 - 1

/-- Information about a single unicode block (`struct UnicodeBlock`,
glyph_manager.cpp lines 77-121).  `m_start`/`m_end` are `strings::UniChar`
(a 32-bit code point), the weight vector holds C++ `int`s. -/
structure UnicodeBlock where
  name : String
  ustart : Nat
  uend : Nat
  fontsWeight : List Int
deriving Repr, DecidableEq

/-- `UnicodeBlock::HasSymbol`, glyph_manager.cpp lines 117-120. -/
def UnicodeBlock.hasSymbol (b : UnicodeBlock) (sym : Nat) : Bool :=
  decide (b.ustart ≤ sym) && decide (b.uend ≥ sym)

/-- The `for` loop inside `UnicodeBlock::GetFontOffset`
(glyph_manager.cpp lines 104-112): scan the weights left to right keeping
the best `(maxWeight, index)` seen so far; a weight is taken when it is
below `upperBound` and strictly above the current `maxWeight`. -/
def getFontOffsetLoop (upperBound : Int) : List Int → Nat → Int → Int → Int
  | [], _, _, index => index
  | w :: rest, i, maxWeight, index =>
    if w < upperBound ∧ maxWeight < w then
      getFontOffsetLoop upperBound rest (i + 1) w (Int.ofNat i)
    else
      getFontOffsetLoop upperBound rest (i + 1) maxWeight index

/-- `UnicodeBlock::GetFontOffset`, glyph_manager.cpp lines 92-115,
as a function of the weight vector.  `idx` is the previously tried font
index or `kInvalidFont`; on a valid `idx` the upper bound is that font's
weight, otherwise `INT_MAX`. -/
def getFontOffset (weights : List Int) (idx : Int) : Int :=
  if weights = [] then kInvalidFont
  else
    let upperBound : Int := if idx ≠ kInvalidFont then weights.getD idx.toNat 0 else intMax
    getFontOffsetLoop upperBound weights 0 0 kInvalidFont

/-- The upper bound used by `GetFontOffset`: the previously tried font's
weight, or `INT_MAX` when no font was tried yet (glyph_manager.cpp
lines 98-100). -/
def fontUpperBound (weights : List Int) (idx : Int) : Int :=
  if idx ≠ kInvalidFont then weights.getD idx.toNat 0 else intMax

/-- Candidate test taken from claim C1's description of the visiting order:
a font is a candidate when its weight for the block is non-zero (positive)
and, when a previous font was tried, strictly below that ceiling weight. -/
def specFontCandidate (weights : List Int) (ceil : Option Int) (k : Nat) : Bool :=
  decide (0 < weights.getD k 0) &&
    (match ceil with
     | none => true
     | some c => decide (weights.getD k 0 < c))

/-- The next candidate according to the claim: among candidate fonts, the
one of maximal weight, ties broken toward the lower font index (i.e. the
least index that is a candidate and dominates every candidate weight). -/
def specNextFont (weights : List Int) (ceil : Option Int) : Option Nat :=
  (List.range weights.length).find? (fun k =>
    specFontCandidate weights ceil k &&
      decide (∀ j, j < weights.length → specFontCandidate weights ceil j = true →
        weights.getD j 0 ≤ weights.getD k 0))

/-- Bridge between the code's upper bound and the claim's ceiling. -/
def specCeil (weights : List Int) (idx : Int) : Option Int :=
  if idx = kInvalidFont then none else some (weights.getD idx.toNat 0)

/-- The loop body of `GlyphManager::FindFontIndexInBlock`
(glyph_manager.cpp lines 359-366), with explicit fuel: the C++ `for` loop
terminates because each `GetFontOffset` call returns a font of strictly
smaller weight; `weights.length + 1` steps always suffice
(`findFontIndexInBlock_fuel_stable`). -/
def findFontIndexInBlockAux (weights : List Int) (hasGlyph : Nat → Bool) :
    Nat → Int → Int
  | 0, _ => kInvalidFont
  | fuel + 1, idx =>
    let fontIndex := getFontOffset weights idx
    if fontIndex = kInvalidFont then kInvalidFont
    else if hasGlyph fontIndex.toNat then fontIndex
    else findFontIndexInBlockAux weights hasGlyph fuel fontIndex

/-- `GlyphManager::FindFontIndexInBlock`, glyph_manager.cpp lines 356-369,
over one block's weight vector; `hasGlyph k` stands for
`m_fonts[k]->HasGlyph(unicodePoint)` (an external FreeType query). -/
def findFontIndexInBlock (weights : List Int) (hasGlyph : Nat → Bool) : Int :=
  findFontIndexInBlockAux weights hasGlyph (weights.length + 1) kInvalidFont

/-- The sequence of font indices tried by the `FindFontIndexInBlock` loop,
in order (independent of which fonts have the glyph). -/
def fontVisitsAux (weights : List Int) : Nat → Int → List Nat
  | 0, _ => []
  | fuel + 1, idx =>
    let r := getFontOffset weights idx
    if r = kInvalidFont then []
    else r.toNat :: fontVisitsAux weights fuel r

def fontVisits (weights : List Int) : List Nat :=
  fontVisitsAux weights (weights.length + 1) kInvalidFont

/-- The visiting order described by claim C1, iterated. -/
def specFontVisitsAux (weights : List Int) : Nat → Option Int → List Nat
  | 0, _ => []
  | fuel + 1, ceil =>
    match specNextFont weights ceil with
    | none => []
    | some k => k :: specFontVisitsAux weights fuel (some (weights.getD k 0))

def specFontVisits (weights : List Int) : List Nat :=
  specFontVisitsAux weights (weights.length + 1) none

/-- Number of remaining candidates below an upper bound; the quantity that
makes the C++ loop terminate. -/
def fontCandCount (weights : List Int) (ub : Int) : Nat :=
  ((Finset.range weights.length).filter
    (fun l => 0 < weights.getD l 0 ∧ weights.getD l 0 < ub)).card

/-! ## Block lookup: `GetFontIndexImmutable` and `GetFontIndex` -/

def defaultBlock : UnicodeBlock := ⟨"", 0, 0, []⟩

/-- `m_blocks[i]`, with the out-of-range default never used on the paths the
theorems take. -/
def blkAt (blocks : List UnicodeBlock) (i : Nat) : UnicodeBlock :=
  blocks.getD i defaultBlock

/-- A font as seen by the lookup paths: `Font::HasGlyph` (an external
FreeType character-map query) and the `(code, fixedSize)` ready set
(`Font::IsGlyphReady`, font.cpp lines 162-165). -/
structure FontModel where
  hasGlyph : Nat → Bool
  isGlyphReady : Nat → Int → Bool

def defaultFont : FontModel := ⟨fun _ => false, fun _ _ => false⟩

/-- `m_fonts[k]->HasGlyph(cp)` as a function of the font index. -/
def fontHasGlyphAt (fonts : List FontModel) (cp : Nat) : Nat → Bool :=
  fun k => (fonts.getD k defaultFont).hasGlyph cp

/-- `std::lower_bound(first, first + len, v, comp)` with comparator
`block.m_end < v` (glyph_manager.cpp lines 326-330 and 344-348), written as
the standard binary search over half-open index ranges.  The fuel argument
only bounds the recursion depth: `fuel = len` always suffices since every
step shrinks `len` (`lowerBoundAux_eq` needs just `len ≤ fuel`). -/
def lowerBoundAux (blocks : List UnicodeBlock) (v : Nat) : Nat → Nat → Nat → Nat
  | 0, first, _ => first
  | fuel + 1, first, len =>
    if len = 0 then first
    else
      if (blkAt blocks (first + len / 2)).uend < v then
        lowerBoundAux blocks v fuel (first + len / 2 + 1) (len - len / 2 - 1)
      else
        lowerBoundAux blocks v fuel first (len / 2)

def lowerBound (blocks : List UnicodeBlock) (v : Nat) : Nat :=
  lowerBoundAux blocks v blocks.length 0 blocks.length

/-- `GlyphManager::GetFontIndexImmutable`, glyph_manager.cpp lines 342-354:
stateless binary-search lookup. -/
def getFontIndexImmutable (blocks : List UnicodeBlock) (fonts : List FontModel)
    (cp : Nat) : Int :=
  if lowerBound blocks cp = blocks.length ∨
      ¬ (blkAt blocks (lowerBound blocks cp)).hasSymbol cp then kInvalidFont
  else
    findFontIndexInBlock (blkAt blocks (lowerBound blocks cp)).fontsWeight
      (fontHasGlyphAt fonts cp)

/-- The iterator computed by `GlyphManager::GetFontIndex` (lines 316-332):
the cached `m_lastUsedBlock` when it is valid and covers the code point
(`none` models the `end()` iterator), otherwise the binary search. -/
def getFontIndexIter (blocks : List UnicodeBlock) (lastUsed : Option Nat)
    (cp : Nat) : Nat :=
  match lastUsed with
  | some i => if (blkAt blocks i).hasSymbol cp then i else lowerBound blocks cp
  | none => lowerBound blocks cp

/-- `GlyphManager::GetFontIndex`, glyph_manager.cpp lines 314-340; on success
the cache is updated to the covering block.  Returns the font index together
with the new cache. -/
def getFontIndex (blocks : List UnicodeBlock) (fonts : List FontModel)
    (lastUsed : Option Nat) (cp : Nat) : Int × Option Nat :=
  if getFontIndexIter blocks lastUsed cp = blocks.length ∨
      ¬ (blkAt blocks (getFontIndexIter blocks lastUsed cp)).hasSymbol cp then
    (kInvalidFont, lastUsed)
  else
    (findFontIndexInBlock
        (blkAt blocks (getFontIndexIter blocks lastUsed cp)).fontsWeight
        (fontHasGlyphAt fonts cp),
      some (getFontIndexIter blocks lastUsed cp))

/-- The sortedness invariant the block list is built to satisfy: every block
is a genuine interval and each block ends strictly before the next starts. -/
def BlocksSorted (blocks : List UnicodeBlock) : Prop :=
  (∀ b ∈ blocks, b.ustart ≤ b.uend) ∧
    blocks.Pairwise (fun a b => a.uend < b.ustart)

/-- `GlyphManager::AreGlyphsReady`, glyph_manager.cpp lines 434-447: every
code point of the string must resolve through the stateless lookup and be
marked ready in the resolved font. -/
def areGlyphsReady (blocks : List UnicodeBlock) (fonts : List FontModel)
    (str : List Nat) (fixedSize : Int) : Bool :=
  str.all (fun code =>
    if getFontIndexImmutable blocks fonts code = kInvalidFont then false
    else
      (fonts.getD (getFontIndexImmutable blocks fonts code).toNat
        defaultFont).isGlyphReady code fixedSize)

/-! ## `GetGlyph` and the invalid-glyph placeholder -/

/-- A rasterized glyph (`struct Glyph`, glyph.hpp), keeping the fields the
claims inspect; `image` is an opaque stand-in for the bitmap payload and the
numeric (float) metrics, whose values come from the external rasterizer. -/
structure Glyph where
  code : Nat
  fontIndex : Int
  fixedSize : Int
  metricsValid : Bool
  image : Nat
deriving Repr, DecidableEq

/-- `GlyphManager::GetInvalidGlyph`, glyph_manager.cpp lines 449-471.
`rasterize fontIdx code height isSdf` models
`m_fonts[fontIdx]->GetGlyph(code, height, isSdf)` (external FreeType);
the C++ function-local statics `s_inited`/`s_glyph` become the explicit
`cache` state.  `kInvalidGlyphCode = 0x9`, `kFontId = 0`. -/
def getInvalidGlyph (rasterize : Nat → Nat → Nat → Bool → Glyph)
    (baseGlyphHeight : Nat) (fixedSize : Int) (cache : Option Glyph) :
    Glyph × Option Glyph :=
  match cache with
  | some g => (g, some g)
  | none =>
    let isSdf := fixedSize < 0
    let g0 := rasterize 0 9 (if isSdf then baseGlyphHeight else fixedSize.toNat) isSdf
    let g := { g0 with metricsValid := false, fontIndex := 0, code := 9 }
    (g, some g)

/-- `GlyphManager::GetGlyph`, glyph_manager.cpp lines 371-382: resolve the
font via the stateful lookup; on failure substitute the invalid-glyph
placeholder; on success rasterize and stamp the font index.  Returns the
glyph together with the two updated pieces of mutable state (the
last-used-block cache and the invalid-glyph cache). -/
def getGlyph (blocks : List UnicodeBlock) (fonts : List FontModel)
    (rasterize : Nat → Nat → Nat → Bool → Glyph) (baseGlyphHeight : Nat)
    (lastUsed : Option Nat) (invCache : Option Glyph) (cp : Nat)
    (fixedHeight : Int) : Glyph × Option Nat × Option Glyph :=
  let res := getFontIndex blocks fonts lastUsed cp
  if res.1 = kInvalidFont then
    let inv := getInvalidGlyph rasterize baseGlyphHeight fixedHeight invCache
    (inv.1, res.2, inv.2)
  else
    let isSdf := fixedHeight < 0
    let g := rasterize res.1.toNat cp
      (if isSdf then baseGlyphHeight else fixedHeight.toNat) isSdf
    ({ g with fontIndex := res.1 }, res.2, invCache)

/-! ## The `GlyphManager` constructor (glyph_manager.cpp lines 153-302) -/

/-- One font file handed to the constructor: its name, whether
`FT_Open_Face` succeeds and yields a valid face, and the character codes
returned by `Font::GetCharcodes` (sorted and deduplicated by that
function). -/
structure FontInput where
  name : String
  loads : Bool
  charcodes : List Nat
deriving Repr, DecidableEq

/-- The `while (block < size && !HasSymbol) ++block` scan
(glyph_manager.cpp lines 220-226) starting at index `i`; the first argument
is the remaining scan budget, `blocks.length - i` at the top call. -/
def findBlockFromAux (blocks : List UnicodeBlock) (c : Nat) : Nat → Nat → Option Nat
  | 0, _ => none
  | rem + 1, i =>
    if i < blocks.length then
      if (blkAt blocks i).hasSymbol c then some i
      else findBlockFromAux blocks c rem (i + 1)
    else none

def findBlockFrom (blocks : List UnicodeBlock) (c : Nat) (i : Nat) : Option Nat :=
  findBlockFromAux blocks c (blocks.length - i) i

/-- Appending one covered character to `coverInfo`
(glyph_manager.cpp lines 228-236): bump the trailing node's counter when it
is for the same block, otherwise push a fresh `(block, 1)` node. -/
def coverAdd (cover : List (Nat × Int)) (b : Nat) : List (Nat × Int) :=
  match cover.getLast? with
  | some nd => if nd.1 = b then cover.dropLast ++ [(nd.1, nd.2 + 1)] else cover ++ [(b, 1)]
  | none => cover ++ [(b, 1)]

/-- One iteration of the per-character-code loop
(glyph_manager.cpp lines 218-237); the accumulator is
`(currentUniBlock, coverInfo)`. -/
def coverStep (blocks : List UnicodeBlock) (acc : Nat × List (Nat × Int))
    (c : Nat) : Nat × List (Nat × Int) :=
  match findBlockFrom blocks c acc.1 with
  | some b => (b, coverAdd acc.2 b)
  | none => acc

/-- The whole coverage computation for one font's character codes. -/
def computeCoverInfo (blocks : List UnicodeBlock) (charcodes : List Nat) :
    List (Nat × Int) :=
  (charcodes.foldl (coverStep blocks) (0, [])).2

/-- The inner node walk of `enumerateFn` (glyph_manager.cpp lines 247-259)
for one white/blacklist entry naming block `bname`: a node whose block has
that name is updated and the walk `break`s; under the `"*"` wildcard every
node is updated. -/
def applyEntry (blocks : List UnicodeBlock) (bname : String)
    (val : UnicodeBlock → Int) : List (Nat × Int) → List (Nat × Int)
  | [] => []
  | nd :: rest =>
    if (blkAt blocks nd.1).name = bname then
      (nd.1, val (blkAt blocks nd.1)) :: rest
    else if bname = "*" then
      (nd.1, val (blkAt blocks nd.1)) :: applyEntry blocks bname val rest
    else
      nd :: applyEntry blocks bname val rest

/-- `enumerateFn` (glyph_manager.cpp lines 240-261): walk the list entries,
skipping those for other fonts. -/
def enumerateFn (blocks : List UnicodeBlock) (fontName : String)
    (lst : List (String × String)) (val : UnicodeBlock → Int)
    (cover : List (Nat × Int)) : List (Nat × Int) :=
  lst.foldl (fun cv e => if e.1 = fontName then applyEntry blocks e.2 val cv else cv)
    cover

/-- `std::vector::resize(n, 0)`. -/
def resizeTo (n : Nat) (xs : List Int) : List Int :=
  xs.take n ++ List.replicate (n - xs.length) 0

/-- `vec.back() = v`. -/
def setBack (xs : List Int) (v : Int) : List Int :=
  xs.dropLast ++ [v]

def updateAt {α : Type} : List α → Nat → (α → α) → List α
  | [], _, _ => []
  | x :: xs, 0, f => f x :: xs
  | x :: xs, n + 1, f => x :: updateAt xs n f

/-- Persisting the final cover weights (glyph_manager.cpp lines 273-278):
each touched block's weight vector is resized to the current font count and
its back set to the node's weight. -/
def persistCover (fontsCount : Nat) (blocks : List UnicodeBlock)
    (cover : List (Nat × Int)) : List UnicodeBlock :=
  cover.foldl (fun bs nd =>
    updateAt bs nd.1 (fun ub =>
      { ub with fontsWeight := setBack (resizeTo fontsCount ub.fontsWeight) nd.2 }))
    blocks

/-- The wildcard-blacklist check that skips a font entirely
(glyph_manager.cpp lines 188-196). -/
def wildcardBlacklisted (blacklst : List (String × String)) (fontName : String) :
    Bool :=
  blacklst.foldl (fun ig p => if p.1 = fontName ∧ p.2 = "*" then true else ig) false

/-- The whitelist override value
`m_end + 1 - m_start + m_fonts.size()` (glyph_manager.cpp line 270).  C++
evaluates it in unsigned arithmetic and casts to `int`; for genuine blocks
(`start ≤ end`) and realistic sizes the two coincide, so it is written over
`Int` directly. -/
def whitelistValue (fontsCount : Nat) (ub : UnicodeBlock) : Int :=
  (ub.uend : Int) + 1 - (ub.ustart : Int) + (fontsCount : Int)

/-- The mutable state threaded through the constructor's font loop:
the block list (weights included) and `m_fonts.size()`. -/
structure GMState where
  blocks : List UnicodeBlock
  fontsCount : Nat
deriving Repr, DecidableEq

/-- One iteration of the constructor's `for (auto const & fontName : ...)`
loop (glyph_manager.cpp lines 186-279). -/
def processFont (whitelst blacklst : List (String × String)) (st : GMState)
    (f : FontInput) : GMState :=
  if wildcardBlacklisted blacklst f.name then st
  else if ¬ f.loads then st
  else
    let fontsCount := st.fontsCount + 1
    let cover0 := computeCoverInfo st.blocks f.charcodes
    let cover1 := enumerateFn st.blocks f.name blacklst (fun _ => 0) cover0
    let cover2 := enumerateFn st.blocks f.name whitelst (whitelistValue fontsCount) cover1
    ⟨persistCover fontsCount st.blocks cover2, fontsCount⟩

/-- Block construction from the parsed `(name, start, end)` triples
(glyph_manager.cpp lines 165-170). -/
def initBlocks (blockDefs : List (String × Nat × Nat)) : List UnicodeBlock :=
  blockDefs.map (fun t => ⟨t.1, t.2.1, t.2.2, []⟩)

/-- The whole constructor (its pure part): fold the font loop over the
freshly parsed block list. -/
def glyphManagerInit (blockDefs : List (String × Nat × Nat))
    (whitelst blacklst : List (String × String)) (fonts : List FontInput) :
    GMState :=
  fonts.foldl (processFont whitelst blacklst) ⟨initBlocks blockDefs, 0⟩

/-- The fonts that end up in `m_fonts`: not wildcard-blacklisted and
successfully opened, in input order. -/
def loadedFonts (blacklst : List (String × String)) (fonts : List FontInput) :
    List FontInput :=
  fonts.filter (fun f => !wildcardBlacklisted blacklst f.name && f.loads)

/-! ## `ParseUniBlocks` and the sortedness invariant (claim C8) -/

/-- One hexadecimal digit, as accepted by `std::num_get` with
`std::hex`. -/
def hexDigit (ch : Char) : Option Nat :=
  if '0' ≤ ch ∧ ch ≤ '9' then some (ch.toNat - '0'.toNat)
  else if 'a' ≤ ch ∧ ch ≤ 'f' then some (ch.toNat - 'a'.toNat + 10)
  else if 'A' ≤ ch ∧ ch ≤ 'F' then some (ch.toNat - 'A'.toNat + 10)
  else none

/-- `fin >> std::hex >> x` for `uint32_t x` on one whitespace-delimited
token made of hex digits; extraction fails (sets `failbit`) on an empty or
non-hex token and on overflow past `uint32_t`. -/
def parseHex (s : String) : Option Nat :=
  if s.isEmpty then none
  else
    s.data.foldl (fun acc ch =>
      match acc, hexDigit ch with
      | some v, some d => if v * 16 + d < 2 ^ 32 then some (v * 16 + d) else none
      | _, _ => none) (some 0)

/-- `ParseUniBlocks` (glyph_manager.cpp lines 23-48) over the
whitespace-split tokens of the block-definition file: repeatedly extract a
name token and two hex tokens; the loop `break`s at the first failed
extraction, keeping everything already parsed (best-effort partial load). -/
def parseUniBlocks : List String → List (String × Nat × Nat)
  | name :: s :: e :: rest =>
    match parseHex s, parseHex e with
    | some sv, some ev => (name, sv, ev) :: parseUniBlocks rest
    | _, _ => []
  | _ => []

/-- The part of a block that the constructor never mutates. -/
def blockBounds (blocks : List UnicodeBlock) : List (String × Nat × Nat) :=
  blocks.map (fun b => (b.name, b.ustart, b.uend))

/-! ## `Font::GetGlyph`, non-SDF bitmap padding (claim C5) -/

/-- `kSdfBorder`, glyph_manager.hpp line 13. -/
def kSdfBorder : Nat := 4

/-- One row of the copy loop (font.cpp lines 110-113):
`ptr[dstBaseIndex + column] = bitmap.buffer[srcBaseIndex + column]` for
`column` in `[0, pitch)`. -/
def copyRow (buffer : List Nat) (srcBase dstBase pitch : Nat) (d : List Nat) :
    List Nat :=
  (List.range pitch).foldl
    (fun d column => d.set (dstBase + column) (buffer.getD (srcBase + column) 0)) d

/-- The non-SDF image construction of `Font::GetGlyph` when
`bitmap.buffer != nullptr` (font.cpp lines 99-115): a zeroed
`imageWidth * imageHeight` buffer with each bitmap row copied at column
offset `kSdfBorder`, row offset `kSdfBorder`.  Returns
`(imageWidth, imageHeight, data)`. -/
def padGlyphBitmap (rows width pitch : Nat) (buffer : List Nat) :
    Nat × Nat × List Nat :=
  let imageWidth := width + 2 * kSdfBorder
  let imageHeight := rows + 2 * kSdfBorder
  let init := List.replicate (imageWidth * imageHeight) 0
  let data := (List.range rows).foldl
    (fun d row =>
      copyRow buffer (row * pitch) ((row + kSdfBorder) * imageWidth + kSdfBorder)
        pitch d) init
  (imageWidth, imageHeight, data)

/-- The surrounding image assembly (font.cpp lines 85-119, non-SDF branch):
a null source bitmap yields a null data buffer of the unpadded size. -/
def fontGetGlyphImageNoSdf (rows width pitch : Nat)
    (buffer : Option (List Nat)) : Nat × Nat × Option (List Nat) :=
  match buffer with
  | none => (width, rows, none)
  | some buf =>
    let r := padGlyphBitmap rows width pitch buf
    (r.1, r.2.1, some r.2.2)

/-- Destination base of bitmap row `row`. -/
def rowBase (W row : Nat) : Nat := (row + kSdfBorder) * W + kSdfBorder

/-! ## `TextureManager`: hybrid glyph groups (claim C6) -/

/-- The glyph texture behind a hybrid group, reduced to the one query the
group allocator makes of it (`Texture::HasEnoughSpace`, an external GPU
packer query). -/
structure GlyphTexture where
  hasEnoughSpace : Nat → Bool

/-- `TextureManager::HybridGlyphGroup`: the `(code, fixedHeight)` pairs
already attributed to the group (`std::set`, modelled as a duplicate-free
list) and the group's texture (null until the caller assigns one). -/
structure HybridGlyphGroup where
  glyphs : List (Nat × Int)
  texture : Option GlyphTexture

def dfltGroup : HybridGlyphGroup := ⟨[], none⟩

/-- `std::set::emplace`. -/
def setInsert (s : List (Nat × Int)) (x : Nat × Int) : List (Nat × Int) :=
  if x ∈ s then s else s ++ [x]

/-- `TextureManager::GetNumberOfUnfoundCharacters`, texture_manager.cpp
lines 328-339: how many characters of `text` (duplicates counted) are not in
the group's glyph set. -/
def getNumberOfUnfoundCharacters (text : List Nat) (fixedHeight : Int)
    (group : HybridGlyphGroup) : Nat :=
  text.countP (fun c => !(decide ((c, fixedHeight) ∈ group.glyphs)))

/-- `TextureManager::MarkCharactersUsage`, texture_manager.cpp
lines 341-346. -/
def markCharactersUsage (text : List Nat) (fixedHeight : Int)
    (group : HybridGlyphGroup) : HybridGlyphGroup :=
  { group with
    glyphs := text.foldl (fun s c => setInsert s (c, fixedHeight)) group.glyphs }

/-- `m_hybridGlyphGroups.back()`. -/
def lastGroup (groups : List HybridGlyphGroup) : HybridGlyphGroup :=
  groups.getD (groups.length - 1) dfltGroup

/-- The `hasEnoughSpace` local of `FindHybridGlyphsGroup`
(texture_manager.cpp lines 357-359): `true` while the group has no texture
yet. -/
def groupHasEnoughSpace (group : HybridGlyphGroup) (n : Nat) : Bool :=
  match group.texture with
  | some tex => tex.hasEnoughSpace n
  | none => true

/-- `TextureManager::FindHybridGlyphsGroup`, texture_manager.cpp
lines 348-384.  Returns the chosen group index and the updated group list;
`none` models the undefined behaviour of line 380
(`group.m_texture->HasEnoughSpace(...)` on a group whose texture is still
null; that dereference is reached only when the count check passes, thanks
to `||` short-circuiting). -/
def findHybridGlyphsGroup (maxGlypsCount : Nat)
    (groups : List HybridGlyphGroup) (text : List Nat) (fixedHeight : Int) :
    Option (Nat × List HybridGlyphGroup) :=
  if groups.isEmpty then some (0, groups ++ [dfltGroup])
  else if groupHasEnoughSpace (lastGroup groups) text.length = true ∧
      groups.length = 1 ∧
      (lastGroup groups).glyphs.length + text.length < maxGlypsCount then
    some (0, groups)
  else
    match (List.range (groups.length - 1)).find? (fun i =>
        decide (getNumberOfUnfoundCharacters text fixedHeight
          (groups.getD i dfltGroup) = 0)) with
    | some i => some (i, groups)
    | none =>
      if maxGlypsCount ≤ (lastGroup groups).glyphs.length +
          getNumberOfUnfoundCharacters text fixedHeight (lastGroup groups) then
        some (groups.length, groups ++ [dfltGroup])
      else
        match (lastGroup groups).texture with
        | none => none
        | some tex =>
          if tex.hasEnoughSpace
              (getNumberOfUnfoundCharacters text fixedHeight (lastGroup groups)) then
            some (groups.length - 1, groups)
          else
            some (groups.length, groups ++ [dfltGroup])

/-! ## `TextureManager`: the `m_nothingToUpload` upload-gating flag
(claim C9) -/

/-- The operations of `TextureManager` that touch the `m_nothingToUpload`
atomic flag, with the data each reads:
* `getRegionBase isNew` — texture_manager.cpp lines 288-297 (`isNew` is the
  out-parameter of `Texture::FindResource`);
* `getGlyphsRegions hasNew` — lines 299-326;
* `updateDynamicTextures asyncBusy` — lines 228-263 (`asyncBusy` is
  `HasAsyncRoutines()`, i.e. the async glyph generator is not suspended);
* `release` — lines 204-226;
* `initOp` — lines 394-496. -/
inductive TMOp where
  | getRegionBase (isNew : Bool)
  | getGlyphsRegions (hasNew : Bool)
  | updateDynamicTextures (asyncBusy : Bool)
  | release
  | initOp
deriving Repr, DecidableEq

/-- Effect of each operation on `m_nothingToUpload` (`true` = flag set =
nothing to upload), read off the five code sites: lookups `clear()` the flag
exactly when a new resource was registered (lines 295-296, 324-325);
`UpdateDynamicTextures` runs `test_and_set()` — which always leaves the flag
set — but only when `!HasAsyncRoutines()` lets `&&` reach it (line 230);
`Release` runs `test_and_set()` (line 225); `Init` ends with `clear()`
(line 495). -/
def nothingToUploadStep : TMOp → Bool → Bool
  | .getRegionBase isNew, f => if isNew then false else f
  | .getGlyphsRegions hasNew, f => if hasNew then false else f
  | .updateDynamicTextures asyncBusy, f => if asyncBusy then f else true
  | .release, _ => true
  | .initOp, _ => false

/-- Whether the operation performs the GPU sync (the upload body of
`UpdateDynamicTextures`, lines 245-262): reached when the early-return
guard `!HasAsyncRoutines() && m_nothingToUpload.test_and_set()` (line 230)
fails, i.e. when async glyph routines are pending or the flag was clear. -/
def tmOpIsUploadPass (op : TMOp) (f : Bool) : Bool :=
  match op with
  | .updateDynamicTextures asyncBusy => asyncBusy || !f
  | _ => false

/-! ## Weight provenance through the constructor (claim C3) -/

/-- Placeholder for out-of-range font list reads in statements. -/
def noFont : FontInput := ⟨"", false, []⟩

/-!  Characterisation of the scanning loop. -/

/-- What `getFontOffsetLoop` computes: either no element of the suffix beats
the accumulator, and the accumulator's index is returned, or the result points
at the first position of the suffix holding the largest weight that is below
`upperBound` and above the incoming `maxWeight`. -/
theorem getFontOffsetLoop_spec (ub : Int) :
    ∀ (ws : List Int) (i : Nat) (maxW index : Int),
      (getFontOffsetLoop ub ws i maxW index = index ∧
        ∀ w ∈ ws, w < ub → w ≤ maxW) ∨
      (∃ j : Nat, j < ws.length ∧
        getFontOffsetLoop ub ws i maxW index = Int.ofNat (i + j) ∧
        maxW < ws.getD j 0 ∧ ws.getD j 0 < ub ∧
        (∀ w ∈ ws, w < ub → w ≤ ws.getD j 0) ∧
        (∀ l, l < j → ws.getD l 0 < ub → ws.getD l 0 < ws.getD j 0)) := by
  intro ws
  induction ws with
  | nil => intro i maxW index; left; exact ⟨rfl, by simp⟩
  | cons w rest ih =>
    intro i maxW index
    by_cases hw : w < ub ∧ maxW < w
    · right
      have hrec := ih (i + 1) w (Int.ofNat i)
      rcases hrec with ⟨heq, hbound⟩ | ⟨j, hj, heq, hmax, hub, hall, hfirst⟩
      · refine ⟨0, by simp, ?_, ?_, ?_, ?_, ?_⟩
        · simpa [getFontOffsetLoop, hw] using heq
        · simpa using hw.2
        · simpa using hw.1
        · intro x hx hxub
          simp only [List.mem_cons] at hx
          rcases hx with rfl | hx
          · simp
          · simpa using hbound x hx hxub
        · intro l hl; omega
      · refine ⟨j + 1, by simpa using hj, ?_, ?_, ?_, ?_, ?_⟩
        · have : i + 1 + j = i + (j + 1) := by omega
          simpa [getFontOffsetLoop, hw, this] using heq
        · have := lt_trans hw.2 hmax
          simpa using this
        · simpa using hub
        · intro x hx hxub
          simp only [List.mem_cons] at hx
          rcases hx with rfl | hx
          · simpa using le_of_lt hmax
          · simpa using hall x hx hxub
        · intro l hl hlub
          match l with
          | 0 =>
            simp only [List.getD_cons_zero] at hlub ⊢
            exact hmax
          | Nat.succ l' =>
            simp only [List.getD_cons_succ] at hlub ⊢
            exact hfirst l' (by omega) hlub
    · have hrec := ih (i + 1) maxW index
      rcases hrec with ⟨heq, hbound⟩ | ⟨j, hj, heq, hmax, hub, hall, hfirst⟩
      · left
        refine ⟨by simpa [getFontOffsetLoop, hw] using heq, ?_⟩
        intro x hx hxub
        simp only [List.mem_cons] at hx
        rcases hx with rfl | hx
        · by_contra hgt; exact hw ⟨hxub, by omega⟩
        · exact hbound x hx hxub
      · right
        refine ⟨j + 1, by simpa using hj, ?_, ?_, ?_, ?_, ?_⟩
        · have : i + 1 + j = i + (j + 1) := by omega
          simpa [getFontOffsetLoop, hw, this] using heq
        · simpa using hmax
        · simpa using hub
        · intro x hx hxub
          simp only [List.mem_cons] at hx
          rcases hx with rfl | hx
          · have hwle : x ≤ maxW := by by_contra hgt; exact hw ⟨hxub, by omega⟩
            simp only [List.getD_cons_succ]
            exact le_trans hwle (le_of_lt hmax)
          · simpa using hall x hx hxub
        · intro l hl hlub
          match l with
          | 0 =>
            simp only [List.getD_cons_zero] at hlub ⊢
            have hwle : w ≤ maxW := by by_contra hgt; exact hw ⟨hlub, by omega⟩
            exact lt_of_le_of_lt hwle hmax
          | Nat.succ l' =>
            simp only [List.getD_cons_succ] at hlub ⊢
            exact hfirst l' (by omega) hlub

theorem getD_mem {l : List Int} {n : Nat} (h : n < l.length) (d : Int) :
    l.getD n d ∈ l := by
  rw [List.getD_eq_getElem l d h]; exact List.getElem_mem h

theorem getFontOffset_def (weights : List Int) (idx : Int) (h : weights ≠ []) :
    getFontOffset weights idx =
      getFontOffsetLoop (fontUpperBound weights idx) weights 0 0 kInvalidFont := by
  simp [getFontOffset, fontUpperBound, h]

/-- Raw case analysis of `GetFontOffset`: the result is `-1`, or a valid
index holding a positive weight below the upper bound that dominates every
weight below the bound, being the first such position. -/
theorem getFontOffset_cases (weights : List Int) (idx : Int) :
    (getFontOffset weights idx = kInvalidFont ∧
      ∀ l, l < weights.length → weights.getD l 0 < fontUpperBound weights idx →
        weights.getD l 0 ≤ 0) ∨
    ∃ k : Nat, k < weights.length ∧ getFontOffset weights idx = Int.ofNat k ∧
      0 < weights.getD k 0 ∧
      weights.getD k 0 < fontUpperBound weights idx ∧
      (∀ l, l < weights.length → weights.getD l 0 < fontUpperBound weights idx →
        weights.getD l 0 ≤ weights.getD k 0) ∧
      (∀ l, l < k → weights.getD l 0 < fontUpperBound weights idx →
        weights.getD l 0 < weights.getD k 0) := by
  by_cases hne : weights = []
  · left
    constructor
    · simp [getFontOffset, hne]
    · intro l hl; rw [hne] at hl; simp at hl
  · rw [getFontOffset_def weights idx hne]
    rcases getFontOffsetLoop_spec (fontUpperBound weights idx) weights 0 0 kInvalidFont with
      ⟨heq, hbound⟩ | ⟨j, hj, heq, hmax, hub, hall, hfirst⟩
    · left
      refine ⟨heq, ?_⟩
      intro l hl hlub
      exact hbound _ (getD_mem hl 0) hlub
    · right
      refine ⟨j, hj, by simpa using heq, hmax, hub, ?_, hfirst⟩
      intro l hl hlub
      exact hall _ (getD_mem hl 0) hlub

theorem find?_range_eq_some {p : Nat → Bool} :
    ∀ {n k : Nat}, ((List.range n).find? p = some k ↔
      k < n ∧ p k = true ∧ ∀ l, l < k → p l = false) := by
  intro n
  induction n with
  | zero => intro k; rw [List.range_zero]; simp
  | succ m ih =>
    intro k
    have hsingle : List.find? p [m] = if p m then some m else none := by
      cases hpm : p m <;> simp [List.find?, hpm]
    rw [List.range_succ, List.find?_append]
    constructor
    · intro h
      rcases ho : (List.range m).find? p with _ | k'
      · rw [ho] at h
        simp only [Option.or] at h
        rw [hsingle] at h
        by_cases hpm : p m = true
        · rw [if_pos hpm] at h
          injection h with h
          subst h
          refine ⟨Nat.lt_succ_self _, hpm, fun l hl => ?_⟩
          have := List.find?_eq_none.mp ho l (List.mem_range.mpr hl)
          simpa using this
        · rw [if_neg hpm] at h; cases h
      · rw [ho] at h
        simp only [Option.or] at h
        injection h with h
        subst h
        have hres := ih.mp ho
        exact ⟨by omega, hres.2.1, hres.2.2⟩
    · rintro ⟨hk, hpk, hfirst⟩
      by_cases hkm : k < m
      · rw [ih.mpr ⟨hkm, hpk, hfirst⟩]; rfl
      · have hkeq : k = m := by omega
        subst hkeq
        have ho : (List.range k).find? p = none := by
          apply List.find?_eq_none.mpr
          intro l hl
          simp [hfirst l (List.mem_range.mp hl)]
        rw [ho]
        simp only [Option.or]
        rw [hsingle, if_pos hpk]

/-- `GetFontOffset` computes exactly the claim's next candidate: the
maximal-weight font strictly below the ceiling, ties toward the lower
index, skipping zero weights; `-1` when no candidate remains.  The
hypothesis keeps real `int` weights away from the `INT_MAX` sentinel. -/
theorem specFontCandidate_iff (weights : List Int) (idx : Int) (k : Nat)
    (hk : k < weights.length) (hlt : ∀ w ∈ weights, w < intMax) :
    specFontCandidate weights (specCeil weights idx) k = true ↔
      (0 < weights.getD k 0 ∧ weights.getD k 0 < fontUpperBound weights idx) := by
  by_cases hidx : idx = kInvalidFont
  · have h1 : specCeil weights idx = none := by simp [specCeil, hidx]
    have h2 : fontUpperBound weights idx = intMax := by simp [fontUpperBound, hidx]
    rw [h1, h2]
    simp only [specFontCandidate, Bool.and_true, decide_eq_true_eq]
    constructor
    · intro h; exact ⟨h, hlt _ (getD_mem hk 0)⟩
    · intro h; exact h.1
  · have h1 : specCeil weights idx = some (weights.getD idx.toNat 0) := by
      simp [specCeil, hidx]
    have h2 : fontUpperBound weights idx = weights.getD idx.toNat 0 := by
      simp [fontUpperBound, hidx]
    rw [h1, h2]
    simp [specFontCandidate, Bool.and_eq_true, decide_eq_true_eq]

theorem getFontOffset_eq_specNextFont (weights : List Int) (idx : Int)
    (hlt : ∀ w ∈ weights, w < intMax) :
    getFontOffset weights idx =
      (match specNextFont weights (specCeil weights idx) with
       | some k => Int.ofNat k
       | none => kInvalidFont) := by
  rcases getFontOffset_cases weights idx with ⟨heq, hnone⟩ | ⟨k, hk, heq, hpos, hub, hall, hfirst⟩
  · have hfind : specNextFont weights (specCeil weights idx) = none := by
      apply List.find?_eq_none.mpr
      intro l hl
      simp only [List.mem_range] at hl
      simp only [Bool.and_eq_true, decide_eq_true_eq, not_and]
      intro hcand _
      have h1 := (specFontCandidate_iff weights idx l hl hlt).mp hcand
      have h2 := hnone l hl h1.2
      omega
    rw [hfind, heq]
  · have hcandk : specFontCandidate weights (specCeil weights idx) k = true :=
      (specFontCandidate_iff weights idx k hk hlt).mpr ⟨hpos, hub⟩
    have hfind : specNextFont weights (specCeil weights idx) = some k := by
      apply find?_range_eq_some.mpr
      refine ⟨hk, ?_, ?_⟩
      · simp only [Bool.and_eq_true, decide_eq_true_eq]
        refine ⟨hcandk, ?_⟩
        intro j hj hcandj
        have h1 := (specFontCandidate_iff weights idx j hj hlt).mp hcandj
        exact hall j hj h1.2
      · intro l hl
        by_contra hpl
        simp only [Bool.not_eq_false, Bool.and_eq_true, decide_eq_true_eq] at hpl
        obtain ⟨hcandl, hdoml⟩ := hpl
        have h1 := (specFontCandidate_iff weights idx l (lt_trans hl hk) hlt).mp hcandl
        have h2 := hfirst l hl h1.2
        have h3 := hdoml k hk hcandk
        omega
    rw [hfind, heq]

theorem ofNat_ne_invalid (k : Nat) : Int.ofNat k ≠ kInvalidFont := by
  intro h
  unfold kInvalidFont at h
  rw [Int.ofNat_eq_natCast] at h
  omega

theorem toNat_ofNat' (k : Nat) : (Int.ofNat k).toNat = k := rfl

/-- Unfolding equation for a `fontVisitsAux` step on a valid offset. -/
theorem fontVisitsAux_cons (weights : List Int) (f : Nat) (idx : Int) (k : Nat)
    (heq : getFontOffset weights idx = Int.ofNat k) :
    fontVisitsAux weights (f + 1) idx =
      k :: fontVisitsAux weights f (getFontOffset weights idx) := by
  show (if getFontOffset weights idx = kInvalidFont then []
    else (getFontOffset weights idx).toNat ::
      fontVisitsAux weights f (getFontOffset weights idx)) = _
  rw [heq, if_neg (ofNat_ne_invalid k), toNat_ofNat', ← heq]

/-- Unfolding equation for a `fontVisitsAux` step on an invalid offset. -/
theorem fontVisitsAux_nil (weights : List Int) (f : Nat) (idx : Int)
    (heq : getFontOffset weights idx = kInvalidFont) :
    fontVisitsAux weights (f + 1) idx = [] := by
  show (if getFontOffset weights idx = kInvalidFont then []
    else (getFontOffset weights idx).toNat ::
      fontVisitsAux weights f (getFontOffset weights idx)) = _
  rw [if_pos heq]

/-- Unfolding equations for a `findFontIndexInBlockAux` step. -/
theorem findFontIndexInBlockAux_step (weights : List Int)
    (hasGlyph : Nat → Bool) (f : Nat) (idx : Int) (k : Nat)
    (heq : getFontOffset weights idx = Int.ofNat k) :
    findFontIndexInBlockAux weights hasGlyph (f + 1) idx =
      (if hasGlyph k then Int.ofNat k
       else findFontIndexInBlockAux weights hasGlyph f (getFontOffset weights idx)) := by
  show (if getFontOffset weights idx = kInvalidFont then kInvalidFont
    else if hasGlyph (getFontOffset weights idx).toNat then getFontOffset weights idx
    else findFontIndexInBlockAux weights hasGlyph f (getFontOffset weights idx)) = _
  rw [heq, if_neg (ofNat_ne_invalid k), toNat_ofNat', ← heq]

theorem findFontIndexInBlockAux_invalid (weights : List Int)
    (hasGlyph : Nat → Bool) (f : Nat) (idx : Int)
    (heq : getFontOffset weights idx = kInvalidFont) :
    findFontIndexInBlockAux weights hasGlyph (f + 1) idx = kInvalidFont := by
  show (if getFontOffset weights idx = kInvalidFont then kInvalidFont
    else if hasGlyph (getFontOffset weights idx).toNat then getFontOffset weights idx
    else findFontIndexInBlockAux weights hasGlyph f (getFontOffset weights idx)) = _
  rw [if_pos heq]

theorem findFontIndexInBlockAux_eq_find? (weights : List Int)
    (hasGlyph : Nat → Bool) :
    ∀ (fuel : Nat) (idx : Int),
      findFontIndexInBlockAux weights hasGlyph fuel idx =
        (match (fontVisitsAux weights fuel idx).find? hasGlyph with
         | some k => Int.ofNat k
         | none => kInvalidFont) := by
  intro fuel
  induction fuel with
  | zero => intro idx; simp [findFontIndexInBlockAux, fontVisitsAux]
  | succ f ih =>
    intro idx
    rcases getFontOffset_cases weights idx with ⟨h1, _⟩ | ⟨k, _, heq, _, _, _, _⟩
    · rw [findFontIndexInBlockAux_invalid weights hasGlyph f idx h1,
        fontVisitsAux_nil weights f idx h1]
      simp [List.find?]
    · rw [findFontIndexInBlockAux_step weights hasGlyph f idx k heq,
        fontVisitsAux_cons weights f idx k heq]
      by_cases hg : hasGlyph k = true
      · simp [List.find?, hg]
      · have hg' : hasGlyph k = false := by simpa using hg
        simp [List.find?, hg', ih (getFontOffset weights idx)]

theorem fontVisitsAux_head (weights : List Int) (fuel : Nat) (idx : Int)
    (k2 : Nat) (h : (fontVisitsAux weights fuel idx).head? = some k2) :
    k2 < weights.length ∧ 0 < weights.getD k2 0 ∧
      weights.getD k2 0 < fontUpperBound weights idx := by
  match fuel with
  | 0 => simp [fontVisitsAux] at h
  | f + 1 =>
    rcases getFontOffset_cases weights idx with ⟨h1, _⟩ | ⟨k, hk, heq, hpos, hub, _, _⟩
    · rw [fontVisitsAux_nil weights f idx h1] at h
      simp at h
    · rw [fontVisitsAux_cons weights f idx k heq] at h
      simp only [List.head?_cons, Option.some.injEq] at h
      subst h
      exact ⟨hk, hpos, hub⟩

theorem fontUpperBound_ofNat (weights : List Int) (k : Nat) :
    fontUpperBound weights (Int.ofNat k) = weights.getD k 0 := by
  rw [fontUpperBound, if_pos (ofNat_ne_invalid k)]; rfl

theorem fontVisitsAux_chain (weights : List Int) :
    ∀ (fuel : Nat) (idx : Int),
      List.Chain' (fun a b => weights.getD b 0 < weights.getD a 0)
        (fontVisitsAux weights fuel idx) := by
  intro fuel
  induction fuel with
  | zero => intro idx; simp [fontVisitsAux]
  | succ f ih =>
    intro idx
    rcases getFontOffset_cases weights idx with ⟨h1, _⟩ | ⟨k, _, heq, _, _, _, _⟩
    · rw [fontVisitsAux_nil weights f idx h1]
      simp
    · rw [fontVisitsAux_cons weights f idx k heq, List.chain'_cons']
      refine ⟨?_, ih (getFontOffset weights idx)⟩
      intro y hy
      have hhead := fontVisitsAux_head weights f (getFontOffset weights idx) y hy
      rw [heq, fontUpperBound_ofNat] at hhead
      exact hhead.2.2

theorem fontVisitsAux_mem (weights : List Int) :
    ∀ (fuel : Nat) (idx : Int) (k : Nat), k ∈ fontVisitsAux weights fuel idx →
      k < weights.length ∧ 0 < weights.getD k 0 := by
  intro fuel
  induction fuel with
  | zero => intro idx k hk; simp [fontVisitsAux] at hk
  | succ f ih =>
    intro idx k hk
    rcases getFontOffset_cases weights idx with ⟨h1, _⟩ | ⟨k', hk', heq, hpos, _, _, _⟩
    · rw [fontVisitsAux_nil weights f idx h1] at hk
      simp at hk
    · rw [fontVisitsAux_cons weights f idx k' heq] at hk
      simp only [List.mem_cons] at hk
      rcases hk with rfl | hk
      · exact ⟨hk', hpos⟩
      · exact ih _ _ hk

theorem fontVisitsAux_eq_spec (weights : List Int)
    (hlt : ∀ w ∈ weights, w < intMax) :
    ∀ (fuel : Nat) (idx : Int),
      fontVisitsAux weights fuel idx =
        specFontVisitsAux weights fuel (specCeil weights idx) := by
  intro fuel
  induction fuel with
  | zero => intro idx; rfl
  | succ f ih =>
    intro idx
    have hr := getFontOffset_eq_specNextFont weights idx hlt
    rcases hnext : specNextFont weights (specCeil weights idx) with _ | k
    · rw [hnext] at hr
      simp only at hr
      rw [fontVisitsAux_nil weights f idx hr]
      simp [specFontVisitsAux, hnext]
    · rw [hnext] at hr
      simp only at hr
      have hceil : specCeil weights (getFontOffset weights idx) =
          some (weights.getD k 0) := by
        rw [hr, specCeil, if_neg (ofNat_ne_invalid k)]; rfl
      rw [fontVisitsAux_cons weights f idx k hr]
      show _ = (match specNextFont weights (specCeil weights idx) with
        | none => []
        | some k => k :: specFontVisitsAux weights f (some (weights.getD k 0)))
      rw [hnext]
      simp only [List.cons.injEq, true_and]
      rw [ih (getFontOffset weights idx), hceil]

theorem fontCandCount_lt (weights : List Int) (idx : Int) (k : Nat)
    (hr : getFontOffset weights idx = Int.ofNat k) :
    fontCandCount weights (fontUpperBound weights (Int.ofNat k)) <
      fontCandCount weights (fontUpperBound weights idx) := by
  rcases getFontOffset_cases weights idx with ⟨h1, _⟩ | ⟨k', hk', heq, hpos, hub, _, _⟩
  · rw [h1] at hr; exact absurd hr.symm (ofNat_ne_invalid k)
  · have hkk : k' = k := by
      rw [heq] at hr
      exact Int.ofNat.inj hr
    subst hkk
    rw [fontUpperBound_ofNat]
    apply Finset.card_lt_card
    rw [Finset.ssubset_def]
    constructor
    · intro l hl
      simp only [Finset.mem_filter, Finset.mem_range] at hl ⊢
      exact ⟨hl.1, hl.2.1, lt_trans hl.2.2 hub⟩
    · intro hsup
      have hmem : k' ∈ (Finset.range weights.length).filter
          (fun l => 0 < weights.getD l 0 ∧
            weights.getD l 0 < fontUpperBound weights idx) := by
        simp only [Finset.mem_filter, Finset.mem_range]
        exact ⟨hk', hpos, hub⟩
      have hk2 := hsup hmem
      simp only [Finset.mem_filter, Finset.mem_range] at hk2
      exact absurd hk2.2.2 (lt_irrefl _)

theorem fontVisitsAux_stable (weights : List Int) :
    ∀ (n fuel : Nat) (idx : Int),
      fontCandCount weights (fontUpperBound weights idx) ≤ n → n ≤ fuel →
      fontVisitsAux weights fuel idx = fontVisitsAux weights n idx := by
  intro n
  induction n with
  | zero =>
    intro fuel idx hcand _
    have hempty : ∀ k : Nat, getFontOffset weights idx ≠ Int.ofNat k := by
      intro k hk
      have := fontCandCount_lt weights idx k hk
      omega
    match fuel with
    | 0 => rfl
    | f + 1 =>
      rcases getFontOffset_cases weights idx with ⟨h1, _⟩ | ⟨k, _, heq, _, _, _, _⟩
      · rw [fontVisitsAux_nil weights f idx h1]; rfl
      · exact absurd heq (hempty k)
  | succ n ih =>
    intro fuel idx hcand hfuel
    match fuel, hfuel with
    | f + 1, hfuel =>
      rcases getFontOffset_cases weights idx with ⟨h1, _⟩ | ⟨k, _, heq, _, _, _, _⟩
      · rw [fontVisitsAux_nil weights f idx h1, fontVisitsAux_nil weights n idx h1]
      · have hlt := fontCandCount_lt weights idx k heq
        rw [← heq] at hlt
        rw [fontVisitsAux_cons weights f idx k heq,
          fontVisitsAux_cons weights n idx k heq,
          ih f (getFontOffset weights idx) (by omega) (by omega)]

theorem fontCandCount_le_length (weights : List Int) (ub : Int) :
    fontCandCount weights ub ≤ weights.length := by
  calc fontCandCount weights ub ≤ (Finset.range weights.length).card :=
        Finset.card_filter_le _ _
    _ = weights.length := Finset.card_range _

/-- Any fuel of at least `weights.length + 1` computes the same visit list:
the fueled definition is a faithful rendering of the unbounded C++ loop. -/
theorem fontVisits_fuel_stable (weights : List Int) (fuel : Nat)
    (h : weights.length + 1 ≤ fuel) :
    fontVisitsAux weights fuel kInvalidFont = fontVisits weights := by
  rw [fontVisits]
  exact fontVisitsAux_stable weights (weights.length + 1) fuel kInvalidFont
    (le_trans (fontCandCount_le_length _ _) (by omega)) h

/-- Same statement for the search itself. -/
theorem findFontIndexInBlock_fuel_stable (weights : List Int)
    (hasGlyph : Nat → Bool) (fuel : Nat) (h : weights.length + 1 ≤ fuel) :
    findFontIndexInBlockAux weights hasGlyph fuel kInvalidFont =
      findFontIndexInBlock weights hasGlyph := by
  rw [findFontIndexInBlock, findFontIndexInBlockAux_eq_find?,
    findFontIndexInBlockAux_eq_find?]
  have hv : fontVisitsAux weights fuel kInvalidFont =
      fontVisitsAux weights (weights.length + 1) kInvalidFont :=
    fontVisitsAux_stable weights (weights.length + 1) fuel kInvalidFont
      (le_trans (fontCandCount_le_length _ _) (by omega)) h
  rw [hv]

example : getFontOffset [3, 7, 7, 2] kInvalidFont = 1 := by decide

example : getFontOffset [3, 7, 7, 2] 1 = 0 := by decide

example : fontVisits [3, 7, 7, 2] = [1, 0, 3] := by decide

example : specFontVisits [3, 7, 7, 2] = [1, 0, 3] := by decide

example : fontVisits [3, 7, 0, 2] = [1, 0, 3] := by decide

example : findFontIndexInBlock [3, 7, 0, 2] (fun k => decide (k = 3)) = 3 := by decide

example : findFontIndexInBlock [3, 7, 0, 2] (fun k => decide (k = 2)) = kInvalidFont := by
  decide

example : findFontIndexInBlock [3, 7, 0, 2] (fun _ => false) = kInvalidFont := by decide

/-- Claim C1: for every block whose weight vector is non-empty,
`FindFontIndexInBlock` visits candidate fonts in strictly decreasing weight
order — each step excluding all weights `>=` the previously tried font's
weight, ties broken toward the lower font index, which is exactly the order
`specFontVisits` built from the claim's words — never visits a font whose
weight for the block is `0`, and returns the first visited font index whose
`hasGlyph` is true, or `kInvalidFont = -1` if no visited font has the glyph.
(The bound `intMax` keeps genuine C++ `int` weights below the `INT_MAX`
sentinel used as the initial exclusion ceiling.) -/
theorem claim_C1 (weights : List Int) (hasGlyph : Nat → Bool)
    (hne : weights ≠ []) (hlt : ∀ w ∈ weights, w < intMax) :
    fontVisits weights = specFontVisits weights ∧
    (∀ k ∈ fontVisits weights, weights.getD k 0 ≠ 0) ∧
    List.Chain' (fun a b => weights.getD b 0 < weights.getD a 0)
      (fontVisits weights) ∧
    findFontIndexInBlock weights hasGlyph =
      (match (fontVisits weights).find? hasGlyph with
       | some k => Int.ofNat k
       | none => kInvalidFont) := by
  have _hne := hne
  refine ⟨?_, ?_, ?_, ?_⟩
  · have hceil : specCeil weights kInvalidFont = none := by simp [specCeil]
    rw [fontVisits, specFontVisits, fontVisitsAux_eq_spec weights hlt, hceil]
  · intro k hk
    have hmem := (fontVisitsAux_mem weights _ _ k hk).2
    omega
  · exact fontVisitsAux_chain weights _ _
  · rw [findFontIndexInBlock, findFontIndexInBlockAux_eq_find?]
    rfl

/-- Correctness of the binary search on a partitioned range: if the indices
satisfying `end < v` are exactly those below a boundary `N` inside the
searched range, the search returns `N`. -/
theorem lowerBoundAux_eq (blocks : List UnicodeBlock) (v : Nat) :
    ∀ (fuel len first N : Nat), len ≤ fuel → first ≤ N → N ≤ first + len →
      (∀ i, first ≤ i → i < first + len → ((blkAt blocks i).uend < v ↔ i < N)) →
      lowerBoundAux blocks v fuel first len = N := by
  intro fuel
  induction fuel with
  | zero =>
    intro len first N hfuel h1 h2 _
    have : len = 0 := by omega
    subst this
    show first = N
    omega
  | succ f ih =>
    intro len first N hfuel h1 h2 h3
    match len, hfuel with
    | 0, _ =>
      show (if (0 : Nat) = 0 then first else _) = N
      rw [if_pos rfl]
      omega
    | l + 1, hfuel =>
      show (if l + 1 = 0 then first
        else if (blkAt blocks (first + (l + 1) / 2)).uend < v then
          lowerBoundAux blocks v f (first + (l + 1) / 2 + 1) (l + 1 - (l + 1) / 2 - 1)
        else lowerBoundAux blocks v f first ((l + 1) / 2)) = N
      rw [if_neg (Nat.succ_ne_zero l)]
      by_cases hc : (blkAt blocks (first + (l + 1) / 2)).uend < v
      · rw [if_pos hc]
        have hmidN : first + (l + 1) / 2 < N :=
          (h3 (first + (l + 1) / 2) (by omega) (by omega)).mp hc
        apply ih (l + 1 - (l + 1) / 2 - 1) (first + (l + 1) / 2 + 1) N (by omega)
          (by omega) (by omega)
        intro i hi1 hi2
        exact h3 i (by omega) (by omega)
      · rw [if_neg hc]
        have hNmid : ¬ first + (l + 1) / 2 < N := fun hlt =>
          hc ((h3 (first + (l + 1) / 2) (by omega) (by omega)).mpr hlt)
        apply ih ((l + 1) / 2) first N (by omega) h1 (by omega)
        intro i hi1 hi2
        exact h3 i (by omega) (by omega)

theorem blocksSorted_index (blocks : List UnicodeBlock)
    (h : BlocksSorted blocks) (i j : Nat) (hij : i < j) (hj : j < blocks.length) :
    (blkAt blocks i).uend < (blkAt blocks j).ustart := by
  have hp := (List.pairwise_iff_get.mp h.2) ⟨i, by omega⟩ ⟨j, hj⟩ hij
  rw [blkAt, blkAt, List.getD_eq_getElem _ _ (by omega : i < blocks.length),
    List.getD_eq_getElem _ _ hj]
  simpa using hp

/-- On a sorted block list, a covering block is found by the binary search:
`lowerBound` returns exactly the index of any block containing `cp`. -/
theorem lowerBound_of_hasSymbol (blocks : List UnicodeBlock)
    (h : BlocksSorted blocks) (i : Nat) (hi : i < blocks.length)
    (hs : (blkAt blocks i).hasSymbol cp = true) :
    lowerBound blocks cp = i := by
  have hstart : (blkAt blocks i).ustart ≤ cp := by
    have := hs
    simp only [UnicodeBlock.hasSymbol, Bool.and_eq_true, decide_eq_true_eq] at this
    exact this.1
  have hend : cp ≤ (blkAt blocks i).uend := by
    have := hs
    simp only [UnicodeBlock.hasSymbol, Bool.and_eq_true, decide_eq_true_eq] at this
    exact this.2
  apply lowerBoundAux_eq blocks cp blocks.length blocks.length 0 i (le_refl _)
    (by omega) (by omega)
  intro j _ hj0
  have hj : j < blocks.length := by omega
  constructor
  · intro hlt
    by_contra hge
    have hij : i ≤ j := by omega
    rcases Nat.eq_or_lt_of_le hij with rfl | hij'
    · omega
    · have hlt2 := blocksSorted_index blocks h i j hij' hj
      have hvalid : (blkAt blocks j).ustart ≤ (blkAt blocks j).uend := by
        apply h.1
        rw [blkAt, List.getD_eq_getElem _ _ hj]
        exact List.getElem_mem hj
      omega
  · intro hlt
    have := blocksSorted_index blocks h j i hlt hi
    omega

/-- Claim C2: for every code point and every valid state of the single-slot
`m_lastUsedBlock` cache (any block index, hence in particular any state
reachable by prior calls), the stateful `GetFontIndex` and the stateless
`GetFontIndexImmutable` agree on the returned font index, provided the block
list satisfies its sortedness invariant. -/
theorem claim_C2 (blocks : List UnicodeBlock) (fonts : List FontModel)
    (hsorted : BlocksSorted blocks) (cache : Option Nat)
    (hcache : ∀ i ∈ cache, i < blocks.length) (cp : Nat) :
    (getFontIndex blocks fonts cache cp).1 =
      getFontIndexImmutable blocks fonts cp := by
  have hiter : getFontIndexIter blocks cache cp = lowerBound blocks cp := by
    match cache with
    | none => rfl
    | some i =>
      by_cases hs : (blkAt blocks i).hasSymbol cp = true
      · have hlb : lowerBound blocks cp = i :=
          lowerBound_of_hasSymbol blocks hsorted i (hcache i rfl) hs
        simp only [getFontIndexIter]
        rw [if_pos hs, hlb]
      · simp only [getFontIndexIter]
        rw [if_neg hs]
  rw [getFontIndex, getFontIndexImmutable, hiter]
  by_cases hC : lowerBound blocks cp = blocks.length ∨
      ¬ (blkAt blocks (lowerBound blocks cp)).hasSymbol cp
  · rw [if_pos hC, if_pos hC]
  · rw [if_neg hC, if_neg hC]

/-- Closed witness for C2: a two-block list with the cache pointing at the
second block. -/
theorem claim_C2_witness :
    (BlocksSorted [⟨"Basic", 0, 127, [5]⟩, ⟨"Lat1", 128, 255, [0, 3]⟩] ∧
      (∀ i ∈ (some 1 : Option Nat),
        i < ([⟨"Basic", 0, 127, [5]⟩, ⟨"Lat1", 128, 255, [0, 3]⟩] :
          List UnicodeBlock).length)) ∧
    (getFontIndex [⟨"Basic", 0, 127, [5]⟩, ⟨"Lat1", 128, 255, [0, 3]⟩]
        [⟨fun c => decide (c = 130), fun _ _ => false⟩] (some 1) 130).1 =
      getFontIndexImmutable [⟨"Basic", 0, 127, [5]⟩, ⟨"Lat1", 128, 255, [0, 3]⟩]
        [⟨fun c => decide (c = 130), fun _ _ => false⟩] 130 :=
  ⟨⟨⟨by decide, by decide⟩, by decide⟩,
    claim_C2 [⟨"Basic", 0, 127, [5]⟩, ⟨"Lat1", 128, 255, [0, 3]⟩]
      [⟨fun c => decide (c = 130), fun _ _ => false⟩]
      ⟨by decide, by decide⟩ (some 1) (by decide) 130⟩

/-!  ## `AreGlyphsReady` -/

theorem findFontIndexInBlock_cases (weights : List Int) (hg : Nat → Bool) :
    findFontIndexInBlock weights hg = kInvalidFont ∨
    ∃ k : Nat, k < weights.length ∧
      findFontIndexInBlock weights hg = Int.ofNat k ∧ hg k = true := by
  rw [findFontIndexInBlock, findFontIndexInBlockAux_eq_find?]
  rcases hf : (fontVisitsAux weights (weights.length + 1) kInvalidFont).find? hg
    with _ | k
  · left; rfl
  · right
    refine ⟨k, ?_, rfl, List.find?_some hf⟩
    exact (fontVisitsAux_mem weights _ _ k (List.mem_of_find?_eq_some hf)).1

theorem getFontIndexImmutable_cases (blocks : List UnicodeBlock)
    (fonts : List FontModel) (cp : Nat) :
    getFontIndexImmutable blocks fonts cp = kInvalidFont ∨
    ∃ k : Nat, getFontIndexImmutable blocks fonts cp = Int.ofNat k := by
  rw [getFontIndexImmutable]
  by_cases hC : lowerBound blocks cp = blocks.length ∨
      ¬ (blkAt blocks (lowerBound blocks cp)).hasSymbol cp
  · left; rw [if_pos hC]
  · rw [if_neg hC]
    rcases findFontIndexInBlock_cases
        (blkAt blocks (lowerBound blocks cp)).fontsWeight
        (fontHasGlyphAt fonts cp) with h | ⟨k, _, h, _⟩
    · left; exact h
    · right; exact ⟨k, h⟩

/-- Claim C10: `AreGlyphsReady(str, fixedSize)` is true iff every code point
of `str` resolves via the stateless lookup to some font that has
`(code, fixedSize)` marked ready; in particular it is true on the empty
string, and false for any string containing an unresolvable code point —
whatever the fonts' ready sets contain (the fonts, and hence the readiness of
the invalid-glyph placeholder `(0x9, fixedSize)` on font 0, are universally
quantified). -/
theorem claim_C10 (blocks : List UnicodeBlock) (fonts : List FontModel)
    (str : List Nat) (fixedSize : Int) :
    (areGlyphsReady blocks fonts str fixedSize = true ↔
      ∀ c ∈ str, ∃ k : Nat, getFontIndexImmutable blocks fonts c = Int.ofNat k ∧
        (fonts.getD k defaultFont).isGlyphReady c fixedSize = true) ∧
    areGlyphsReady blocks fonts [] fixedSize = true ∧
    (∀ c ∈ str, getFontIndexImmutable blocks fonts c = kInvalidFont →
      areGlyphsReady blocks fonts str fixedSize = false) := by
  have hpoint : ∀ c,
      ((if getFontIndexImmutable blocks fonts c = kInvalidFont then false
        else (fonts.getD (getFontIndexImmutable blocks fonts c).toNat
          defaultFont).isGlyphReady c fixedSize) = true ↔
        ∃ k : Nat, getFontIndexImmutable blocks fonts c = Int.ofNat k ∧
          (fonts.getD k defaultFont).isGlyphReady c fixedSize = true) := by
    intro c
    rcases getFontIndexImmutable_cases blocks fonts c with h | ⟨k, h⟩
    · rw [if_pos h]
      simp only [Bool.false_eq_true, false_iff, not_exists]
      intro k hk
      rw [h] at hk
      exact absurd hk.1.symm (ofNat_ne_invalid k)
    · rw [if_neg (by rw [h]; exact ofNat_ne_invalid k), h, toNat_ofNat']
      constructor
      · intro hr; exact ⟨k, rfl, hr⟩
      · rintro ⟨k', hk', hr⟩
        have : k' = k := Int.ofNat.inj hk'.symm
        subst this
        exact hr
  refine ⟨?_, rfl, ?_⟩
  · rw [areGlyphsReady, List.all_eq_true]
    constructor
    · intro h c hc; exact (hpoint c).mp (h c hc)
    · intro h c hc; exact (hpoint c).mpr (h c hc)
  · intro c hc hinv
    have hfalse : (if getFontIndexImmutable blocks fonts c = kInvalidFont then false
        else (fonts.getD (getFontIndexImmutable blocks fonts c).toNat
          defaultFont).isGlyphReady c fixedSize) = false := by
      rw [if_pos hinv]
    rw [areGlyphsReady]
    rcases hall : str.all (fun code =>
      if getFontIndexImmutable blocks fonts code = kInvalidFont then false
      else (fonts.getD (getFontIndexImmutable blocks fonts code).toNat
        defaultFont).isGlyphReady code fixedSize) with _ | _
    · rfl
    · have := List.all_eq_true.mp hall c hc
      rw [hfalse] at this
      cases this

/-- Closed witness for C10: the string holds an uncovered code point, and the
invalid-glyph placeholder `(0x9, 16)` is marked ready on font 0, yet
`AreGlyphsReady` is still false. -/
theorem claim_C10_witness :
    areGlyphsReady [⟨"Basic", 0, 127, [1]⟩]
      [⟨fun c => decide (c ≤ 127), fun c h => decide (c = 9 ∧ h = 16)⟩]
      [700] 16 = false :=
  (claim_C10 [⟨"Basic", 0, 127, [1]⟩]
      [⟨fun c => decide (c ≤ 127), fun c h => decide (c = 9 ∧ h = 16)⟩]
      [700] 16).2.2 700 (by decide) (by decide)

/-- Claim C4: whenever font resolution fails, `GetGlyph` returns the reserved
invalid-glyph placeholder — code point `0x9` rasterized from font index `0`
with metrics marked invalid — computing it on the first such call (empty
cache), storing it in the process-lifetime cache, and returning the cached
glyph unchanged on every later call (any code point, height and lookup-cache
state); the failure is never surfaced as an error (the function is total and
always yields a glyph). -/
theorem claim_C4 (blocks : List UnicodeBlock) (fonts : List FontModel)
    (rasterize : Nat → Nat → Nat → Bool → Glyph) (baseGlyphHeight : Nat)
    (lastUsed : Option Nat) (cp : Nat) (fixedHeight : Int)
    (hfail : (getFontIndex blocks fonts lastUsed cp).1 = kInvalidFont) :
    (getGlyph blocks fonts rasterize baseGlyphHeight lastUsed none cp
        fixedHeight =
      (let isSdf := fixedHeight < 0
       let g := { rasterize 0 9
            (if isSdf then baseGlyphHeight else fixedHeight.toNat) isSdf with
          metricsValid := false, fontIndex := 0, code := 9 }
       (g, (getFontIndex blocks fonts lastUsed cp).2, some g))) ∧
    (∀ (g0 : Glyph) (lastUsed' : Option Nat) (cp' : Nat) (fixedHeight' : Int),
      (getFontIndex blocks fonts lastUsed' cp').1 = kInvalidFont →
      getGlyph blocks fonts rasterize baseGlyphHeight lastUsed' (some g0) cp'
          fixedHeight' =
        (g0, (getFontIndex blocks fonts lastUsed' cp').2, some g0)) := by
  constructor
  · rw [getGlyph]
    simp only [hfail, if_pos rfl, getInvalidGlyph]
    simp
  · intro g0 lastUsed' cp' fixedHeight' hfail'
    rw [getGlyph]
    simp only [hfail', if_pos rfl, getInvalidGlyph]
    simp

/-- Closed witness for C4: one block covering ASCII, a code point outside it. -/
theorem claim_C4_witness :
    (getFontIndex [⟨"Basic", 0, 127, [1]⟩]
        [⟨fun c => decide (c ≤ 127), fun _ _ => false⟩] none 700).1 =
      kInvalidFont ∧
    getGlyph [⟨"Basic", 0, 127, [1]⟩]
        [⟨fun c => decide (c ≤ 127), fun _ _ => false⟩]
        (fun fi c h sdf => ⟨c, Int.ofNat fi, if sdf then -1 else Int.ofNat h, true, 42⟩)
        20 none none 700 16 =
      (⟨9, 0, 16, false, 42⟩,
        (getFontIndex [⟨"Basic", 0, 127, [1]⟩]
          [⟨fun c => decide (c ≤ 127), fun _ _ => false⟩] none 700).2,
        some ⟨9, 0, 16, false, 42⟩) := by
  refine ⟨by decide, ?_⟩
  have h := (claim_C4 [⟨"Basic", 0, 127, [1]⟩]
      [⟨fun c => decide (c ≤ 127), fun _ _ => false⟩]
      (fun fi c h sdf => ⟨c, Int.ofNat fi, if sdf then -1 else Int.ofNat h, true, 42⟩)
      20 none 700 16 (by decide)).1
  rw [h]
  decide

theorem wildcardBlacklisted_eq_any (blacklst : List (String × String))
    (fontName : String) :
    wildcardBlacklisted blacklst fontName =
      blacklst.any (fun p => decide (p.1 = fontName) && decide (p.2 = "*")) := by
  have hgen : ∀ (lst : List (String × String)) (acc : Bool),
      lst.foldl (fun ig p => if p.1 = fontName ∧ p.2 = "*" then true else ig) acc =
        (acc || lst.any (fun p => decide (p.1 = fontName) && decide (p.2 = "*"))) := by
    intro lst
    induction lst with
    | nil => intro acc; simp
    | cons e rest ih =>
      intro acc
      rw [List.foldl_cons, List.any_cons]
      by_cases he : e.1 = fontName ∧ e.2 = "*"
      · have hp : (decide (e.1 = fontName) && decide (e.2 = "*")) = true := by
          simp [he.1, he.2]
        rw [if_pos he, ih, hp]
        simp
      · have hp : (decide (e.1 = fontName) && decide (e.2 = "*")) = false := by
          rcases not_and_or.mp he with h | h <;> simp [h]
        rw [if_neg he, ih, hp]
        simp
  rw [wildcardBlacklisted, hgen]
  simp

theorem mem_loadedFonts (blacklst : List (String × String))
    (fonts : List FontInput) (g : FontInput)
    (hg : g ∈ loadedFonts blacklst fonts) :
    g ∈ fonts ∧ wildcardBlacklisted blacklst g.name = false ∧ g.loads = true := by
  rw [loadedFonts] at hg
  have h1 := List.mem_of_mem_filter hg
  have h2 := List.of_mem_filter hg
  simp only [Bool.and_eq_true, Bool.not_eq_true'] at h2
  exact ⟨h1, h2.1, h2.2⟩

theorem processFont_skip_wildcard (whitelst blacklst : List (String × String))
    (st : GMState) (f : FontInput)
    (hw : wildcardBlacklisted blacklst f.name = true) :
    processFont whitelst blacklst st f = st := by
  rw [processFont, if_pos hw]

theorem processFont_skip_load (whitelst blacklst : List (String × String))
    (st : GMState) (f : FontInput)
    (hw : wildcardBlacklisted blacklst f.name = false) (hl : f.loads = false) :
    processFont whitelst blacklst st f = st := by
  rw [processFont, if_neg (by simp [hw]), if_pos (by simp [hl])]

theorem processFont_load (whitelst blacklst : List (String × String))
    (st : GMState) (f : FontInput)
    (hw : wildcardBlacklisted blacklst f.name = false) (hl : f.loads = true) :
    processFont whitelst blacklst st f =
      ⟨persistCover (st.fontsCount + 1) st.blocks
        (enumerateFn st.blocks f.name whitelst (whitelistValue (st.fontsCount + 1))
          (enumerateFn st.blocks f.name blacklst (fun _ => 0)
            (computeCoverInfo st.blocks f.charcodes))),
        st.fontsCount + 1⟩ := by
  rw [processFont, if_neg (by simp [hw]), if_neg (by simp [hl])]

theorem loadedFonts_cons_skip (blacklst : List (String × String))
    (f : FontInput) (rest : List FontInput)
    (hp : (!wildcardBlacklisted blacklst f.name && f.loads) = false) :
    loadedFonts blacklst (f :: rest) = loadedFonts blacklst rest := by
  rw [loadedFonts, List.filter_cons, if_neg (by simp [hp])]
  rfl

theorem loadedFonts_cons_keep (blacklst : List (String × String))
    (f : FontInput) (rest : List FontInput)
    (hp : (!wildcardBlacklisted blacklst f.name && f.loads) = true) :
    loadedFonts blacklst (f :: rest) = f :: loadedFonts blacklst rest := by
  rw [loadedFonts, List.filter_cons, if_pos (by simp [hp])]
  rfl

theorem fontsCount_eq_loadedFonts (whitelst blacklst : List (String × String)) :
    ∀ (fonts : List FontInput) (st : GMState),
      (fonts.foldl (processFont whitelst blacklst) st).fontsCount =
        st.fontsCount + (loadedFonts blacklst fonts).length := by
  intro fonts
  induction fonts with
  | nil => intro st; simp [loadedFonts]
  | cons f rest ih =>
    intro st
    rw [List.foldl_cons, ih]
    by_cases hw : wildcardBlacklisted blacklst f.name = true
    · rw [processFont_skip_wildcard whitelst blacklst st f hw,
        loadedFonts_cons_skip blacklst f rest (by simp [hw])]
    · have hw' : wildcardBlacklisted blacklst f.name = false := by simpa using hw
      by_cases hl : f.loads = true
      · rw [processFont_load whitelst blacklst st f hw' hl,
          loadedFonts_cons_keep blacklst f rest (by simp [hw', hl])]
        show st.fontsCount + 1 + (loadedFonts blacklst rest).length =
          st.fontsCount + (loadedFonts blacklst rest).length.succ
        omega
      · have hl' : f.loads = false := by simpa using hl
        rw [processFont_skip_load whitelst blacklst st f hw' hl',
          loadedFonts_cons_skip blacklst f rest (by simp [hl'])]

theorem setBack_resizeTo_length (n : Nat) (hn : 1 ≤ n) (xs : List Int) (v : Int) :
    (setBack (resizeTo n xs) v).length = n := by
  have hres : (resizeTo n xs).length = n := by
    rw [resizeTo, List.length_append, List.length_take, List.length_replicate]
    omega
  rw [setBack, List.length_append, List.length_dropLast, hres]
  simp
  omega

theorem updateAt_mem {α : Type} : ∀ (bs : List α) (i : Nat)
    (f : α → α) (b : α),
    b ∈ updateAt bs i f → b ∈ bs ∨ ∃ orig ∈ bs, b = f orig := by
  intro bs
  induction bs with
  | nil => intro i f b hb; simp [updateAt] at hb
  | cons x xs ih =>
    intro i f b hb
    match i with
    | 0 =>
      simp only [updateAt, List.mem_cons] at hb
      rcases hb with rfl | hb
      · right; exact ⟨x, by simp, rfl⟩
      · left; simp [hb]
    | n + 1 =>
      simp only [updateAt, List.mem_cons] at hb
      rcases hb with rfl | hb
      · left; simp
      · rcases ih n f b hb with h | ⟨orig, ho, he⟩
        · left; simp [h]
        · right; exact ⟨orig, by simp [ho], he⟩

theorem persistCover_weights_le (n : Nat) (hn : 1 ≤ n) :
    ∀ (cover : List (Nat × Int)) (blocks : List UnicodeBlock),
      (∀ b ∈ blocks, b.fontsWeight.length ≤ n) →
      ∀ b ∈ persistCover n blocks cover, b.fontsWeight.length ≤ n := by
  intro cover
  induction cover with
  | nil => intro blocks h b hb; exact h b hb
  | cons nd rest ih =>
    intro blocks h b hb
    rw [persistCover, List.foldl_cons] at hb
    apply ih _ _ b hb
    intro b' hb'
    rcases updateAt_mem blocks nd.1 _ b' hb' with hmem | ⟨orig, _, he⟩
    · exact h b' hmem
    · rw [he]
      show (setBack (resizeTo n orig.fontsWeight) nd.2).length ≤ n
      rw [setBack_resizeTo_length n hn]

/-- Invariant: every block's weight vector is no longer than the number of
fonts loaded so far. -/
theorem blocks_weights_le (whitelst blacklst : List (String × String)) :
    ∀ (fonts : List FontInput) (st : GMState),
      (∀ b ∈ st.blocks, b.fontsWeight.length ≤ st.fontsCount) →
      ∀ b ∈ (fonts.foldl (processFont whitelst blacklst) st).blocks,
        b.fontsWeight.length ≤
          (fonts.foldl (processFont whitelst blacklst) st).fontsCount := by
  intro fonts
  induction fonts with
  | nil => intro st h; exact h
  | cons f rest ih =>
    intro st h
    rw [List.foldl_cons]
    apply ih
    by_cases hw : wildcardBlacklisted blacklst f.name = true
    · rw [processFont_skip_wildcard whitelst blacklst st f hw]; exact h
    · have hw' : wildcardBlacklisted blacklst f.name = false := by simpa using hw
      by_cases hl : f.loads = true
      · rw [processFont_load whitelst blacklst st f hw' hl]
        intro b hb
        exact persistCover_weights_le (st.fontsCount + 1) (by omega) _ st.blocks
          (fun b' hb' => le_trans (h b' hb') (by omega)) b hb
      · have hl' : f.loads = false := by simpa using hl
        rw [processFont_skip_load whitelst blacklst st f hw' hl']
        exact h

/-- Claim C7: a `(F, "*")` blacklist entry removes font `F` entirely: no
loaded font is named `F` (hence every weight slot of every block belongs to
a font other than `F`, i.e. `F`'s weight is vacuously `0` everywhere), and
the resolver can never return an index denoting `F` — every non-`NONE`
result indexes a loaded font whose name differs from `F`. -/
theorem claim_C7 (blockDefs : List (String × Nat × Nat))
    (whitelst blacklst : List (String × String)) (fonts : List FontInput)
    (F : String) (hF : (F, "*") ∈ blacklst) :
    (∀ g ∈ loadedFonts blacklst fonts, g.name ≠ F) ∧
    (∀ b ∈ (glyphManagerInit blockDefs whitelst blacklst fonts).blocks,
      b.fontsWeight.length ≤ (loadedFonts blacklst fonts).length) ∧
    (∀ (fontModels : List FontModel) (lastUsed : Option Nat) (cp : Nat),
      (getFontIndex
          (glyphManagerInit blockDefs whitelst blacklst fonts).blocks
          fontModels lastUsed cp).1 = kInvalidFont ∨
      ∃ k : Nat,
        (getFontIndex
            (glyphManagerInit blockDefs whitelst blacklst fonts).blocks
            fontModels lastUsed cp).1 = Int.ofNat k ∧
        k < (loadedFonts blacklst fonts).length ∧
        ∀ (h : k < (loadedFonts blacklst fonts).length),
          ((loadedFonts blacklst fonts).get ⟨k, h⟩).name ≠ F) := by
  have hnameF : ∀ g ∈ loadedFonts blacklst fonts, g.name ≠ F := by
    intro g hg hname
    have hmem := mem_loadedFonts blacklst fonts g hg
    have : wildcardBlacklisted blacklst g.name = true := by
      rw [wildcardBlacklisted_eq_any]
      apply List.any_eq_true.mpr
      exact ⟨(F, "*"), hF, by simp [hname]⟩
    rw [hmem.2.1] at this
    cases this
  have hcount : (glyphManagerInit blockDefs whitelst blacklst fonts).fontsCount =
      (loadedFonts blacklst fonts).length := by
    rw [glyphManagerInit, fontsCount_eq_loadedFonts]
    simp
  have hweights : ∀ b ∈ (glyphManagerInit blockDefs whitelst blacklst fonts).blocks,
      b.fontsWeight.length ≤ (loadedFonts blacklst fonts).length := by
    intro b hb
    rw [← hcount]
    apply blocks_weights_le whitelst blacklst fonts ⟨initBlocks blockDefs, 0⟩ _ b hb
    intro b' hb'
    rw [initBlocks] at hb'
    rcases List.mem_map.mp hb' with ⟨t, _, ht⟩
    rw [← ht]
    simp
  refine ⟨hnameF, hweights, ?_⟩
  intro fontModels lastUsed cp
  rw [getFontIndex]
  by_cases hC : getFontIndexIter
      (glyphManagerInit blockDefs whitelst blacklst fonts).blocks lastUsed cp =
        (glyphManagerInit blockDefs whitelst blacklst fonts).blocks.length ∨
      ¬ (blkAt (glyphManagerInit blockDefs whitelst blacklst fonts).blocks
          (getFontIndexIter
            (glyphManagerInit blockDefs whitelst blacklst fonts).blocks lastUsed cp)).hasSymbol cp
  · left; rw [if_pos hC]
  · rw [if_neg hC]
    rcases findFontIndexInBlock_cases
        (blkAt (glyphManagerInit blockDefs whitelst blacklst fonts).blocks
          (getFontIndexIter
            (glyphManagerInit blockDefs whitelst blacklst fonts).blocks lastUsed cp)).fontsWeight
        (fontHasGlyphAt fontModels cp) with h | ⟨k, hk, heq, _⟩
    · left; exact h
    · right
      refine ⟨k, heq, ?_⟩
      set blocks := (glyphManagerInit blockDefs whitelst blacklst fonts).blocks
      set it := getFontIndexIter blocks lastUsed cp
      have hkbound : k < (loadedFonts blacklst fonts).length := by
        by_cases hit : it < blocks.length
        · have hmem : blkAt blocks it ∈ blocks := by
            rw [blkAt, List.getD_eq_getElem _ _ hit]
            exact List.getElem_mem hit
          exact lt_of_lt_of_le hk (hweights _ hmem)
        · have : blkAt blocks it = defaultBlock := by
            rw [blkAt, List.getD_eq_default]
            omega
          rw [this] at hk
          simp [defaultBlock] at hk
      refine ⟨hkbound, ?_⟩
      intro h
      apply hnameF
      exact List.get_mem _ k h

/-- Closed witness for C7: the font named "bad" is wildcard-blacklisted; the
remaining font resolves instead. -/
theorem claim_C7_witness :
    ((("bad", "*") : String × String) ∈ [(("bad", "*") : String × String)]) ∧
    (∀ g ∈ loadedFonts [("bad", "*")]
        [⟨"bad", true, [65]⟩, ⟨"good", true, [65, 66]⟩], g.name ≠ "bad") ∧
    (∀ b ∈ (glyphManagerInit [("Basic", 0, 127)] [] [("bad", "*")]
        [⟨"bad", true, [65]⟩, ⟨"good", true, [65, 66]⟩]).blocks,
      b.fontsWeight.length ≤
        (loadedFonts [("bad", "*")]
          [⟨"bad", true, [65]⟩, ⟨"good", true, [65, 66]⟩]).length) :=
  ⟨by decide,
    (claim_C7 [("Basic", 0, 127)] [] [("bad", "*")]
      [⟨"bad", true, [65]⟩, ⟨"good", true, [65, 66]⟩] "bad" (by decide)).1,
    (claim_C7 [("Basic", 0, 127)] [] [("bad", "*")]
      [⟨"bad", true, [65]⟩, ⟨"good", true, [65, 66]⟩] "bad" (by decide)).2.1⟩

example : parseUniBlocks ["Basic", "0", "7F", "Lat1", "80", "FF"] =
    [("Basic", 0, 127), ("Lat1", 128, 255)] := by decide

example : parseUniBlocks ["Basic", "0", "xyz", "Lat1", "80", "FF"] = [] := by
  decide

theorem updateAt_bounds (f : UnicodeBlock → UnicodeBlock)
    (hf : ∀ ub, (f ub).name = ub.name ∧ (f ub).ustart = ub.ustart ∧
      (f ub).uend = ub.uend) :
    ∀ (bs : List UnicodeBlock) (i : Nat),
      blockBounds (updateAt bs i f) = blockBounds bs := by
  intro bs
  induction bs with
  | nil => intro i; rfl
  | cons x xs ih =>
    intro i
    match i with
    | 0 =>
      show blockBounds (f x :: xs) = blockBounds (x :: xs)
      rw [blockBounds, blockBounds, List.map_cons, List.map_cons]
      rcases hf x with ⟨h1, h2, h3⟩
      rw [h1, h2, h3]
    | n + 1 =>
      show blockBounds (x :: updateAt xs n f) = blockBounds (x :: xs)
      rw [blockBounds, blockBounds, List.map_cons, List.map_cons]
      have := ih n
      rw [blockBounds, blockBounds] at this
      rw [this]

theorem persistCover_bounds (n : Nat) :
    ∀ (cover : List (Nat × Int)) (blocks : List UnicodeBlock),
      blockBounds (persistCover n blocks cover) = blockBounds blocks := by
  intro cover
  induction cover with
  | nil => intro blocks; rfl
  | cons nd rest ih =>
    intro blocks
    have hstep : persistCover n blocks (nd :: rest) =
        persistCover n (updateAt blocks nd.1 (fun ub =>
          { ub with fontsWeight := setBack (resizeTo n ub.fontsWeight) nd.2 }))
          rest := rfl
    rw [hstep, ih, updateAt_bounds]
    intro ub
    exact ⟨rfl, rfl, rfl⟩

theorem processFont_bounds (whitelst blacklst : List (String × String))
    (st : GMState) (f : FontInput) :
    blockBounds (processFont whitelst blacklst st f).blocks =
      blockBounds st.blocks := by
  by_cases hw : wildcardBlacklisted blacklst f.name = true
  · rw [processFont_skip_wildcard whitelst blacklst st f hw]
  · have hw' : wildcardBlacklisted blacklst f.name = false := by simpa using hw
    by_cases hl : f.loads = true
    · rw [processFont_load whitelst blacklst st f hw' hl]
      exact persistCover_bounds _ _ _
    · have hl' : f.loads = false := by simpa using hl
      rw [processFont_skip_load whitelst blacklst st f hw' hl']

theorem glyphManagerInit_bounds (whitelst blacklst : List (String × String)) :
    ∀ (fonts : List FontInput) (st : GMState),
      blockBounds ((fonts.foldl (processFont whitelst blacklst) st).blocks) =
        blockBounds st.blocks := by
  intro fonts
  induction fonts with
  | nil => intro st; rfl
  | cons f rest ih =>
    intro st
    rw [List.foldl_cons, ih, processFont_bounds]

/-- `BlocksSorted` only looks at the immutable bounds. -/
theorem blocksSorted_of_bounds_eq (b1 b2 : List UnicodeBlock)
    (h : blockBounds b1 = blockBounds b2) (hs : BlocksSorted b2) :
    BlocksSorted b1 := by
  constructor
  · intro b hb
    have hmem : (b.name, b.ustart, b.uend) ∈ blockBounds b1 :=
      List.mem_map.mpr ⟨b, hb, rfl⟩
    rw [h] at hmem
    rcases List.mem_map.mp hmem with ⟨b', hb', he⟩
    have h1 : b.ustart = b'.ustart := by
      have := congrArg (fun t => t.2.1) he
      simpa using this.symm
    have h2 : b.uend = b'.uend := by
      have := congrArg (fun t => t.2.2) he
      simpa using this.symm
    rw [h1, h2]
    exact hs.1 b' hb'
  · have h1 : (blockBounds b1).Pairwise (fun a b => a.2.2 < b.2.1) := by
      rw [h]
      rw [blockBounds, List.pairwise_map]
      exact hs.2
    rw [blockBounds, List.pairwise_map] at h1
    exact h1

/-- Counterexample to claim C8 as stated: the token list
`["B","10","20","A","0","5"]` is accepted by the parser (both triples parse),
yet the constructed block list is not sorted by block end — nothing in the
code sorts or checks the parsed blocks. -/
theorem claim_C8_counterexample :
    ¬ BlocksSorted
      ((glyphManagerInit (parseUniBlocks ["B", "10", "20", "A", "0", "5"])
        [] [] []).blocks) := by
  intro h
  have h2 := h.2
  have : ((16 : Nat) < 5 → False) := by omega
  revert h2
  decide

/-- Claim C8, amended: the constructor builds exactly the parsed triples in
input order, so the sorted/non-overlapping invariant holds precisely when the
block-definition input itself is sorted and non-overlapping; under that
hypothesis the invariant survives the whole construction (weight assignment
never touches the bounds) and the `lower_bound` binary search returns the
unique covering block. -/
theorem claim_C8_amended (tokens : List String)
    (whitelst blacklst : List (String × String)) (fonts : List FontInput)
    (hvalid : ∀ t ∈ parseUniBlocks tokens, t.2.1 ≤ t.2.2)
    (hsorted : (parseUniBlocks tokens).Pairwise (fun a b => a.2.2 < b.2.1)) :
    BlocksSorted
      ((glyphManagerInit (parseUniBlocks tokens) whitelst blacklst fonts).blocks) ∧
    (∀ (i cp : Nat),
      i < ((glyphManagerInit (parseUniBlocks tokens) whitelst blacklst
        fonts).blocks).length →
      (blkAt ((glyphManagerInit (parseUniBlocks tokens) whitelst blacklst
        fonts).blocks) i).hasSymbol cp = true →
      lowerBound ((glyphManagerInit (parseUniBlocks tokens) whitelst blacklst
        fonts).blocks) cp = i) := by
  have hinit : BlocksSorted (initBlocks (parseUniBlocks tokens)) := by
    constructor
    · intro b hb
      rcases List.mem_map.mp hb with ⟨t, ht, he⟩
      rw [← he]
      exact hvalid t ht
    · rw [initBlocks, List.pairwise_map]
      exact hsorted
  have hfinal : BlocksSorted
      ((glyphManagerInit (parseUniBlocks tokens) whitelst blacklst fonts).blocks) := by
    apply blocksSorted_of_bounds_eq _ (initBlocks (parseUniBlocks tokens))
    · rw [glyphManagerInit]
      exact glyphManagerInit_bounds whitelst blacklst fonts _
    · exact hinit
  refine ⟨hfinal, ?_⟩
  intro i cp hi hs
  exact lowerBound_of_hasSymbol _ hfinal i hi hs

/-- Closed witness for the amended C8 on a sorted two-block input. -/
theorem claim_C8_amended_witness :
    ((∀ t ∈ parseUniBlocks ["Basic", "0", "7F", "Lat1", "80", "FF"],
        t.2.1 ≤ t.2.2) ∧
      (parseUniBlocks ["Basic", "0", "7F", "Lat1", "80", "FF"]).Pairwise
        (fun a b => a.2.2 < b.2.1)) ∧
    BlocksSorted
      ((glyphManagerInit
        (parseUniBlocks ["Basic", "0", "7F", "Lat1", "80", "FF"])
        [] [] [⟨"font", true, [65, 130]⟩]).blocks) :=
  ⟨⟨by decide, by decide⟩,
    (claim_C8_amended ["Basic", "0", "7F", "Lat1", "80", "FF"] [] []
      [⟨"font", true, [65, 130]⟩] (by decide) (by decide)).1⟩

theorem getD_set_eq (xs : List Nat) (i v : Nat) (h : i < xs.length) :
    (xs.set i v).getD i 0 = v := by
  simp [List.getD, List.getElem?_set_self, h]

theorem getD_set_ne (xs : List Nat) (i j v : Nat) (h : i ≠ j) :
    (xs.set i v).getD j 0 = xs.getD j 0 := by
  simp [List.getD, List.getElem?_set_ne h]

theorem copyRow_length (buffer : List Nat) (srcBase dstBase : Nat) :
    ∀ (pitch : Nat) (d : List Nat),
      (copyRow buffer srcBase dstBase pitch d).length = d.length := by
  intro pitch
  induction pitch with
  | zero => intro d; rfl
  | succ p ih =>
    intro d
    rw [copyRow, List.range_succ, List.foldl_append]
    show ((copyRow buffer srcBase dstBase p d).set _ _).length = _
    rw [List.length_set, ih]

theorem copyRow_getD (buffer : List Nat) (srcBase dstBase : Nat) :
    ∀ (pitch : Nat) (d : List Nat) (idx : Nat),
      (copyRow buffer srcBase dstBase pitch d).getD idx 0 =
        if dstBase ≤ idx ∧ idx < dstBase + pitch ∧ idx < d.length then
          buffer.getD (srcBase + (idx - dstBase)) 0
        else d.getD idx 0 := by
  intro pitch
  induction pitch with
  | zero =>
    intro d idx
    rw [copyRow]
    have : ¬ (dstBase ≤ idx ∧ idx < dstBase + 0 ∧ idx < d.length) := by omega
    rw [if_neg this]
    rfl
  | succ p ih =>
    intro d idx
    rw [copyRow, List.range_succ, List.foldl_append]
    show ((copyRow buffer srcBase dstBase p d).set (dstBase + p) _).getD idx 0 = _
    by_cases hidx : idx = dstBase + p
    · subst hidx
      by_cases hlen : dstBase + p < d.length
      · rw [getD_set_eq _ _ _ (by rw [copyRow_length]; exact hlen)]
        rw [if_pos ⟨by omega, by omega, hlen⟩]
        congr 1
        omega
      · rw [List.set_eq_of_length_le (by rw [copyRow_length]; omega), ih]
        have h1 : ¬ (dstBase ≤ dstBase + p ∧ dstBase + p < dstBase + p ∧
            dstBase + p < d.length) := by omega
        have h2 : ¬ (dstBase ≤ dstBase + p ∧ dstBase + p < dstBase + (p + 1) ∧
            dstBase + p < d.length) := by omega
        rw [if_neg h1, if_neg h2]
    · rw [getD_set_ne _ _ _ _ (fun h => hidx h.symm), ih]
      by_cases hc : dstBase ≤ idx ∧ idx < dstBase + p ∧ idx < d.length
      · rw [if_pos hc, if_pos ⟨hc.1, by omega, hc.2.2⟩]
      · have hc2 : ¬ (dstBase ≤ idx ∧ idx < dstBase + (p + 1) ∧ idx < d.length) := by
          omega
        rw [if_neg hc, if_neg hc2]

theorem rowBase_succ (W row : Nat) : rowBase W (row + 1) = rowBase W row + W := by
  rw [rowBase, rowBase]
  ring

theorem rowBase_mono (W : Nat) {r1 r2 : Nat} (h : r1 ≤ r2) :
    rowBase W r1 ≤ rowBase W r2 := by
  rw [rowBase, rowBase]
  have := Nat.mul_le_mul_right W (by omega : r1 + kSdfBorder ≤ r2 + kSdfBorder)
  omega

/-- Pointwise description of the padded image when rows do not overlap
(`pitch ≤ imageWidth`): copied cells hold the bitmap bytes, all other cells
keep the `memset` zero. -/
theorem padRows_spec (buffer : List Nat) (W pitch : Nat) (hp : pitch ≤ W) :
    ∀ (r : Nat) (d : List Nat),
      (((List.range r).foldl
          (fun d row => copyRow buffer (row * pitch) (rowBase W row) pitch d)
          d).length = d.length) ∧
      (∀ row col, row < r → col < pitch → rowBase W row + col < d.length →
        ((List.range r).foldl
          (fun d row => copyRow buffer (row * pitch) (rowBase W row) pitch d)
          d).getD (rowBase W row + col) 0 = buffer.getD (row * pitch + col) 0) ∧
      (∀ idx, (∀ row col, row < r → col < pitch → idx ≠ rowBase W row + col) →
        ((List.range r).foldl
          (fun d row => copyRow buffer (row * pitch) (rowBase W row) pitch d)
          d).getD idx 0 = d.getD idx 0) := by
  intro r
  induction r with
  | zero =>
    intro d
    refine ⟨rfl, ?_, ?_⟩
    · intro row col hrow; omega
    · intro idx _; rfl
  | succ n ih =>
    intro d
    have hstep : (List.range (n + 1)).foldl
        (fun d row => copyRow buffer (row * pitch) (rowBase W row) pitch d) d =
        copyRow buffer (n * pitch) (rowBase W n) pitch
          ((List.range n).foldl
            (fun d row => copyRow buffer (row * pitch) (rowBase W row) pitch d) d) := by
      rw [List.range_succ, List.foldl_append]
      rfl
    obtain ⟨ihlen, ihcopy, ihzero⟩ := ih d
    have hsep : ∀ row col, row < n → col < pitch →
        rowBase W row + col < rowBase W n := by
      intro row col hrow hcol
      calc rowBase W row + col < rowBase W row + W := by omega
        _ = rowBase W (row + 1) := (rowBase_succ W row).symm
        _ ≤ rowBase W n := rowBase_mono W (by omega)
    refine ⟨?_, ?_, ?_⟩
    · rw [hstep, copyRow_length, ihlen]
    · intro row col hrow hcol hlt
      rw [hstep, copyRow_getD]
      by_cases hlast : row = n
      · subst hlast
        rw [if_pos ⟨by omega, by omega, by rw [ihlen]; exact hlt⟩]
        congr 1
        omega
      · have hrown : row < n := by omega
        have hbelow : rowBase W row + col < rowBase W n := hsep row col hrown hcol
        rw [if_neg (by omega), ihcopy row col hrown hcol hlt]
    · intro idx hidx
      rw [hstep, copyRow_getD]
      have hnotlast : ¬ (rowBase W n ≤ idx ∧ idx < rowBase W n + pitch ∧
          idx < ((List.range n).foldl
            (fun d row => copyRow buffer (row * pitch) (rowBase W row) pitch d)
            d).length) := by
        rintro ⟨h1, h2, _⟩
        exact hidx n (idx - rowBase W n) (by omega) (by omega) (by omega)
      rw [if_neg hnotlast]
      exact ihzero idx (fun row col hrow hcol => hidx row col (by omega) hcol)

/-- A cell index `i * W + j` with `j < W` determines `(i, j)` uniquely. -/
theorem cell_unique {W a c x y : Nat} (hx : x < W) (hy : y < W)
    (h : a * W + x = c * W + y) : a = c ∧ x = y := by
  have hW : 0 < W := by omega
  have hxmod : (a * W + x) % W = x := by
    rw [Nat.add_comm, Nat.add_mul_mod_self_right, Nat.mod_eq_of_lt hx]
  have hymod : (c * W + y) % W = y := by
    rw [Nat.add_comm, Nat.add_mul_mod_self_right, Nat.mod_eq_of_lt hy]
  have hxy : x = y := by rw [← hxmod, ← hymod, h]
  subst hxy
  have hmul : a * W = c * W := by omega
  exact ⟨Nat.eq_of_mul_eq_mul_right hW hmul, rfl⟩

/-- Counterexample to claim C5 as stated: the copy loop runs over `pitch`
columns, so a source bitmap with `pitch > width` (row padding, here
`rows = 1, width = 1, pitch = 2`, bytes `[5, 7]`) leaves a non-zero byte
outside the embedded `width × rows` rectangle: image cell
`(kSdfBorder, kSdfBorder + 1)` holds `7`. -/
theorem claim_C5_counterexample :
    (padGlyphBitmap 1 1 2 [5, 7]).2.2.getD
      (kSdfBorder * (1 + 2 * kSdfBorder) + kSdfBorder + 1) 0 ≠ 0 := by
  decide

/-- Claim C5, amended: for every non-SDF rasterization whose source bitmap
has non-null data **and whose pitch equals its width** (tightly packed rows —
the case the round-trip property describes), `Font::GetGlyph` returns an
image of size `(width + 2*kSdfBorder) × (rows + 2*kSdfBorder)` whose buffer
holds exactly that many bytes, with the original bitmap embedded at offset
`(kSdfBorder, kSdfBorder)` and every byte outside the embedded rectangle
equal to zero. -/
theorem claim_C5_amended (rows width : Nat) (buffer : List Nat)
    (hlen : buffer.length = rows * width) :
    fontGetGlyphImageNoSdf rows width width (some buffer) =
      ((width + 2 * kSdfBorder), (rows + 2 * kSdfBorder),
        some (padGlyphBitmap rows width width buffer).2.2) ∧
    (padGlyphBitmap rows width width buffer).2.2.length =
      (width + 2 * kSdfBorder) * (rows + 2 * kSdfBorder) ∧
    (∀ row col, row < rows → col < width →
      (padGlyphBitmap rows width width buffer).2.2.getD
        ((row + kSdfBorder) * (width + 2 * kSdfBorder) + kSdfBorder + col) 0 =
        buffer.getD (row * width + col) 0) ∧
    (∀ i j, i < rows + 2 * kSdfBorder → j < width + 2 * kSdfBorder →
      ¬ (kSdfBorder ≤ i ∧ i < kSdfBorder + rows ∧
         kSdfBorder ≤ j ∧ j < kSdfBorder + width) →
      (padGlyphBitmap rows width width buffer).2.2.getD
        (i * (width + 2 * kSdfBorder) + j) 0 = 0) := by
  set W := width + 2 * kSdfBorder with hW
  have hb : kSdfBorder = 4 := rfl
  have hWdef : W = width + 2 * kSdfBorder := hW
  have hspec := padRows_spec buffer W width (by omega) rows
    (List.replicate (W * (rows + 2 * kSdfBorder)) 0)
  obtain ⟨hlen2, hcopy, hzero⟩ := hspec
  have hdata : (padGlyphBitmap rows width width buffer).2.2 =
      (List.range rows).foldl
        (fun d row => copyRow buffer (row * width) (rowBase W row) width d)
        (List.replicate (W * (rows + 2 * kSdfBorder)) 0) := by
    rw [padGlyphBitmap]
    simp only [rowBase]
  have hrepl : ∀ idx : Nat,
      (List.replicate (W * (rows + 2 * kSdfBorder)) 0).getD idx 0 = 0 := by
    intro idx
    by_cases hlt : idx < W * (rows + 2 * kSdfBorder)
    · rw [List.getD_eq_getElem _ _ (by rw [List.length_replicate]; exact hlt)]
      exact List.getElem_replicate _ _
    · rw [List.getD_eq_default]
      rw [List.length_replicate]
      omega
  have hposlt : ∀ row col, row < rows → col < width →
      rowBase W row + col < W * (rows + 2 * kSdfBorder) := by
    intro row col hrow hcol
    have h1 : rowBase W row + col < (row + kSdfBorder) * W + W := by
      rw [rowBase]; omega
    have h2 : (row + kSdfBorder) * W + W = (row + kSdfBorder + 1) * W := by ring
    have h3 : (row + kSdfBorder + 1) * W ≤ (rows + 2 * kSdfBorder) * W :=
      Nat.mul_le_mul_right W (by omega)
    have h4 : (rows + 2 * kSdfBorder) * W = W * (rows + 2 * kSdfBorder) :=
      Nat.mul_comm _ _
    omega
  refine ⟨rfl, ?_, ?_, ?_⟩
  · rw [hdata, hlen2, List.length_replicate]
  · intro row col hrow hcol
    rw [hdata]
    have hpos : rowBase W row + col <
        (List.replicate (W * (rows + 2 * kSdfBorder)) 0).length := by
      rw [List.length_replicate]
      exact hposlt row col hrow hcol
    have hrw : (row + kSdfBorder) * W + kSdfBorder + col =
        rowBase W row + col := by
      rw [rowBase]
    rw [hrw]
    exact hcopy row col hrow hcol hpos
  · intro i j hi hj hout
    rw [hdata]
    have hne : ∀ row col, row < rows → col < width →
        i * W + j ≠ rowBase W row + col := by
      intro row col hrow hcol heq
      have hWj : j < W := hj
      have hbcol : kSdfBorder + col < W := by omega
      have heq2 : i * W + j = (row + kSdfBorder) * W + (kSdfBorder + col) := by
        rw [rowBase] at heq; omega
      obtain ⟨hik, hjk⟩ := cell_unique hWj hbcol heq2
      exact hout ⟨by omega, by omega, by omega, by omega⟩
    rw [hzero (i * W + j) hne]
    exact hrepl _

/-- Closed witness for the amended C5 on a 1×2 bitmap. -/
theorem claim_C5_amended_witness :
    (([5, 7] : List Nat).length = 1 * 2) ∧
    (padGlyphBitmap 1 2 2 [5, 7]).2.2.length =
      (2 + 2 * kSdfBorder) * (1 + 2 * kSdfBorder) :=
  ⟨by decide, (claim_C5_amended 1 2 [5, 7] (by decide)).2.1⟩

/-- Closed witness for C1 on a concrete weight vector. -/
theorem claim_C1_witness :
    (([3, 7, 0, 2] : List Int) ≠ [] ∧ (∀ w ∈ ([3, 7, 0, 2] : List Int), w < intMax)) ∧
    (fontVisits [3, 7, 0, 2] = specFontVisits [3, 7, 0, 2] ∧
      (∀ k ∈ fontVisits [3, 7, 0, 2], ([3, 7, 0, 2] : List Int).getD k 0 ≠ 0) ∧
      List.Chain' (fun a b => ([3, 7, 0, 2] : List Int).getD b 0 <
        ([3, 7, 0, 2] : List Int).getD a 0) (fontVisits [3, 7, 0, 2]) ∧
      findFontIndexInBlock [3, 7, 0, 2] (fun k => decide (k = 2)) =
        (match (fontVisits [3, 7, 0, 2]).find? (fun k => decide (k = 2)) with
         | some k => Int.ofNat k
         | none => kInvalidFont)) :=
  ⟨⟨by decide, by decide⟩,
    claim_C1 [3, 7, 0, 2] (fun k => decide (k = 2)) (by decide) (by decide)⟩

example : getFontOffset [3, 7, 7, 2] 0 = 3 := by decide

example : getFontOffset [3, 7, 7, 2] 3 = kInvalidFont := by decide

example : getFontOffset [0, 0] kInvalidFont = kInvalidFont := by decide

example : getFontOffset [] kInvalidFont = kInvalidFont := by decide

theorem mark_texture (text : List Nat) (h : Int) (g : HybridGlyphGroup) :
    (markCharactersUsage text h g).texture = g.texture := rfl

theorem mem_setInsert_of_mem (s : List (Nat × Int)) (x y : Nat × Int)
    (hx : x ∈ s) : x ∈ setInsert s y := by
  rw [setInsert]
  by_cases hy : y ∈ s
  · rw [if_pos hy]; exact hx
  · rw [if_neg hy]; exact List.mem_append_left _ hx

theorem mem_mark_fold (h : Int) :
    ∀ (text : List Nat) (s : List (Nat × Int)) (x : Nat × Int), x ∈ s →
      x ∈ text.foldl (fun s c => setInsert s (c, h)) s := by
  intro text
  induction text with
  | nil => intro s x hx; exact hx
  | cons c rest ih =>
    intro s x hx
    exact ih _ x (mem_setInsert_of_mem s x (c, h) hx)

theorem mem_setInsert_self (s : List (Nat × Int)) (x : Nat × Int) :
    x ∈ setInsert s x := by
  rw [setInsert]
  by_cases hx : x ∈ s
  · rw [if_pos hx]; exact hx
  · rw [if_neg hx]; exact List.mem_append_right _ (by simp)

theorem mem_mark_self (h : Int) :
    ∀ (text : List Nat) (s : List (Nat × Int)) (c : Nat), c ∈ text →
      (c, h) ∈ text.foldl (fun s c => setInsert s (c, h)) s := by
  intro text
  induction text with
  | nil => intro s c hc; cases hc
  | cons c0 rest ih =>
    intro s c hc
    rcases List.mem_cons.mp hc with rfl | hc
    · rw [List.foldl_cons]
      exact mem_mark_fold h rest _ _ (mem_setInsert_self s (c, h))
    · rw [List.foldl_cons]
      exact ih _ c hc

/-- Marking a string makes every one of its characters found. -/
theorem mark_unfound_zero (text : List Nat) (h : Int) (g : HybridGlyphGroup) :
    getNumberOfUnfoundCharacters text h (markCharactersUsage text h g) = 0 := by
  rw [getNumberOfUnfoundCharacters]
  apply List.countP_eq_zero.mpr
  intro c hc
  simp only [Bool.not_eq_true', decide_eq_false_iff_not, not_not,
    Bool.not_eq_true, decide_eq_true_eq]
  simp only [markCharactersUsage]
  exact mem_mark_self h text g.glyphs c hc

/-- Marking adds at most the unfound count to the glyph set. -/
theorem mark_length_le (h : Int) :
    ∀ (text : List Nat) (s orig : List (Nat × Int)), (∀ x ∈ orig, x ∈ s) →
      (text.foldl (fun s c => setInsert s (c, h)) s).length ≤
        s.length + text.countP (fun c => !(decide ((c, h) ∈ orig))) := by
  intro text
  induction text with
  | nil => intro s orig _; simp
  | cons c rest ih =>
    intro s orig hsub
    rw [List.foldl_cons, List.countP_cons]
    by_cases hc : (c, h) ∈ orig
    · have hcs : (c, h) ∈ s := hsub _ hc
      have hins : setInsert s (c, h) = s := by rw [setInsert, if_pos hcs]
      rw [hins]
      have hd : (!(decide ((c, h) ∈ orig))) = false := by simp [hc]
      rw [hd]
      have := ih s orig hsub
      simp only [Bool.false_eq_true, if_false]
      omega
    · have hlen : (setInsert s (c, h)).length ≤ s.length + 1 := by
        rw [setInsert]
        by_cases hcs : (c, h) ∈ s
        · rw [if_pos hcs]; omega
        · rw [if_neg hcs]; simp
      have hsub' : ∀ x ∈ orig, x ∈ setInsert s (c, h) :=
        fun x hx => mem_setInsert_of_mem s x (c, h) (hsub x hx)
      have := ih (setInsert s (c, h)) orig hsub'
      have hd : (!(decide ((c, h) ∈ orig))) = true := by simp [hc]
      rw [hd]
      simp only [if_true]
      omega

theorem updateAt_length {α : Type} :
    ∀ (l : List α) (i : Nat) (f : α → α), (updateAt l i f).length = l.length := by
  intro l
  induction l with
  | nil => intro i f; rfl
  | cons x xs ih =>
    intro i f
    match i with
    | 0 => rfl
    | n + 1 =>
      show (x :: updateAt xs n f).length = (x :: xs).length
      simp [ih n f]

theorem getD_updateAt_eq {α : Type} (d : α) :
    ∀ (l : List α) (i : Nat) (f : α → α), i < l.length →
      (updateAt l i f).getD i d = f (l.getD i d) := by
  intro l
  induction l with
  | nil => intro i f hi; simp at hi
  | cons x xs ih =>
    intro i f hi
    match i with
    | 0 => rfl
    | n + 1 =>
      show (x :: updateAt xs n f).getD (n + 1) d = _
      rw [List.getD_cons_succ, List.getD_cons_succ]
      exact ih n f (by simpa using hi)

theorem getD_updateAt_ne {α : Type} (d : α) :
    ∀ (l : List α) (i j : Nat) (f : α → α), j ≠ i →
      (updateAt l i f).getD j d = l.getD j d := by
  intro l
  induction l with
  | nil => intro i j f hj; rfl
  | cons x xs ih =>
    intro i j f hj
    match i, j with
    | 0, 0 => exact absurd rfl hj
    | 0, m + 1 => rfl
    | n + 1, 0 => rfl
    | n + 1, m + 1 =>
      show (x :: updateAt xs n f).getD (m + 1) d = _
      rw [List.getD_cons_succ, List.getD_cons_succ]
      exact ih n m f (by omega)

theorem isEmpty_false_of_ne_nil {α : Type} {l : List α} (h : l ≠ []) :
    l.isEmpty = false := by
  cases l with
  | nil => exact absurd rfl h
  | cons x xs => rfl

/-- Counterexample to claim C6 as stated: from the reachable empty allocator
state with capacity ceiling 2, the first call on the two-character string
`[1, 2]` creates group 0 and returns it; after marking, the second identical
call hits the capacity check (`newCharsCount >= m_maxGlypsCount`), pushes a
brand-new group and returns index 1 — a different group index and a new
group. -/
theorem claim_C6_counterexample :
    findHybridGlyphsGroup 2 [] [1, 2] 0 = some (0, [dfltGroup]) ∧
    (findHybridGlyphsGroup 2
        (updateAt [dfltGroup] 0 (markCharactersUsage [1, 2] 0)) [1, 2] 0).map
        (fun r => (r.1, r.2.length)) = some (1, 2) := by
  constructor
  · rfl
  · rfl

/-- Claim C6, amended: `FindHybridGlyphsGroup` is idempotent for repeated
identical text provided the first call did not seal the active group
(append a new group to a non-empty list), and — when the returned group is
the last one — the post-marking glyph count stays strictly below the
capacity ceiling with the texture (if any) reporting enough space (single
group case), resp. the last group's texture reports space for zero new
glyphs (several groups case).  Under those conditions the second call
returns the same index, creates no group, and finds every character of the
string already present (no new glyph insertions). -/
theorem claim_C6_amended (maxG : Nat) (groups : List HybridGlyphGroup)
    (text : List Nat) (fixedHeight : Int) (idx : Nat)
    (groups1 : List HybridGlyphGroup)
    (h1 : findHybridGlyphsGroup maxG groups text fixedHeight = some (idx, groups1))
    (hnoseal : groups ≠ [] → groups1 = groups)
    (hcap1 : (updateAt groups1 idx (markCharactersUsage text fixedHeight)).length = 1 →
      ((updateAt groups1 idx (markCharactersUsage text fixedHeight)).getD 0
        dfltGroup).glyphs.length + text.length < maxG ∧
      ∀ tex, ((updateAt groups1 idx (markCharactersUsage text fixedHeight)).getD 0
        dfltGroup).texture = some tex → tex.hasEnoughSpace text.length = true)
    (hcap2 : 2 ≤ groups1.length → idx = groups1.length - 1 →
      ∃ tex, (groups1.getD idx dfltGroup).texture = some tex ∧
        tex.hasEnoughSpace 0 = true) :
    findHybridGlyphsGroup maxG
        (updateAt groups1 idx (markCharactersUsage text fixedHeight)) text
        fixedHeight =
      some (idx, updateAt groups1 idx (markCharactersUsage text fixedHeight)) ∧
    getNumberOfUnfoundCharacters text fixedHeight
      ((updateAt groups1 idx (markCharactersUsage text fixedHeight)).getD idx
        dfltGroup) = 0 := by
  have hmark_le : ∀ g : HybridGlyphGroup,
      (markCharactersUsage text fixedHeight g).glyphs.length ≤
        g.glyphs.length + getNumberOfUnfoundCharacters text fixedHeight g := by
    intro g
    exact mark_length_le fixedHeight text g.glyphs g.glyphs (fun x hx => hx)
  have hfast : ∀ (gs : List HybridGlyphGroup), gs.isEmpty = false →
      (groupHasEnoughSpace (lastGroup gs) text.length = true ∧ gs.length = 1 ∧
        (lastGroup gs).glyphs.length + text.length < maxG) →
      findHybridGlyphsGroup maxG gs text fixedHeight = some (0, gs) := by
    intro gs hne hcond
    rw [findHybridGlyphsGroup, if_neg (by simp [hne]), if_pos hcond]
  -- the marked group always finds the whole string
  have hunf : ∀ (gs : List HybridGlyphGroup), idx < gs.length →
      getNumberOfUnfoundCharacters text fixedHeight
        ((updateAt gs idx (markCharactersUsage text fixedHeight)).getD idx
          dfltGroup) = 0 := by
    intro gs hidx
    rw [getD_updateAt_eq dfltGroup gs idx _ hidx]
    exact mark_unfound_zero text fixedHeight _
  by_cases hemp : groups = []
  · subst hemp
    have h1' : (some (0, [dfltGroup]) : Option (Nat × List HybridGlyphGroup)) =
        some (idx, groups1) := by
      rw [← h1]; rfl
    injection h1' with h1''
    injection h1'' with hidx hgr
    subst hidx
    subst hgr
    have hlen1 : (updateAt [dfltGroup] 0
        (markCharactersUsage text fixedHeight)).length = 1 := rfl
    obtain ⟨hc1, hc2⟩ := hcap1 hlen1
    constructor
    · apply hfast (updateAt [dfltGroup] 0 (markCharactersUsage text fixedHeight)) rfl
      refine ⟨?_, rfl, ?_⟩
      · show groupHasEnoughSpace
          ((updateAt [dfltGroup] 0 (markCharactersUsage text fixedHeight)).getD 0
            dfltGroup) text.length = true
        rcases htex : ((updateAt [dfltGroup] 0
            (markCharactersUsage text fixedHeight)).getD 0 dfltGroup).texture
          with _ | tex
        · rw [groupHasEnoughSpace, htex]
        · rw [groupHasEnoughSpace, htex]
          exact hc2 tex htex
      · exact hc1
    · exact hunf [dfltGroup] (by simp)
  · have hgr1 := hnoseal hemp
    rw [hgr1] at h1 hcap1 hcap2 ⊢
    have hlen0 : 0 < groups.length := List.length_pos.mpr hemp
    rw [findHybridGlyphsGroup, if_neg (by simp [isEmpty_false_of_ne_nil hemp])] at h1
    set groups2 := updateAt groups idx (markCharactersUsage text fixedHeight)
      with hg2def
    by_cases hfastc : groupHasEnoughSpace (lastGroup groups) text.length = true ∧
        groups.length = 1 ∧
        (lastGroup groups).glyphs.length + text.length < maxG
    · rw [if_pos hfastc] at h1
      injection h1 with h1'
      injection h1' with hidx hgr
      subst hidx
      have hlen2 : groups2.length = 1 := by
        rw [hg2def, updateAt_length, hfastc.2.1]
      obtain ⟨hc1, hc2⟩ := hcap1 hlen2
      constructor
      · apply hfast groups2 (by
          apply isEmpty_false_of_ne_nil
          intro hnil
          rw [hnil] at hlen2
          simp at hlen2)
        refine ⟨?_, hlen2, ?_⟩
        · have hlast2 : lastGroup groups2 = groups2.getD 0 dfltGroup := by
            rw [lastGroup, hlen2]
          rw [hlast2]
          rcases htex : (groups2.getD 0 dfltGroup).texture with _ | tex
          · rw [groupHasEnoughSpace, htex]
          · rw [groupHasEnoughSpace, htex]
            exact hc2 tex htex
        · have hlast2 : lastGroup groups2 = groups2.getD 0 dfltGroup := by
            rw [lastGroup, hlen2]
          rw [hlast2]
          exact hc1
      · exact hunf groups (by omega)
    · rw [if_neg hfastc] at h1
      rcases hfind : (List.range (groups.length - 1)).find? (fun i =>
          decide (getNumberOfUnfoundCharacters text fixedHeight
            (groups.getD i dfltGroup) = 0)) with _ | i
      · -- the sealed scan found nothing: the tail path
        rw [hfind] at h1
        by_cases hover : maxG ≤ (lastGroup groups).glyphs.length +
            getNumberOfUnfoundCharacters text fixedHeight (lastGroup groups)
        · rw [if_pos hover] at h1
          injection h1 with h1'
          injection h1' with hidx hgr
          have := congrArg List.length hgr
          simp at this
        · rw [if_neg hover] at h1
          rcases htex : (lastGroup groups).texture with _ | tex
          · rw [htex] at h1
            simp at h1
          · rw [htex] at h1
            have h1x : (if tex.hasEnoughSpace
                  (getNumberOfUnfoundCharacters text fixedHeight (lastGroup groups)) =
                    true then
                (some (groups.length - 1, groups) :
                  Option (Nat × List HybridGlyphGroup))
              else some (groups.length, groups ++ [dfltGroup])) =
                some (idx, groups) := h1
            clear h1
            by_cases hsp : tex.hasEnoughSpace
                (getNumberOfUnfoundCharacters text fixedHeight (lastGroup groups)) = true
            · rw [if_pos hsp] at h1x
              rename' h1x => h1
              injection h1 with h1'
              injection h1' with hidx hgr
              subst hidx
              have hidxlt : groups.length - 1 < groups.length := by omega
              have hlen2 : groups2.length = groups.length := by
                rw [hg2def, updateAt_length]
              have hlast2 : lastGroup groups2 =
                  markCharactersUsage text fixedHeight (lastGroup groups) := by
                rw [lastGroup, hlen2, hg2def,
                  getD_updateAt_eq dfltGroup groups _ _ hidxlt, lastGroup]
              by_cases h1len : groups.length = 1
              · -- single group: the fast path of the second call fires
                have hlen21 : groups2.length = 1 := by rw [hlen2, h1len]
                obtain ⟨hc1, hc2⟩ := hcap1 hlen21
                constructor
                · have hz : groups.length - 1 = 0 := by omega
                  rw [hz]
                  apply hfast groups2 (by
                    apply isEmpty_false_of_ne_nil
                    intro hnil
                    rw [hnil] at hlen21
                    simp at hlen21)
                  refine ⟨?_, hlen21, ?_⟩
                  · have hlast2' : lastGroup groups2 = groups2.getD 0 dfltGroup := by
                      rw [lastGroup, hlen21]
                    rw [hlast2']
                    rcases htex2 : (groups2.getD 0 dfltGroup).texture with _ | tex2
                    · rw [groupHasEnoughSpace, htex2]
                    · rw [groupHasEnoughSpace, htex2]
                      exact hc2 tex2 htex2
                  · have hlast2' : lastGroup groups2 = groups2.getD 0 dfltGroup := by
                      rw [lastGroup, hlen21]
                    rw [hlast2']
                    exact hc1
                · exact hunf groups (by omega)
              · -- several groups: the tail path of the second call
                have h2le : 2 ≤ groups.length := by omega
                obtain ⟨tex', htex', hsp0⟩ := hcap2 h2le rfl
                have htexg : (groups.getD (groups.length - 1) dfltGroup).texture =
                    some tex := by
                  have h := htex
                  rw [lastGroup] at h
                  exact h
                have htexeq : tex' = tex := by
                  rw [htexg] at htex'
                  exact (Option.some.inj htex').symm
                rw [htexeq] at hsp0
                have hmark0 : getNumberOfUnfoundCharacters text fixedHeight
                    (lastGroup groups2) = 0 := by
                  rw [hlast2]
                  exact mark_unfound_zero text fixedHeight _
                constructor
                · rw [findHybridGlyphsGroup, if_neg (by
                    simp [isEmpty_false_of_ne_nil
                      (show groups2 ≠ [] by
                        intro hnil
                        rw [hnil] at hlen2
                        simp at hlen2
                        omega)])]
                  rw [if_neg (by
                    intro hco
                    rw [hlen2] at hco
                    exact h1len hco.2.1)]
                  have hfind2 : (List.range (groups2.length - 1)).find? (fun i =>
                      decide (getNumberOfUnfoundCharacters text fixedHeight
                        (groups2.getD i dfltGroup) = 0)) = none := by
                    apply List.find?_eq_none.mpr
                    intro l hl
                    simp only [List.mem_range] at hl
                    have hlne : l ≠ groups.length - 1 := by
                      rw [hlen2] at hl
                      omega
                    have hsame : groups2.getD l dfltGroup = groups.getD l dfltGroup := by
                      rw [hg2def]
                      exact getD_updateAt_ne dfltGroup groups _ l _ hlne
                    rw [hsame]
                    have := List.find?_eq_none.mp hfind l (by
                      rw [List.mem_range]
                      rw [hlen2] at hl
                      exact hl)
                    simpa using this
                  rw [hfind2]
                  rw [if_neg (by
                    rw [hmark0, hlast2]
                    have hs2 := hmark_le (lastGroup groups)
                    omega)]
                  have htex2 : (lastGroup groups2).texture = some tex := by
                    rw [hlast2, mark_texture, htex]
                  rw [htex2, hmark0]
                  show (if tex.hasEnoughSpace 0 = true then
                      (some (groups2.length - 1, groups2) :
                        Option (Nat × List HybridGlyphGroup))
                    else some (groups2.length, groups2 ++ [dfltGroup])) =
                      some (groups.length - 1, groups2)
                  rw [if_pos hsp0, hlen2]
                · exact hunf groups (by omega)
            · rw [if_neg hsp] at h1x
              injection h1x with h1'
              injection h1' with hidx hgr
              have := congrArg List.length hgr
              simp at this
      · -- sealed hit
        rw [hfind] at h1
        injection h1 with h1'
        injection h1' with hidx hgr
        subst hidx
        obtain ⟨hirange, hpredi, hfirsti⟩ := find?_range_eq_some.mp hfind
        have hilt : i < groups.length - 1 := hirange
        have hlen2 : groups2.length = groups.length := by
          rw [hg2def, updateAt_length]
        constructor
        · rw [findHybridGlyphsGroup, if_neg (by
            simp [isEmpty_false_of_ne_nil (show groups2 ≠ [] by
              intro hnil
              rw [hnil] at hlen2
              simp at hlen2
              omega)])]
          rw [if_neg (by
            intro hco
            rw [hlen2] at hco
            omega)]
          have hfind2 : (List.range (groups2.length - 1)).find? (fun l =>
              decide (getNumberOfUnfoundCharacters text fixedHeight
                (groups2.getD l dfltGroup) = 0)) = some i := by
            apply find?_range_eq_some.mpr
            refine ⟨by rw [hlen2]; exact hilt, ?_, ?_⟩
            · simp only [decide_eq_true_eq]
              exact hunf groups (by omega)
            · intro l hl
              have hlne : l ≠ i := by omega
              have hsame : groups2.getD l dfltGroup = groups.getD l dfltGroup := by
                rw [hg2def]
                exact getD_updateAt_ne dfltGroup groups _ l _ hlne
              simp only [hsame]
              exact hfirsti l hl
          rw [hfind2]
        · exact hunf groups (by omega)

/-- Closed witness for the amended C6: a single empty group without texture,
capacity 10, the string `[1, 2]`. -/
theorem claim_C6_amended_witness :
    findHybridGlyphsGroup 10
        (updateAt [(⟨[], none⟩ : HybridGlyphGroup)] 0
          (markCharactersUsage [1, 2] 0)) [1, 2] 0 =
      some (0, updateAt [(⟨[], none⟩ : HybridGlyphGroup)] 0
        (markCharactersUsage [1, 2] 0)) ∧
    getNumberOfUnfoundCharacters [1, 2] 0
      ((updateAt [(⟨[], none⟩ : HybridGlyphGroup)] 0
        (markCharactersUsage [1, 2] 0)).getD 0 dfltGroup) = 0 :=
  claim_C6_amended 10 [⟨[], none⟩] [1, 2] 0 0 [⟨[], none⟩] rfl (fun _ => rfl)
    (fun _ => ⟨by decide, fun _ h => Option.noConfusion h⟩)
    (fun h2 _ => absurd h2 (by decide))

/-- Counterexample to claim C9 as stated: the claim allows only
new-resource lookups to set the "something changed" state and only a GPU
sync to clear it, with *no other operation* touching the flag — but
`Release` (line 225) sets `m_nothingToUpload` while dirty without any GPU
sync, and `Init` (line 495) clears it without any lookup having registered a
resource. -/
theorem claim_C9_counterexample :
    (nothingToUploadStep TMOp.release false = true ∧
      tmOpIsUploadPass TMOp.release false = false) ∧
    (nothingToUploadStep TMOp.initOp true = false ∧
      (∀ b : Bool, TMOp.initOp ≠ TMOp.getRegionBase b ∧
        TMOp.initOp ≠ TMOp.getGlyphsRegions b)) := by
  refine ⟨⟨rfl, rfl⟩, rfl, ?_⟩
  intro b
  exact ⟨fun h => TMOp.noConfusion h, fun h => TMOp.noConfusion h⟩

/-- Claim C9, amended: the flag becomes "something to upload"
(`m_nothingToUpload` cleared) exactly through a lookup that registered a new
resource or through `Init`; it becomes "nothing to upload" (flag set)
exactly through an `UpdateDynamicTextures` pass that runs with the async
generator idle — the pass that performs the GPU sync — or through
`Release`; every other operation leaves it unchanged. -/
theorem claim_C9_amended (op : TMOp) (f : Bool) :
    (nothingToUploadStep (TMOp.getRegionBase true) f = false) ∧
    (nothingToUploadStep (TMOp.getGlyphsRegions true) f = false) ∧
    (nothingToUploadStep TMOp.initOp f = false) ∧
    (nothingToUploadStep (TMOp.updateDynamicTextures false) f = true) ∧
    (nothingToUploadStep TMOp.release f = true) ∧
    (nothingToUploadStep op f = false → f = true →
      op = TMOp.getRegionBase true ∨ op = TMOp.getGlyphsRegions true ∨
        op = TMOp.initOp) ∧
    (nothingToUploadStep op f = true → f = false →
      op = TMOp.updateDynamicTextures false ∨ op = TMOp.release) := by
  refine ⟨rfl, rfl, rfl, rfl, rfl, ?_, ?_⟩
  · intro hstep hf
    subst hf
    cases op with
    | getRegionBase isNew =>
      cases isNew with
      | true => left; rfl
      | false => simp [nothingToUploadStep] at hstep
    | getGlyphsRegions hasNew =>
      cases hasNew with
      | true => right; left; rfl
      | false => simp [nothingToUploadStep] at hstep
    | updateDynamicTextures asyncBusy =>
      cases asyncBusy with
      | true => simp [nothingToUploadStep] at hstep
      | false => simp [nothingToUploadStep] at hstep
    | release => simp [nothingToUploadStep] at hstep
    | initOp => right; right; rfl
  · intro hstep hf
    subst hf
    cases op with
    | getRegionBase isNew =>
      cases isNew with
      | true => simp [nothingToUploadStep] at hstep
      | false => simp [nothingToUploadStep] at hstep
    | getGlyphsRegions hasNew =>
      cases hasNew with
      | true => simp [nothingToUploadStep] at hstep
      | false => simp [nothingToUploadStep] at hstep
    | updateDynamicTextures asyncBusy =>
      cases asyncBusy with
      | true => simp [nothingToUploadStep] at hstep
      | false => left; rfl
    | release => right; rfl
    | initOp => simp [nothingToUploadStep] at hstep

/-- Closed witness for the amended C9: `Release` on a clear flag is a
set-transition, so the characterization names it. -/
theorem claim_C9_amended_witness :
    TMOp.release = TMOp.updateDynamicTextures false ∨
      TMOp.release = TMOp.release :=
  (claim_C9_amended TMOp.release false).2.2.2.2.2.2 rfl rfl

/-- The block index returned by the scan is in range and covers the
character. -/
theorem findBlockFromAux_sound (blocks : List UnicodeBlock) (c : Nat) :
    ∀ (rem i b : Nat), findBlockFromAux blocks c rem i = some b →
      b < blocks.length ∧ (blkAt blocks b).hasSymbol c = true := by
  intro rem
  induction rem with
  | zero => intro i b h; exact absurd h (by simp [findBlockFromAux])
  | succ rem ih =>
    intro i b h
    rw [findBlockFromAux] at h
    by_cases hi : i < blocks.length
    · rw [if_pos hi] at h
      by_cases hs : (blkAt blocks i).hasSymbol c = true
      · rw [if_pos hs] at h
        cases h
        exact ⟨hi, hs⟩
      · rw [if_neg hs] at h
        exact ih (i + 1) b h
    · rw [if_neg hi] at h
      exact absurd h (by simp)

/-- Unfolding equations of `coverAdd` by the shape of the trailing node. -/
theorem coverAdd_last_none (cover : List (Nat × Int)) (b : Nat)
    (h : cover.getLast? = none) : coverAdd cover b = cover ++ [(b, 1)] := by
  unfold coverAdd
  rw [h]

theorem coverAdd_last_hit (cover : List (Nat × Int)) (b : Nat) (nd0 : Nat × Int)
    (h : cover.getLast? = some nd0) (he : nd0.1 = b) :
    coverAdd cover b = cover.dropLast ++ [(nd0.1, nd0.2 + 1)] := by
  unfold coverAdd
  rw [h]
  show (if nd0.1 = b then cover.dropLast ++ [(nd0.1, nd0.2 + 1)]
    else cover ++ [(b, 1)]) = _
  rw [if_pos he]

theorem coverAdd_last_miss (cover : List (Nat × Int)) (b : Nat) (nd0 : Nat × Int)
    (h : cover.getLast? = some nd0) (he : ¬ nd0.1 = b) :
    coverAdd cover b = cover ++ [(b, 1)] := by
  unfold coverAdd
  rw [h]
  show (if nd0.1 = b then cover.dropLast ++ [(nd0.1, nd0.2 + 1)]
    else cover ++ [(b, 1)]) = _
  rw [if_neg he]

/-- Every block index recorded in the running cover list is in range. -/
theorem coverFold_fst_lt (blocks : List UnicodeBlock) :
    ∀ (cs : List Nat) (acc : Nat × List (Nat × Int)),
      (∀ a ∈ acc.2.map Prod.fst, a < blocks.length) →
      ∀ a ∈ ((cs.foldl (coverStep blocks) acc).2).map Prod.fst,
        a < blocks.length := by
  intro cs
  induction cs with
  | nil => intro acc hacc; exact hacc
  | cons c rest ih =>
    intro acc hacc
    rw [List.foldl_cons]
    apply ih
    rw [coverStep]
    cases hf : findBlockFrom blocks c acc.1 with
    | none => exact hacc
    | some b =>
      have hb : b < blocks.length :=
        (findBlockFromAux_sound blocks c _ _ b hf).1
      intro a ha
      have ha2 : a ∈ (coverAdd acc.2 b).map Prod.fst := ha
      cases hl : acc.2.getLast? with
      | none =>
        rw [coverAdd_last_none _ _ hl] at ha2
        simp only [List.map_append, List.mem_append] at ha2
        rcases ha2 with ha2 | ha2
        · exact hacc a ha2
        · simp at ha2; omega
      | some nd0 =>
        by_cases hsame : nd0.1 = b
        · rw [coverAdd_last_hit _ _ _ hl hsame] at ha2
          simp only [List.map_append, List.mem_append] at ha2
          rcases ha2 with ha2 | ha2
          · exact hacc a (List.map_subset Prod.fst (List.dropLast_subset _) ha2)
          · simp at ha2
            subst ha2
            rw [hsame]
            exact hb
        · rw [coverAdd_last_miss _ _ _ hl hsame] at ha2
          simp only [List.map_append, List.mem_append] at ha2
          rcases ha2 with ha2 | ha2
          · exact hacc a ha2
          · simp at ha2; omega

theorem computeCoverInfo_fst_lt (blocks : List UnicodeBlock) (cs : List Nat) :
    ∀ a ∈ (computeCoverInfo blocks cs).map Prod.fst, a < blocks.length := by
  rw [computeCoverInfo]
  exact coverFold_fst_lt blocks cs (0, []) (by simp)

/-- Counting invariant of the coverage loop: every node's hit counter is
bounded by its incoming bound plus the number of scanned characters the
node's block covers. -/
theorem coverFold_bound (blocks : List UnicodeBlock) :
    ∀ (cs : List Nat) (acc : Nat × List (Nat × Int)) (K : Nat → Int),
      (∀ a, 0 ≤ K a) →
      (∀ nd ∈ acc.2, nd.2 ≤ K nd.1) →
      ∀ nd ∈ (cs.foldl (coverStep blocks) acc).2,
        nd.2 ≤ K nd.1 +
          ((cs.filter (fun c => (blkAt blocks nd.1).hasSymbol c)).length : Int) := by
  intro cs
  induction cs with
  | nil =>
    intro acc K hK0 hacc nd hnd
    simpa using hacc nd hnd
  | cons c rest ih =>
    intro acc K hK0 hacc nd hnd
    rw [List.foldl_cons] at hnd
    have hstep : ∀ nd' ∈ (coverStep blocks acc c).2,
        nd'.2 ≤ K nd'.1 + (if (blkAt blocks nd'.1).hasSymbol c then 1 else 0) := by
      intro nd' hnd'
      rw [coverStep] at hnd'
      cases hf : findBlockFrom blocks c acc.1 with
      | none =>
        rw [hf] at hnd'
        have := hacc nd' hnd'
        split <;> omega
      | some b =>
        rw [hf] at hnd'
        have hsym : (blkAt blocks b).hasSymbol c = true :=
          (findBlockFromAux_sound blocks c _ _ b hf).2
        show nd'.2 ≤ _
        have hnd2 : nd' ∈ coverAdd acc.2 b := hnd'
        cases hl : acc.2.getLast? with
        | none =>
          rw [coverAdd_last_none _ _ hl] at hnd2
          rcases List.mem_append.mp hnd2 with h | h
          · have := hacc nd' h
            split <;> omega
          · simp only [List.mem_singleton] at h
            subst h
            simp only [hsym, if_true]
            have := hK0 b
            omega
        | some nd0 =>
          have hnd0 : nd0 ∈ acc.2 := List.mem_of_getLast?_eq_some hl
          by_cases hsame : nd0.1 = b
          · rw [coverAdd_last_hit _ _ _ hl hsame] at hnd2
            rcases List.mem_append.mp hnd2 with h | h
            · have := hacc nd' (List.dropLast_subset _ h)
              split <;> omega
            · simp only [List.mem_singleton] at h
              subst h
              show nd0.2 + 1 ≤ K nd0.1 + _
              have hb := hacc nd0 hnd0
              rw [hsame, hsym]
              simp only [if_true]
              rw [hsame] at hb
              omega
          · rw [coverAdd_last_miss _ _ _ hl hsame] at hnd2
            rcases List.mem_append.mp hnd2 with h | h
            · have := hacc nd' h
              split <;> omega
            · simp only [List.mem_singleton] at h
              subst h
              simp only [hsym, if_true]
              have := hK0 b
              omega
    have hrec := ih (coverStep blocks acc c)
      (fun a => K a + (if (blkAt blocks a).hasSymbol c then 1 else 0))
      (fun a => by
        show (0 : Int) ≤ K a + (if (blkAt blocks a).hasSymbol c then 1 else 0)
        have := hK0 a
        split <;> omega)
      hstep nd hnd
    have this2 : nd.2 ≤ K nd.1 +
        (if (blkAt blocks nd.1).hasSymbol c then 1 else 0) +
        ((rest.filter (fun x => (blkAt blocks nd.1).hasSymbol x)).length : Int) :=
      hrec
    rw [List.filter_cons]
    by_cases hc : (blkAt blocks nd.1).hasSymbol c = true
    · rw [if_pos (by simp [hc])]
      rw [hc] at this2
      simp only [if_true] at this2
      simp only [List.length_cons]
      push_cast
      push_cast at this2
      omega
    · rw [if_neg (by simp [hc])]
      rw [Bool.not_eq_true] at hc
      rw [hc] at this2
      simp only [Bool.false_eq_true, if_false] at this2
      omega

/-- With duplicate-free character codes, every hit counter is at most the
size of its block's code-point range. -/
theorem computeCoverInfo_le (blocks : List UnicodeBlock) (cs : List Nat)
    (hnd : cs.Nodup) :
    ∀ nd ∈ computeCoverInfo blocks cs,
      nd.2 ≤ (((blkAt blocks nd.1).uend + 1 - (blkAt blocks nd.1).ustart : Nat) : Int) := by
  intro nd hmem
  have h1 : nd.2 ≤
      ((cs.filter (fun c => (blkAt blocks nd.1).hasSymbol c)).length : Int) := by
    have := coverFold_bound blocks cs (0, []) (fun _ => 0) (fun _ => le_refl 0)
      (by simp) nd hmem
    simpa using this
  have h2 : (cs.filter (fun c => (blkAt blocks nd.1).hasSymbol c)).length ≤
      (blkAt blocks nd.1).uend + 1 - (blkAt blocks nd.1).ustart := by
    set l := cs.filter (fun c => (blkAt blocks nd.1).hasSymbol c) with hl
    have hlnd : l.Nodup := hnd.filter _
    have hsub : l.toFinset ⊆
        Finset.Icc (blkAt blocks nd.1).ustart (blkAt blocks nd.1).uend := by
      intro x hx
      rw [List.mem_toFinset] at hx
      have hpx := List.of_mem_filter hx
      rw [UnicodeBlock.hasSymbol, Bool.and_eq_true, decide_eq_true_eq,
        decide_eq_true_eq] at hpx
      rw [Finset.mem_Icc]
      omega
    have := Finset.card_le_card hsub
    rw [List.toFinset_card_of_nodup hlnd, Nat.card_Icc] at this
    exact this
  calc nd.2 ≤ _ := h1
    _ ≤ _ := by exact_mod_cast h2

/-- `resizeTo` always produces exactly `n` entries. -/
theorem resizeTo_length (n : Nat) (xs : List Int) : (resizeTo n xs).length = n := by
  rw [resizeTo, List.length_append, List.length_take, List.length_replicate]
  omega

theorem resizeTo_of_length_eq (n : Nat) (xs : List Int) (h : xs.length = n) :
    resizeTo n xs = xs := by
  rw [resizeTo, List.take_of_length_le (by omega), h]
  simp

/-- The explicit shape of a freshly resized-and-back-set weight vector. -/
theorem setBack_resizeTo_eq (n : Nat) (xs : List Int) (v : Int)
    (h : xs.length < n) :
    setBack (resizeTo n xs) v =
      xs ++ List.replicate (n - xs.length - 1) 0 ++ [v] := by
  have hres : resizeTo n xs = xs ++ List.replicate (n - xs.length) 0 := by
    rw [resizeTo, List.take_of_length_le (by omega)]
  have hrep : List.replicate (n - xs.length) (0 : Int) =
      List.replicate (n - xs.length - 1) 0 ++ [0] := by
    obtain ⟨k, hk⟩ : ∃ k, n - xs.length = k + 1 := ⟨n - xs.length - 1, by omega⟩
    rw [hk]
    simp only [Nat.add_sub_cancel]
    exact List.replicate_succ' k 0
  rw [setBack, hres, hrep, ← List.append_assoc, List.dropLast_concat]

/-- Writing twice through resize-and-set-back keeps only the second value. -/
theorem setBack_resizeTo_twice (n : Nat) (hn : 1 ≤ n) (xs : List Int)
    (v1 v2 : Int) :
    setBack (resizeTo n (setBack (resizeTo n xs) v1)) v2 =
      setBack (resizeTo n xs) v2 := by
  have hlen : (setBack (resizeTo n xs) v1).length = n :=
    setBack_resizeTo_length n hn xs v1
  rw [resizeTo_of_length_eq n _ hlen]
  rw [setBack, setBack, setBack, List.dropLast_concat]

theorem getD_setBack_resizeTo_lt (n : Nat) (xs : List Int) (v : Int) (s : Nat)
    (hs : s < xs.length) (hlen : xs.length < n) :
    (setBack (resizeTo n xs) v).getD s 0 = xs.getD s 0 := by
  rw [setBack_resizeTo_eq n xs v hlen, List.append_assoc,
    List.getD_append _ _ _ _ hs]

theorem getD_setBack_resizeTo_last (n : Nat) (xs : List Int) (v : Int)
    (hlen : xs.length < n) :
    (setBack (resizeTo n xs) v).getD (n - 1) 0 = v := by
  rw [setBack_resizeTo_eq n xs v hlen]
  have hl : (xs ++ List.replicate (n - xs.length - 1) (0 : Int)).length = n - 1 := by
    rw [List.length_append, List.length_replicate]
    omega
  rw [List.getD_eq_getElem?_getD, ← hl,
    List.getElem?_append_right (le_refl _)]
  simp

theorem getD_setBack_resizeTo_mid (n : Nat) (xs : List Int) (v : Int) (s : Nat)
    (hs1 : xs.length ≤ s) (hs2 : s ≠ n - 1) (hlen : xs.length < n) :
    (setBack (resizeTo n xs) v).getD s 0 = 0 := by
  by_cases hsn : s < n - 1
  · rw [setBack_resizeTo_eq n xs v hlen, List.append_assoc,
      List.getD_eq_getElem?_getD, List.getElem?_append_right hs1]
    have hrep : s - xs.length < n - xs.length - 1 := by omega
    simp [List.getElem?_append, List.length_replicate, List.getElem?_replicate,
      hrep]
  · have hsn2 : n ≤ s := by omega
    apply List.getD_eq_default
    rw [setBack_resizeTo_length n (by omega)]
    omega

/-- Structural unfolding of the `enumerateFn` node walk. -/
theorem applyEntry_cons (blocks : List UnicodeBlock) (bname : String)
    (val : UnicodeBlock → Int) (nd : Nat × Int) (rest : List (Nat × Int)) :
    applyEntry blocks bname val (nd :: rest) =
      if (blkAt blocks nd.1).name = bname then
        (nd.1, val (blkAt blocks nd.1)) :: rest
      else if bname = "*" then
        (nd.1, val (blkAt blocks nd.1)) :: applyEntry blocks bname val rest
      else
        nd :: applyEntry blocks bname val rest := rfl

/-- The node walk never changes which blocks the nodes point at. -/
theorem applyEntry_fst (blocks : List UnicodeBlock) (bname : String)
    (val : UnicodeBlock → Int) :
    ∀ cover, (applyEntry blocks bname val cover).map Prod.fst =
      cover.map Prod.fst := by
  intro cover
  induction cover with
  | nil => rfl
  | cons nd rest ih =>
    rw [applyEntry_cons]
    by_cases h1 : (blkAt blocks nd.1).name = bname
    · rw [if_pos h1]
      simp
    · rw [if_neg h1]
      by_cases h2 : bname = "*"
      · rw [if_pos h2]
        simp [ih]
      · rw [if_neg h2]
        simp [ih]

/-- Every node after the walk is either untouched or holds the entry
value of its own block. -/
theorem applyEntry_values (blocks : List UnicodeBlock) (bname : String)
    (val : UnicodeBlock → Int) :
    ∀ cover nd', nd' ∈ applyEntry blocks bname val cover →
      nd' ∈ cover ∨ ∃ a ∈ cover.map Prod.fst, nd' = (a, val (blkAt blocks a)) := by
  intro cover
  induction cover with
  | nil => intro nd' h; exact absurd h (List.not_mem_nil nd')
  | cons nd rest ih =>
    intro nd' h
    rw [applyEntry_cons] at h
    by_cases h1 : (blkAt blocks nd.1).name = bname
    · rw [if_pos h1] at h
      rcases List.mem_cons.mp h with rfl | h
      · right; exact ⟨nd.1, by simp, rfl⟩
      · left; exact List.mem_cons_of_mem nd h
    · rw [if_neg h1] at h
      by_cases h2 : bname = "*"
      · rw [if_pos h2] at h
        rcases List.mem_cons.mp h with rfl | h
        · right; exact ⟨nd.1, by simp, rfl⟩
        · rcases ih nd' h with hm | ⟨a, ha, he⟩
          · left; exact List.mem_cons_of_mem nd hm
          · right; exact ⟨a, by simp [ha], he⟩
      · rw [if_neg h2] at h
        rcases List.mem_cons.mp h with rfl | h
        · left; exact List.mem_cons_self nd' rest
        · rcases ih nd' h with hm | ⟨a, ha, he⟩
          · left; exact List.mem_cons_of_mem nd hm
          · right; exact ⟨a, by simp [ha], he⟩

/-- If the entry names our block (or is the wildcard) and no earlier node
shares the name, the walk writes the entry value into our node. -/
theorem applyEntry_target (blocks : List UnicodeBlock) (bname : String)
    (val : UnicodeBlock → Int) (bIdx : Nat)
    (hb : bname = (blkAt blocks bIdx).name ∨ bname = "*") :
    ∀ (pre : List (Nat × Int)) (w : Int) (post : List (Nat × Int)),
      (∀ a ∈ pre.map Prod.fst, (blkAt blocks a).name ≠ bname) →
      ∃ pre2 post2,
        applyEntry blocks bname val (pre ++ (bIdx, w) :: post) =
          pre2 ++ (bIdx, val (blkAt blocks bIdx)) :: post2 ∧
        pre2.map Prod.fst = pre.map Prod.fst ∧
        post2.map Prod.fst = post.map Prod.fst := by
  intro pre
  induction pre with
  | nil =>
    intro w post hpre
    by_cases h1 : (blkAt blocks bIdx).name = bname
    · refine ⟨[], post, ?_, rfl, rfl⟩
      rw [List.nil_append, applyEntry_cons, if_pos h1]
      rfl
    · have hb2 : bname = "*" := by
        rcases hb with hb | hb
        · exact absurd hb.symm h1
        · exact hb
      refine ⟨[], applyEntry blocks bname val post, ?_, rfl,
        applyEntry_fst blocks bname val post⟩
      rw [List.nil_append, applyEntry_cons, if_neg h1, if_pos hb2]
      rfl
  | cons nd pre0 ih =>
    intro w post hpre
    have hname : ¬ (blkAt blocks nd.1).name = bname := hpre nd.1 (by simp)
    rw [List.cons_append, applyEntry_cons, if_neg hname]
    obtain ⟨pre2, post2, heq, hp, hq⟩ :=
      ih w post (fun a ha => hpre a (by simp [ha]))
    by_cases h2 : bname = "*"
    · rw [if_pos h2, heq]
      exact ⟨(nd.1, val (blkAt blocks nd.1)) :: pre2, post2, rfl,
        by simp [hp], hq⟩
    · rw [if_neg h2, heq]
      exact ⟨nd :: pre2, post2, rfl, by simp [hp], hq⟩

/-- An entry that neither names our block nor is the wildcard leaves our
node as it was. -/
theorem applyEntry_keep (blocks : List UnicodeBlock) (bname : String)
    (val : UnicodeBlock → Int) (bIdx : Nat)
    (hb1 : ¬ bname = (blkAt blocks bIdx).name) (hb2 : ¬ bname = "*") :
    ∀ (pre : List (Nat × Int)) (w : Int) (post : List (Nat × Int)),
      ∃ pre2 post2,
        applyEntry blocks bname val (pre ++ (bIdx, w) :: post) =
          pre2 ++ (bIdx, w) :: post2 ∧
        pre2.map Prod.fst = pre.map Prod.fst ∧
        post2.map Prod.fst = post.map Prod.fst := by
  intro pre
  induction pre with
  | nil =>
    intro w post
    refine ⟨[], applyEntry blocks bname val post, ?_, rfl,
      applyEntry_fst blocks bname val post⟩
    rw [List.nil_append, applyEntry_cons,
      if_neg (fun h => hb1 h.symm), if_neg hb2]
    rfl
  | cons nd pre0 ih =>
    intro w post
    rw [List.cons_append, applyEntry_cons]
    by_cases h1 : (blkAt blocks nd.1).name = bname
    · rw [if_pos h1]
      exact ⟨(nd.1, val (blkAt blocks nd.1)) :: pre0, post, rfl, by simp, rfl⟩
    · rw [if_neg h1, if_neg hb2]
      obtain ⟨pre2, post2, heq, hp, hq⟩ := ih w post
      rw [heq]
      exact ⟨nd :: pre2, post2, rfl, by simp [hp], hq⟩

/-- One step of the white/black-list fold. -/
theorem enumerateFn_cons (blocks : List UnicodeBlock) (fontName : String)
    (e : String × String) (lst : List (String × String))
    (val : UnicodeBlock → Int) (cover : List (Nat × Int)) :
    enumerateFn blocks fontName (e :: lst) val cover =
      enumerateFn blocks fontName lst val
        (if e.1 = fontName then applyEntry blocks e.2 val cover else cover) := rfl

theorem enumerateFn_fst (blocks : List UnicodeBlock) (fontName : String)
    (val : UnicodeBlock → Int) :
    ∀ (lst : List (String × String)) (cover : List (Nat × Int)),
      (enumerateFn blocks fontName lst val cover).map Prod.fst =
        cover.map Prod.fst := by
  intro lst
  induction lst with
  | nil => intro cover; rfl
  | cons e lst ih =>
    intro cover
    rw [enumerateFn_cons]
    by_cases hf : e.1 = fontName
    · rw [if_pos hf, ih, applyEntry_fst]
    · rw [if_neg hf, ih]

theorem enumerateFn_values (blocks : List UnicodeBlock) (fontName : String)
    (val : UnicodeBlock → Int) :
    ∀ (lst : List (String × String)) (cover : List (Nat × Int))
      (nd' : Nat × Int), nd' ∈ enumerateFn blocks fontName lst val cover →
      nd' ∈ cover ∨ ∃ a ∈ cover.map Prod.fst, nd' = (a, val (blkAt blocks a)) := by
  intro lst
  induction lst with
  | nil => intro cover nd' h; left; exact h
  | cons e lst ih =>
    intro cover nd' h
    rw [enumerateFn_cons] at h
    by_cases hf : e.1 = fontName
    · rw [if_pos hf] at h
      rcases ih _ nd' h with hm | ⟨a, ha, he⟩
      · exact applyEntry_values blocks e.2 val cover nd' hm
      · rw [applyEntry_fst] at ha
        right; exact ⟨a, ha, he⟩
    · rw [if_neg hf] at h
      exact ih cover nd' h

/-- Walking a whole entry list over a cover holding exactly one node for our
block: the shape survives, and any matching entry pins the node's value. -/
theorem enumerateFn_target (blocks : List UnicodeBlock) (fontName : String)
    (val : UnicodeBlock → Int) (bIdx : Nat) :
    ∀ (lst : List (String × String)) (pre : List (Nat × Int)) (w : Int)
      (post : List (Nat × Int)),
      (∀ a ∈ pre.map Prod.fst,
        (blkAt blocks a).name ≠ (blkAt blocks bIdx).name ∧
        (blkAt blocks a).name ≠ "*") →
      ∃ pre2 post2 w2,
        enumerateFn blocks fontName lst val (pre ++ (bIdx, w) :: post) =
          pre2 ++ (bIdx, w2) :: post2 ∧
        pre2.map Prod.fst = pre.map Prod.fst ∧
        post2.map Prod.fst = post.map Prod.fst ∧
        (w2 = w ∨ w2 = val (blkAt blocks bIdx)) ∧
        ((∃ e ∈ lst, e.1 = fontName ∧
            (e.2 = (blkAt blocks bIdx).name ∨ e.2 = "*")) →
          w2 = val (blkAt blocks bIdx)) := by
  intro lst
  induction lst with
  | nil =>
    intro pre w post hpre
    refine ⟨pre, post, w, rfl, rfl, rfl, Or.inl rfl, ?_⟩
    rintro ⟨e, he, -⟩
    exact absurd he (List.not_mem_nil e)
  | cons e lst ih =>
    intro pre w post hpre
    rw [enumerateFn_cons]
    by_cases hf : e.1 = fontName
    · rw [if_pos hf]
      by_cases htouch : e.2 = (blkAt blocks bIdx).name ∨ e.2 = "*"
      · have hprename : ∀ a ∈ pre.map Prod.fst, (blkAt blocks a).name ≠ e.2 := by
          intro a ha
          rcases htouch with ht | ht
          · rw [ht]; exact (hpre a ha).1
          · rw [ht]; exact (hpre a ha).2
        obtain ⟨pre1, post1, heq1, hp1, hq1⟩ :=
          applyEntry_target blocks e.2 val bIdx
            (by rcases htouch with ht | ht
                · exact Or.inl ht
                · exact Or.inr ht) pre w post hprename
        rw [heq1]
        obtain ⟨pre2, post2, w2, heq2, hp2, hq2, hw2, -⟩ :=
          ih pre1 (val (blkAt blocks bIdx)) post1
            (fun a ha => hpre a (by rw [hp1] at ha; exact ha))
        refine ⟨pre2, post2, w2, heq2, hp2.trans hp1, hq2.trans hq1, ?_, ?_⟩
        · right
          rcases hw2 with h | h <;> exact h
        · intro
          rcases hw2 with h | h <;> exact h
      · push_neg at htouch
        obtain ⟨pre1, post1, heq1, hp1, hq1⟩ :=
          applyEntry_keep blocks e.2 val bIdx htouch.1 htouch.2 pre w post
        rw [heq1]
        obtain ⟨pre2, post2, w2, heq2, hp2, hq2, hw2, htou2⟩ :=
          ih pre1 w post1
            (fun a ha => hpre a (by rw [hp1] at ha; exact ha))
        refine ⟨pre2, post2, w2, heq2, hp2.trans hp1, hq2.trans hq1, hw2, ?_⟩
        rintro ⟨e', he', hfe', hte'⟩
        rcases List.mem_cons.mp he' with rfl | he'
        · rcases hte' with ht | ht
          · exact absurd ht htouch.1
          · exact absurd ht htouch.2
        · exact htou2 ⟨e', he', hfe', hte'⟩
    · rw [if_neg hf]
      obtain ⟨pre2, post2, w2, heq2, hp2, hq2, hw2, htou2⟩ := ih pre w post hpre
      refine ⟨pre2, post2, w2, heq2, hp2, hq2, hw2, ?_⟩
      rintro ⟨e', he', hfe', hte'⟩
      rcases List.mem_cons.mp he' with rfl | he'
      · exact absurd hfe' hf
      · exact htou2 ⟨e', he', hfe', hte'⟩

/-- Unfolding one node of the persist loop. -/
theorem persistCover_cons (n : Nat) (blocks : List UnicodeBlock)
    (nd : Nat × Int) (rest : List (Nat × Int)) :
    persistCover n blocks (nd :: rest) =
      persistCover n (updateAt blocks nd.1 (fun ub =>
        { ub with fontsWeight := setBack (resizeTo n ub.fontsWeight) nd.2 }))
        rest := rfl

theorem persistCover_append (n : Nat) (blocks : List UnicodeBlock)
    (c1 c2 : List (Nat × Int)) :
    persistCover n blocks (c1 ++ c2) =
      persistCover n (persistCover n blocks c1) c2 := by
  rw [persistCover, persistCover, persistCover, List.foldl_append]

theorem persistCover_blocks_length (n : Nat) :
    ∀ (cover : List (Nat × Int)) (blocks : List UnicodeBlock),
      (persistCover n blocks cover).length = blocks.length := by
  intro cover
  induction cover with
  | nil => intro blocks; rfl
  | cons nd rest ih =>
    intro blocks
    rw [persistCover_cons, ih, updateAt_length]

/-- Blocks no node points at keep their record through the persist loop. -/
theorem persistCover_untouched (n : Nat) (bIdx : Nat) :
    ∀ (cover : List (Nat × Int)) (blocks : List UnicodeBlock),
      (∀ a ∈ cover.map Prod.fst, a ≠ bIdx) →
      blkAt (persistCover n blocks cover) bIdx = blkAt blocks bIdx := by
  intro cover
  induction cover with
  | nil => intro blocks h; rfl
  | cons nd rest ih =>
    intro blocks h
    rw [persistCover_cons, ih _ (fun a ha => h a (by simp [ha]))]
    show (updateAt blocks nd.1 _).getD bIdx defaultBlock = _
    rw [getD_updateAt_ne defaultBlock blocks nd.1 bIdx _
      (fun he => (h nd.1 (by simp)) he.symm)]
    rfl

/-- When our block has exactly one node, the persist loop leaves its weight
vector resized to `n` with that node's value at the back. -/
theorem persistCover_exact (n : Nat) (bIdx : Nat)
    (pre : List (Nat × Int)) (w : Int) (post : List (Nat × Int))
    (blocks : List UnicodeBlock) (hb : bIdx < blocks.length)
    (hpre : ∀ a ∈ pre.map Prod.fst, a ≠ bIdx)
    (hpost : ∀ a ∈ post.map Prod.fst, a ≠ bIdx) :
    (blkAt (persistCover n blocks (pre ++ (bIdx, w) :: post)) bIdx).fontsWeight =
      setBack (resizeTo n (blkAt blocks bIdx).fontsWeight) w := by
  rw [persistCover_append, persistCover_cons]
  rw [persistCover_untouched n bIdx post _ hpost]
  have hlen : bIdx < (persistCover n blocks pre).length := by
    rw [persistCover_blocks_length]; exact hb
  show ((updateAt (persistCover n blocks pre) (bIdx, w).1 _).getD bIdx
    defaultBlock).fontsWeight = _
  rw [getD_updateAt_eq defaultBlock _ bIdx _ hlen]
  show setBack (resizeTo n
    ((persistCover n blocks pre).getD bIdx defaultBlock).fontsWeight) w = _
  rw [show (persistCover n blocks pre).getD bIdx defaultBlock =
    blkAt (persistCover n blocks pre) bIdx from rfl]
  rw [persistCover_untouched n bIdx pre blocks hpre]

/-- In general the persist loop leaves our block's weights alone or writes
one of the cover's values for it at the back of the resized vector. -/
theorem persistCover_general (n : Nat) (hn : 1 ≤ n) (bIdx : Nat)
    (Pv : Int → Prop) :
    ∀ (cover : List (Nat × Int)) (blocks : List UnicodeBlock),
      bIdx < blocks.length →
      (∀ nd ∈ cover, nd.1 = bIdx → Pv nd.2) →
      (blkAt (persistCover n blocks cover) bIdx).fontsWeight =
          (blkAt blocks bIdx).fontsWeight ∨
        ∃ v, Pv v ∧
          (blkAt (persistCover n blocks cover) bIdx).fontsWeight =
            setBack (resizeTo n (blkAt blocks bIdx).fontsWeight) v := by
  intro cover
  induction cover with
  | nil => intro blocks hb hv; left; rfl
  | cons nd rest ih =>
    intro blocks hb hv
    rw [persistCover_cons]
    have hblen : (updateAt blocks nd.1 (fun ub =>
        { ub with fontsWeight := setBack (resizeTo n ub.fontsWeight) nd.2 })).length =
        blocks.length := updateAt_length blocks nd.1 _
    by_cases hnd : nd.1 = bIdx
    · have hupd : (blkAt (updateAt blocks nd.1 (fun ub =>
          { ub with fontsWeight := setBack (resizeTo n ub.fontsWeight) nd.2 }))
          bIdx).fontsWeight =
          setBack (resizeTo n (blkAt blocks bIdx).fontsWeight) nd.2 := by
        rw [hnd]
        show ((updateAt blocks bIdx _).getD bIdx defaultBlock).fontsWeight = _
        rw [getD_updateAt_eq defaultBlock blocks bIdx _ hb]
        rfl
      rcases ih _ (by rw [hblen]; exact hb)
          (fun nd' h' he => hv nd' (List.mem_cons_of_mem nd h') he) with
        h | ⟨v, hPv, hEq⟩
      · right
        refine ⟨nd.2, hv nd (List.mem_cons_self nd rest) hnd, ?_⟩
        rw [h, hupd]
      · right
        refine ⟨v, hPv, ?_⟩
        rw [hEq, hupd]
        show setBack (resizeTo n (setBack
          (resizeTo n (blkAt blocks bIdx).fontsWeight) nd.2)) v = _
        rw [setBack_resizeTo_twice n hn]
    · have hupd : blkAt (updateAt blocks nd.1 (fun ub =>
          { ub with fontsWeight := setBack (resizeTo n ub.fontsWeight) nd.2 }))
          bIdx = blkAt blocks bIdx := by
        show (updateAt blocks nd.1 _).getD bIdx defaultBlock = _
        rw [getD_updateAt_ne defaultBlock blocks nd.1 bIdx _
          (fun he => hnd he.symm)]
        rfl
      rcases ih _ (by rw [hblen]; exact hb)
          (fun nd' h' he => hv nd' (List.mem_cons_of_mem nd h') he) with
        h | ⟨v, hPv, hEq⟩
      · left; rw [h, hupd]
      · right; refine ⟨v, hPv, ?_⟩; rw [hEq, hupd]

/-- The pure lookup data of a block list is pointwise recoverable from
`blockBounds`. -/
theorem blkAt_congr {b1 b2 : List UnicodeBlock}
    (h : blockBounds b1 = blockBounds b2) (a : Nat) :
    (blkAt b1 a).name = (blkAt b2 a).name ∧
    (blkAt b1 a).ustart = (blkAt b2 a).ustart ∧
    (blkAt b1 a).uend = (blkAt b2 a).uend := by
  have hlen : b1.length = b2.length := by
    have := congrArg List.length h
    simpa [blockBounds] using this
  by_cases ha : a < b1.length
  · have ha2 : a < b2.length := by omega
    have h1 : (blockBounds b1)[a]? = (blockBounds b2)[a]? := by rw [h]
    rw [blockBounds, blockBounds, List.getElem?_map, List.getElem?_map,
      List.getElem?_eq_getElem ha, List.getElem?_eq_getElem ha2] at h1
    simp only [Option.map_some'] at h1
    have h2 := Option.some.inj h1
    rw [blkAt, blkAt, List.getD_eq_getElem b1 defaultBlock ha,
      List.getD_eq_getElem b2 defaultBlock ha2]
    refine ⟨?_, ?_, ?_⟩
    · have := congrArg (fun t => t.1) h2
      simpa using this
    · have := congrArg (fun t => t.2.1) h2
      simpa using this
    · have := congrArg (fun t => t.2.2) h2
      simpa using this
  · rw [blkAt, blkAt, List.getD_eq_default b1 defaultBlock (by omega),
      List.getD_eq_default b2 defaultBlock (by omega)]
    exact ⟨rfl, rfl, rfl⟩

theorem blocks_length_congr {b1 b2 : List UnicodeBlock}
    (h : blockBounds b1 = blockBounds b2) : b1.length = b2.length := by
  have := congrArg List.length h
  simpa [blockBounds] using this

theorem hasSymbol_congr {b1 b2 : List UnicodeBlock}
    (h : blockBounds b1 = blockBounds b2) (a c : Nat) :
    (blkAt b1 a).hasSymbol c = (blkAt b2 a).hasSymbol c := by
  obtain ⟨-, h2, h3⟩ := blkAt_congr h a
  rw [UnicodeBlock.hasSymbol, UnicodeBlock.hasSymbol, h2, h3]

theorem findBlockFromAux_congr {b1 b2 : List UnicodeBlock}
    (h : blockBounds b1 = blockBounds b2) (c : Nat) :
    ∀ (rem i : Nat), findBlockFromAux b1 c rem i = findBlockFromAux b2 c rem i := by
  intro rem
  induction rem with
  | zero => intro i; rfl
  | succ rem ih =>
    intro i
    rw [findBlockFromAux, findBlockFromAux, blocks_length_congr h,
      hasSymbol_congr h i c, ih (i + 1)]

theorem coverStep_congr {b1 b2 : List UnicodeBlock}
    (h : blockBounds b1 = blockBounds b2) (acc : Nat × List (Nat × Int))
    (c : Nat) : coverStep b1 acc c = coverStep b2 acc c := by
  rw [coverStep, coverStep, findBlockFrom, findBlockFrom,
    blocks_length_congr h, findBlockFromAux_congr h]

/-- Coverage computation only reads the block bounds, which the constructor
never changes. -/
theorem computeCoverInfo_congr {b1 b2 : List UnicodeBlock}
    (h : blockBounds b1 = blockBounds b2) (cs : List Nat) :
    computeCoverInfo b1 cs = computeCoverInfo b2 cs := by
  have hstep : coverStep b1 = coverStep b2 := by
    funext acc c
    exact coverStep_congr h acc c
  rw [computeCoverInfo, computeCoverInfo, hstep]

theorem applyEntry_congr {b1 b2 : List UnicodeBlock}
    (h : blockBounds b1 = blockBounds b2) (bname : String)
    (val1 val2 : UnicodeBlock → Int)
    (hval : ∀ a, val1 (blkAt b1 a) = val2 (blkAt b2 a)) :
    ∀ cover, applyEntry b1 bname val1 cover = applyEntry b2 bname val2 cover := by
  intro cover
  induction cover with
  | nil => rfl
  | cons nd rest ih =>
    rw [applyEntry_cons, applyEntry_cons, (blkAt_congr h nd.1).1,
      hval nd.1, ih]

theorem enumerateFn_congr {b1 b2 : List UnicodeBlock}
    (h : blockBounds b1 = blockBounds b2) (fontName : String)
    (val1 val2 : UnicodeBlock → Int)
    (hval : ∀ a, val1 (blkAt b1 a) = val2 (blkAt b2 a)) :
    ∀ (lst : List (String × String)) (cover : List (Nat × Int)),
      enumerateFn b1 fontName lst val1 cover =
        enumerateFn b2 fontName lst val2 cover := by
  intro lst
  induction lst with
  | nil => intro cover; rfl
  | cons e lst ih =>
    intro cover
    rw [enumerateFn_cons, enumerateFn_cons]
    by_cases hf : e.1 = fontName
    · rw [if_pos hf, if_pos hf, applyEntry_congr h e.2 val1 val2 hval, ih]
    · rw [if_neg hf, if_neg hf, ih]

/-- The freshly parsed block list starts with empty weight vectors. -/
theorem initBlocks_wts :
    ∀ (defs : List (String × Nat × Nat)) (k : Nat),
      (blkAt (initBlocks defs) k).fontsWeight = [] := by
  intro defs
  induction defs with
  | nil => intro k; rfl
  | cons d rest ih =>
    intro k
    match k with
    | 0 => rfl
    | k + 1 => exact ih k

/-- One constructor iteration preserves the per-block weight
characterization: every slot of our block's weight vector stays bounded by
the block size or holds the whitelist override of its own slot. -/
theorem processFont_char_step (whitelst blacklst : List (String × String))
    (blocks0 : List UnicodeBlock) (bIdx : Nat) (sizeB : Int)
    (hb0 : bIdx < blocks0.length)
    (hrange : (blkAt blocks0 bIdx).ustart ≤ (blkAt blocks0 bIdx).uend)
    (hsB : sizeB = ((blkAt blocks0 bIdx).uend : Int) + 1 -
      ((blkAt blocks0 bIdx).ustart : Int))
    (st st2 : GMState) (f : FontInput)
    (hst2 : st2 = processFont whitelst blacklst st f)
    (hbounds : blockBounds st.blocks = blockBounds blocks0)
    (hnodup : f.charcodes.Nodup)
    (hlen : (blkAt st.blocks bIdx).fontsWeight.length ≤ st.fontsCount)
    (hchar : ∀ s, (blkAt st.blocks bIdx).fontsWeight.getD s 0 ≤ sizeB ∨
      (blkAt st.blocks bIdx).fontsWeight.getD s 0 = sizeB + (s + 1)) :
    blockBounds st2.blocks = blockBounds blocks0 ∧
    st.fontsCount ≤ st2.fontsCount ∧
    (blkAt st.blocks bIdx).fontsWeight.length ≤
      (blkAt st2.blocks bIdx).fontsWeight.length ∧
    (blkAt st2.blocks bIdx).fontsWeight.length ≤ st2.fontsCount ∧
    (∀ s, s < (blkAt st.blocks bIdx).fontsWeight.length →
      (blkAt st2.blocks bIdx).fontsWeight.getD s 0 =
        (blkAt st.blocks bIdx).fontsWeight.getD s 0) ∧
    (∀ s, (blkAt st2.blocks bIdx).fontsWeight.getD s 0 ≤ sizeB ∨
      (blkAt st2.blocks bIdx).fontsWeight.getD s 0 = sizeB + (s + 1)) := by
  have hsize0 : (0 : Int) ≤ sizeB := by rw [hsB]; omega
  by_cases hw : wildcardBlacklisted blacklst f.name = true
  · rw [processFont_skip_wildcard whitelst blacklst st f hw] at hst2
    subst hst2
    exact ⟨hbounds, le_refl _, le_refl _, hlen, fun s _ => rfl, hchar⟩
  · have hw' : wildcardBlacklisted blacklst f.name = false := by simpa using hw
    by_cases hl : f.loads = true
    · rw [processFont_load whitelst blacklst st f hw' hl] at hst2
      have hblocks : st2.blocks = persistCover (st.fontsCount + 1) st.blocks
          (enumerateFn st.blocks f.name whitelst
            (whitelistValue (st.fontsCount + 1))
            (enumerateFn st.blocks f.name blacklst (fun _ => 0)
              (computeCoverInfo st.blocks f.charcodes))) := by rw [hst2]
      have hcount : st2.fontsCount = st.fontsCount + 1 := by rw [hst2]
      have hb' : bIdx < st.blocks.length := by
        rw [blocks_length_congr hbounds]; exact hb0
      have hvals : ∀ nd ∈ enumerateFn st.blocks f.name whitelst
          (whitelistValue (st.fontsCount + 1))
          (enumerateFn st.blocks f.name blacklst (fun _ => 0)
            (computeCoverInfo st.blocks f.charcodes)),
          nd.1 = bIdx →
          (nd.2 ≤ sizeB ∨ nd.2 = sizeB + (st.fontsCount + 1)) := by
        intro nd hnd he
        rcases enumerateFn_values st.blocks f.name
            (whitelistValue (st.fontsCount + 1)) whitelst _ nd hnd with
          h1 | ⟨a, ha, hae⟩
        · rcases enumerateFn_values st.blocks f.name (fun _ => 0) blacklst
              _ nd h1 with h2 | ⟨a, ha, hae⟩
          · rw [computeCoverInfo_congr hbounds] at h2
            have hle := computeCoverInfo_le blocks0 f.charcodes hnodup nd h2
            rw [he] at hle
            left
            rw [hsB]
            omega
          · left
            rw [hae]
            show (0 : Int) ≤ sizeB
            exact hsize0
        · right
          have ha2 : a = bIdx := by rw [hae] at he; exact he
          subst ha2
          rw [hae]
          show whitelistValue (st.fontsCount + 1) (blkAt st.blocks a) = _
          obtain ⟨-, h2, h3⟩ := blkAt_congr hbounds a
          rw [whitelistValue, h2, h3, hsB]
          push_cast
          ring
      rcases persistCover_general (st.fontsCount + 1) (by omega) bIdx
          (fun v => v ≤ sizeB ∨ v = sizeB + (st.fontsCount + 1)) _ st.blocks hb'
          hvals with hcase | ⟨v, hPv, hEq⟩
      · rw [← hblocks] at hcase
        refine ⟨?_, by omega, ?_, ?_, ?_, ?_⟩
        · rw [hblocks, persistCover_bounds]; exact hbounds
        · rw [hcase]
        · rw [hcase]; omega
        · intro s _; rw [hcase]
        · intro s; rw [hcase]; exact hchar s
      · rw [← hblocks] at hEq
        have hW0 : (blkAt st.blocks bIdx).fontsWeight.length <
            st.fontsCount + 1 := by omega
        refine ⟨?_, by omega, ?_, ?_, ?_, ?_⟩
        · rw [hblocks, persistCover_bounds]; exact hbounds
        · rw [hEq, setBack_resizeTo_length _ (by omega)]; omega
        · rw [hEq, setBack_resizeTo_length _ (by omega)]; omega
        · intro s hs
          rw [hEq, getD_setBack_resizeTo_lt _ _ _ _ hs hW0]
        · intro s
          by_cases hs1 : s < (blkAt st.blocks bIdx).fontsWeight.length
          · rw [hEq, getD_setBack_resizeTo_lt _ _ _ _ hs1 hW0]
            exact hchar s
          · by_cases hs2 : s = st.fontsCount + 1 - 1
            · rw [hEq, hs2, getD_setBack_resizeTo_last _ _ _ hW0]
              rcases hPv with h | h
              · left; exact h
              · right; rw [h]; omega
            · rw [hEq, getD_setBack_resizeTo_mid _ _ _ s (by omega) hs2 hW0]
              left; exact hsize0
    · have hl' : f.loads = false := by simpa using hl
      rw [processFont_skip_load whitelst blacklst st f hw' hl'] at hst2
      subst hst2
      exact ⟨hbounds, le_refl _, le_refl _, hlen, fun s _ => rfl, hchar⟩

/-- The characterization carried through a whole run of the font loop,
together with preservation of already-written slots. -/
theorem foldl_char_inv (whitelst blacklst : List (String × String))
    (blocks0 : List UnicodeBlock) (bIdx : Nat) (sizeB : Int)
    (hb0 : bIdx < blocks0.length)
    (hrange : (blkAt blocks0 bIdx).ustart ≤ (blkAt blocks0 bIdx).uend)
    (hsB : sizeB = ((blkAt blocks0 bIdx).uend : Int) + 1 -
      ((blkAt blocks0 bIdx).ustart : Int)) :
    ∀ (fs : List FontInput) (st : GMState),
      (∀ g ∈ fs, g.charcodes.Nodup) →
      blockBounds st.blocks = blockBounds blocks0 →
      (blkAt st.blocks bIdx).fontsWeight.length ≤ st.fontsCount →
      (∀ s, (blkAt st.blocks bIdx).fontsWeight.getD s 0 ≤ sizeB ∨
        (blkAt st.blocks bIdx).fontsWeight.getD s 0 = sizeB + (s + 1)) →
      blockBounds (fs.foldl (processFont whitelst blacklst) st).blocks =
          blockBounds blocks0 ∧
      st.fontsCount ≤ (fs.foldl (processFont whitelst blacklst) st).fontsCount ∧
      (blkAt st.blocks bIdx).fontsWeight.length ≤
        (blkAt (fs.foldl (processFont whitelst blacklst) st).blocks
          bIdx).fontsWeight.length ∧
      (blkAt (fs.foldl (processFont whitelst blacklst) st).blocks
        bIdx).fontsWeight.length ≤
        (fs.foldl (processFont whitelst blacklst) st).fontsCount ∧
      (∀ s, s < (blkAt st.blocks bIdx).fontsWeight.length →
        (blkAt (fs.foldl (processFont whitelst blacklst) st).blocks
          bIdx).fontsWeight.getD s 0 =
          (blkAt st.blocks bIdx).fontsWeight.getD s 0) ∧
      (∀ s, (blkAt (fs.foldl (processFont whitelst blacklst) st).blocks
          bIdx).fontsWeight.getD s 0 ≤ sizeB ∨
        (blkAt (fs.foldl (processFont whitelst blacklst) st).blocks
          bIdx).fontsWeight.getD s 0 = sizeB + (s + 1)) := by
  intro fs
  induction fs with
  | nil =>
    intro st hnd hbounds hlen hchar
    exact ⟨hbounds, le_refl _, le_refl _, hlen, fun s _ => rfl, hchar⟩
  | cons f rest ih =>
    intro st hnd hbounds hlen hchar
    rw [List.foldl_cons]
    obtain ⟨b1, c1, l1, l2, p1, ch1⟩ :=
      processFont_char_step whitelst blacklst blocks0 bIdx sizeB hb0 hrange hsB
        st (processFont whitelst blacklst st f) f rfl hbounds
        (hnd f (List.mem_cons_self f rest)) hlen hchar
    obtain ⟨b2, c2, l3, l4, p2, ch2⟩ :=
      ih (processFont whitelst blacklst st f)
        (fun g hg => hnd g (List.mem_cons_of_mem f hg)) b1 l2 ch1
    refine ⟨b2, le_trans c1 c2, le_trans l1 l3, l4, ?_, ch2⟩
    intro s hs
    rw [p2 s (lt_of_lt_of_le hs l1), p1 s hs]

/-- A loaded font carrying a whitelist entry for our uniquely-covered block
writes exactly the whitelist override into its own slot. -/
theorem processFont_whitelisted_step (whitelst blacklst : List (String × String))
    (blocks0 : List UnicodeBlock) (bIdx : Nat) (sizeB : Int)
    (hb0 : bIdx < blocks0.length)
    (hsB : sizeB = ((blkAt blocks0 bIdx).uend : Int) + 1 -
      ((blkAt blocks0 bIdx).ustart : Int))
    (st st2 : GMState) (f : FontInput)
    (hst2 : st2 = processFont whitelst blacklst st f)
    (hbounds : blockBounds st.blocks = blockBounds blocks0)
    (hw' : wildcardBlacklisted blacklst f.name = false)
    (hl : f.loads = true)
    (pre : List (Nat × Int)) (w : Int) (post : List (Nat × Int))
    (hcov : computeCoverInfo blocks0 f.charcodes = pre ++ (bIdx, w) :: post)
    (hpre : ∀ a ∈ pre.map Prod.fst,
      (blkAt blocks0 a).name ≠ (blkAt blocks0 bIdx).name ∧
      (blkAt blocks0 a).name ≠ "*")
    (hpost : ∀ a ∈ post.map Prod.fst, a ≠ bIdx)
    (hwl : ∃ e ∈ whitelst, e.1 = f.name ∧
      (e.2 = (blkAt blocks0 bIdx).name ∨ e.2 = "*")) :
    (blkAt st2.blocks bIdx).fontsWeight =
      setBack (resizeTo (st.fontsCount + 1) (blkAt st.blocks bIdx).fontsWeight)
        (sizeB + (st.fontsCount + 1)) ∧
    st2.fontsCount = st.fontsCount + 1 := by
  rw [processFont_load whitelst blacklst st f hw' hl] at hst2
  have hcount : st2.fontsCount = st.fontsCount + 1 := by rw [hst2]
  have hblocks : st2.blocks = persistCover (st.fontsCount + 1) st.blocks
      (enumerateFn st.blocks f.name whitelst
        (whitelistValue (st.fontsCount + 1))
        (enumerateFn st.blocks f.name blacklst (fun _ => 0)
          (computeCoverInfo st.blocks f.charcodes))) := by rw [hst2]
  have hb' : bIdx < st.blocks.length := by
    rw [blocks_length_congr hbounds]; exact hb0
  have hcov' : computeCoverInfo st.blocks f.charcodes =
      pre ++ (bIdx, w) :: post := by
    rw [computeCoverInfo_congr hbounds]; exact hcov
  have hpre' : ∀ a ∈ pre.map Prod.fst,
      (blkAt st.blocks a).name ≠ (blkAt st.blocks bIdx).name ∧
      (blkAt st.blocks a).name ≠ "*" := by
    intro a ha
    rw [(blkAt_congr hbounds a).1, (blkAt_congr hbounds bIdx).1]
    exact hpre a ha
  obtain ⟨pre1, post1, w1, heq1, hp1, hq1, -, -⟩ :=
    enumerateFn_target st.blocks f.name (fun _ => 0) bIdx blacklst pre w post
      hpre'
  obtain ⟨pre2, post2, w2, heq2, hp2, hq2, -, htouch2⟩ :=
    enumerateFn_target st.blocks f.name (whitelistValue (st.fontsCount + 1))
      bIdx whitelst pre1 w1 post1
      (fun a ha => hpre' a (by rw [hp1] at ha; exact ha))
  have hw2 : w2 = whitelistValue (st.fontsCount + 1) (blkAt st.blocks bIdx) := by
    apply htouch2
    obtain ⟨e, he, he1, he2⟩ := hwl
    refine ⟨e, he, he1, ?_⟩
    rcases he2 with h | h
    · left; rw [(blkAt_congr hbounds bIdx).1]; exact h
    · right; exact h
  have hfinal : (blkAt st2.blocks bIdx).fontsWeight =
      setBack (resizeTo (st.fontsCount + 1)
        (blkAt st.blocks bIdx).fontsWeight) w2 := by
    rw [hblocks, hcov', heq1, heq2]
    apply persistCover_exact
    · exact hb'
    · intro a ha
      rw [hp2, hp1] at ha
      intro hab
      subst hab
      exact (hpre a ha).1 rfl
    · intro a ha
      rw [hq2, hq1] at ha
      exact hpost a ha
  refine ⟨?_, hcount⟩
  rw [hfinal, hw2]
  obtain ⟨-, h2, h3⟩ := blkAt_congr hbounds bIdx
  rw [whitelistValue, h2, h3, hsB]
  push_cast
  ring_nf

/-- If font `j` outweighs font `i` strictly, no other font ties with `j`,
and `j` has the glyph, the descending-weight search never answers `i`:
any visit of `i` would have to come after `j`, where the search has already
stopped. -/
theorem findFontIndexInBlock_shielded (W : List Int) (i j : Nat)
    (hjW : j < W.length)
    (hlt : W.getD i 0 < W.getD j 0)
    (hpos : 0 < W.getD j 0)
    (hsmall : W.getD j 0 < intMax)
    (hties : ∀ k, k < W.length → k ≠ j → W.getD k 0 ≠ W.getD j 0)
    (hg : Nat → Bool) (hgj : hg j = true) :
    findFontIndexInBlock W hg ≠ Int.ofNat i := by
  have main : ∀ (fuel : Nat) (idx : Int),
      W.getD j 0 < fontUpperBound W idx →
      findFontIndexInBlockAux W hg fuel idx ≠ Int.ofNat i := by
    intro fuel
    induction fuel with
    | zero =>
      intro idx hub h
      exact ofNat_ne_invalid i h.symm
    | succ fuel ih =>
      intro idx hub
      rcases getFontOffset_cases W idx with ⟨hinv, -⟩ |
        ⟨k, hkW, heq, hkpos, -, hkmax, -⟩
      · rw [findFontIndexInBlockAux_invalid W hg fuel idx hinv]
        exact fun h => ofNat_ne_invalid i h.symm
      · rw [findFontIndexInBlockAux_step W hg fuel idx k heq]
        have hjk : W.getD j 0 ≤ W.getD k 0 := hkmax j hjW hub
        have hki : k ≠ i := by
          intro hk
          rw [hk] at hjk
          omega
        by_cases hgk : hg k = true
        · rw [if_pos hgk]
          intro h
          exact hki (Int.ofNat.inj h)
        · rw [if_neg hgk]
          have hkj : k ≠ j := by
            intro hk
            rw [hk] at hgk
            exact hgk hgj
          have hstrict : W.getD j 0 < W.getD k 0 :=
            lt_of_le_of_ne hjk (fun hh => hties k hkW hkj hh.symm)
          apply ih
          rw [heq, fontUpperBound, if_pos (ofNat_ne_invalid k), toNat_ofNat']
          exact hstrict
  intro h
  apply main (W.length + 1) kInvalidFont ?_ h
  rw [fontUpperBound, if_neg (fun hh => hh rfl)]
  exact hsmall

/-- Skipped fonts drop out: the constructor loop equals the loop over the
fonts that actually load. -/
theorem foldl_processFont_loaded (whitelst blacklst : List (String × String)) :
    ∀ (fonts : List FontInput) (st : GMState),
      fonts.foldl (processFont whitelst blacklst) st =
        (loadedFonts blacklst fonts).foldl (processFont whitelst blacklst) st := by
  intro fonts
  induction fonts with
  | nil => intro st; rfl
  | cons f rest ih =>
    intro st
    rw [List.foldl_cons]
    by_cases hw : wildcardBlacklisted blacklst f.name = true
    · rw [processFont_skip_wildcard whitelst blacklst st f hw,
        loadedFonts_cons_skip blacklst f rest (by simp [hw]), ih]
    · have hw' : wildcardBlacklisted blacklst f.name = false := by simpa using hw
      by_cases hl : f.loads = true
      · rw [loadedFonts_cons_keep blacklst f rest (by simp [hw', hl]),
          List.foldl_cons, ih]
      · have hl' : f.loads = false := by simpa using hl
        rw [processFont_skip_load whitelst blacklst st f hw' hl',
          loadedFonts_cons_skip blacklst f rest (by simp [hl']), ih]

/-- Claim C3: a whitelist entry matching a loaded font and block `B` forces
`B`'s weight for that font to the block size plus the number of fonts
processed (loaded) so far, this value exceeds every hit-count-derived
weight (which is at most the block size) and strictly increases with
processing order, so of two whitelisted fonts covering `B` the one
processed later gets the greater weight and resolution for `B` never
answers the earlier one when the later one has the glyph.  Hypotheses:
fonts carry duplicate-free character codes (FreeType enumerates the cmap
strictly increasing), the block is well-formed and each of the two fonts
covers it through exactly one cover node not preceded by a node of the same
block name. -/
theorem claim_C3 (blockDefs : List (String × Nat × Nat))
    (whitelst blacklst : List (String × String)) (fonts : List FontInput)
    (i j bIdx : Nat) (sizeB : Int) (W : List Int)
    (hsB : sizeB = ((blkAt (initBlocks blockDefs) bIdx).uend : Int) + 1 -
      ((blkAt (initBlocks blockDefs) bIdx).ustart : Int))
    (hW : W = (blkAt (glyphManagerInit blockDefs whitelst blacklst
      fonts).blocks bIdx).fontsWeight)
    (hnodup : ∀ f ∈ fonts, f.charcodes.Nodup)
    (hij : i < j) (hj : j < (loadedFonts blacklst fonts).length)
    (hb0 : bIdx < (initBlocks blockDefs).length)
    (hrange : (blkAt (initBlocks blockDefs) bIdx).ustart ≤
      (blkAt (initBlocks blockDefs) bIdx).uend)
    (hsmall : sizeB + (j + 1) < intMax)
    (hwlI : (((loadedFonts blacklst fonts).getD i noFont).name,
      (blkAt (initBlocks blockDefs) bIdx).name) ∈ whitelst)
    (hwlJ : (((loadedFonts blacklst fonts).getD j noFont).name,
      (blkAt (initBlocks blockDefs) bIdx).name) ∈ whitelst)
    (hcovI : ∃ pre w post,
      computeCoverInfo (initBlocks blockDefs)
          ((loadedFonts blacklst fonts).getD i noFont).charcodes =
        pre ++ (bIdx, w) :: post ∧
      (∀ a ∈ pre.map Prod.fst,
        (blkAt (initBlocks blockDefs) a).name ≠
          (blkAt (initBlocks blockDefs) bIdx).name ∧
        (blkAt (initBlocks blockDefs) a).name ≠ "*") ∧
      (∀ a ∈ post.map Prod.fst, a ≠ bIdx))
    (hcovJ : ∃ pre w post,
      computeCoverInfo (initBlocks blockDefs)
          ((loadedFonts blacklst fonts).getD j noFont).charcodes =
        pre ++ (bIdx, w) :: post ∧
      (∀ a ∈ pre.map Prod.fst,
        (blkAt (initBlocks blockDefs) a).name ≠
          (blkAt (initBlocks blockDefs) bIdx).name ∧
        (blkAt (initBlocks blockDefs) a).name ≠ "*") ∧
      (∀ a ∈ post.map Prod.fst, a ≠ bIdx)) :
    W.getD i 0 = sizeB + (i + 1) ∧
    W.getD j 0 = sizeB + (j + 1) ∧
    W.getD i 0 < W.getD j 0 ∧
    (∀ f ∈ fonts, ∀ nd ∈ computeCoverInfo (initBlocks blockDefs) f.charcodes,
      nd.1 = bIdx → nd.2 ≤ sizeB ∧ nd.2 < W.getD j 0) ∧
    (∀ hg : Nat → Bool, hg j = true →
      findFontIndexInBlock W hg ≠ Int.ofNat i) := by
  set blocks0 := initBlocks blockDefs with hblocks0
  set L := loadedFonts blacklst fonts with hL
  set fI := L.getD i noFont with hfI
  set fJ := L.getD j noFont with hfJ
  have hsize0 : (0 : Int) ≤ sizeB := by rw [hsB]; omega
  have hiL : i < L.length := lt_trans hij hj
  have hfonts_sub : ∀ g ∈ L, g ∈ fonts ∧
      wildcardBlacklisted blacklst g.name = false ∧ g.loads = true :=
    fun g hgmem => mem_loadedFonts blacklst fonts g hgmem
  have hstable : ∀ (P : List FontInput), (∀ g ∈ P, g ∈ L) →
      loadedFonts blacklst P = P := by
    intro P hP
    rw [loadedFonts]
    apply List.filter_eq_self.mpr
    intro a ha
    obtain ⟨-, h1, h2⟩ := hfonts_sub a (hP a ha)
    simp [h1, h2]
  set L1 := L.take i with hL1
  set L2 := (L.drop (i + 1)).take (j - i - 1) with hL2
  set L3 := L.drop (j + 1) with hL3
  have hgetI : fI = L[i] := by rw [hfI]; exact List.getD_eq_getElem L noFont hiL
  have hgetJ : fJ = L[j] := by rw [hfJ]; exact List.getD_eq_getElem L noFont hj
  have hsplit : L = L1 ++ fI :: (L2 ++ fJ :: L3) := by
    rw [hgetI, hgetJ, hL1, hL2, hL3]
    conv_lhs => rw [← List.take_append_drop i L]
    congr 1
    rw [List.drop_eq_getElem_cons hiL]
    congr 1
    conv_lhs => rw [← List.take_append_drop (j - i - 1) (L.drop (i + 1))]
    congr 1
    rw [List.drop_drop]
    have hidx : i + 1 + (j - i - 1) = j := by omega
    rw [hidx, List.drop_eq_getElem_cons hj]
  set st0 : GMState := ⟨blocks0, 0⟩ with hst0
  set st1 := L1.foldl (processFont whitelst blacklst) st0 with hst1
  set st2 := processFont whitelst blacklst st1 fI with hst2
  set st3 := L2.foldl (processFont whitelst blacklst) st2 with hst3
  set st4 := processFont whitelst blacklst st3 fJ with hst4
  have hfold : glyphManagerInit blockDefs whitelst blacklst fonts =
      L3.foldl (processFont whitelst blacklst) st4 := by
    rw [hst4, hst3, hst2, hst1, hst0, hblocks0]
    rw [glyphManagerInit, foldl_processFont_loaded, ← hL]
    conv_lhs => rw [hsplit]
    rw [List.foldl_append, List.foldl_cons, List.foldl_append, List.foldl_cons]
  have hwts0 : (blkAt st0.blocks bIdx).fontsWeight = [] := by
    show (blkAt blocks0 bIdx).fontsWeight = []
    rw [hblocks0]
    exact initBlocks_wts blockDefs bIdx
  have hinv1 := foldl_char_inv whitelst blacklst blocks0 bIdx sizeB hb0 hrange
    hsB L1 st0
    (fun g hgm => hnodup g (hfonts_sub g (List.take_subset i L hgm)).1)
    rfl
    (by rw [hwts0]; exact Nat.zero_le _)
    (fun s => by rw [hwts0]; left; simpa using hsize0)
  rw [← hst1] at hinv1
  have hc1 : st1.fontsCount = i := by
    rw [hst1, fontsCount_eq_loadedFonts whitelst blacklst L1 st0,
      hstable L1 (fun g hgm => List.take_subset i L hgm)]
    show 0 + L1.length = i
    rw [hL1, List.length_take]
    omega
  have memI : fI ∈ L := by rw [hgetI]; exact List.getElem_mem hiL
  have memJ : fJ ∈ L := by rw [hgetJ]; exact List.getElem_mem hj
  have hpropI := hfonts_sub fI memI
  have hpropJ := hfonts_sub fJ memJ
  obtain ⟨preI, wI, postI, hcovIeq, hpreI, hpostI⟩ := hcovI
  obtain ⟨preJ, wJ, postJ, hcovJeq, hpreJ, hpostJ⟩ := hcovJ
  obtain ⟨hwts2, hc2⟩ := processFont_whitelisted_step whitelst blacklst blocks0
    bIdx sizeB hb0 hsB st1 st2 fI hst2 hinv1.1 hpropI.2.1 hpropI.2.2
    preI wI postI hcovIeq hpreI hpostI
    ⟨(fI.name, (blkAt blocks0 bIdx).name), hwlI, rfl, Or.inl rfl⟩
  rw [hc1] at hwts2
  have hc2' : st2.fontsCount = i + 1 := by rw [hc2, hc1]
  have hlen1 : (blkAt st1.blocks bIdx).fontsWeight.length ≤ i := by
    have := hinv1.2.2.2.1
    rw [hc1] at this
    exact this
  have hwtsl2 : (blkAt st2.blocks bIdx).fontsWeight.length = i + 1 := by
    rw [hwts2, setBack_resizeTo_length _ (by omega)]
  have hgI2 : (blkAt st2.blocks bIdx).fontsWeight.getD i 0 =
      sizeB + (i + 1) := by
    have := getD_setBack_resizeTo_last (i + 1)
      ((blkAt st1.blocks bIdx).fontsWeight) (sizeB + ((i : Int) + 1))
      (by omega)
    rw [hwts2]
    push_cast
    simpa using this
  have hchar2full := processFont_char_step whitelst blacklst blocks0 bIdx sizeB
    hb0 hrange hsB st1 st2 fI hst2 hinv1.1 (hnodup fI hpropI.1)
    hinv1.2.2.2.1 hinv1.2.2.2.2.2
  have hinv3 := foldl_char_inv whitelst blacklst blocks0 bIdx sizeB hb0 hrange
    hsB L2 st2
    (fun g hgm => hnodup g (hfonts_sub g
      (List.drop_subset (i + 1) L (List.take_subset (j - i - 1) _ hgm))).1)
    hchar2full.1 hchar2full.2.2.2.1 hchar2full.2.2.2.2.2
  rw [← hst3] at hinv3
  have hlen3mono : i + 1 ≤ (blkAt st3.blocks bIdx).fontsWeight.length := by
    have := hinv3.2.2.1
    rw [hwtsl2] at this
    exact this
  have hgI3 : (blkAt st3.blocks bIdx).fontsWeight.getD i 0 =
      sizeB + (i + 1) := by
    rw [hinv3.2.2.2.2.1 i (by omega), hgI2]
  have hc3 : st3.fontsCount = j := by
    rw [hst3, fontsCount_eq_loadedFonts whitelst blacklst L2 st2,
      hstable L2 (fun g hgm => List.drop_subset (i + 1) L
        (List.take_subset (j - i - 1) _ hgm)), hc2', hL2, List.length_take,
      List.length_drop]
    omega
  obtain ⟨hwts4, hc4⟩ := processFont_whitelisted_step whitelst blacklst blocks0
    bIdx sizeB hb0 hsB st3 st4 fJ hst4 hinv3.1 hpropJ.2.1 hpropJ.2.2
    preJ wJ postJ hcovJeq hpreJ hpostJ
    ⟨(fJ.name, (blkAt blocks0 bIdx).name), hwlJ, rfl, Or.inl rfl⟩
  rw [hc3] at hwts4
  have hlen3lt : (blkAt st3.blocks bIdx).fontsWeight.length < j + 1 := by
    have := hinv3.2.2.2.1
    rw [hc3] at this
    omega
  have hwtsl4 : (blkAt st4.blocks bIdx).fontsWeight.length = j + 1 := by
    rw [hwts4, setBack_resizeTo_length _ (by omega)]
  have hgJ4 : (blkAt st4.blocks bIdx).fontsWeight.getD j 0 =
      sizeB + (j + 1) := by
    have := getD_setBack_resizeTo_last (j + 1)
      ((blkAt st3.blocks bIdx).fontsWeight) (sizeB + ((j : Int) + 1))
      hlen3lt
    rw [hwts4]
    push_cast
    simpa using this
  have hgI4 : (blkAt st4.blocks bIdx).fontsWeight.getD i 0 =
      sizeB + (i + 1) := by
    rw [hwts4, getD_setBack_resizeTo_lt _ _ _ _ (by omega) hlen3lt, hgI3]
  have hchar4full := processFont_char_step whitelst blacklst blocks0 bIdx sizeB
    hb0 hrange hsB st3 st4 fJ hst4 hinv3.1 (hnodup fJ hpropJ.1)
    hinv3.2.2.2.1 hinv3.2.2.2.2.2
  have hinv5 := foldl_char_inv whitelst blacklst blocks0 bIdx sizeB hb0 hrange
    hsB L3 st4
    (fun g hgm => hnodup g (hfonts_sub g (List.drop_subset (j + 1) L hgm)).1)
    hchar4full.1 hchar4full.2.2.2.1 hchar4full.2.2.2.2.2
  rw [hfold] at hW
  have hWgI : W.getD i 0 = sizeB + (i + 1) := by
    rw [hW, hinv5.2.2.2.2.1 i (by omega), hgI4]
  have hWgJ : W.getD j 0 = sizeB + (j + 1) := by
    rw [hW, hinv5.2.2.2.2.1 j (by omega), hgJ4]
  have hWlen : j < W.length := by
    rw [hW]
    have := hinv5.2.2.1
    omega
  have hWchar : ∀ s, W.getD s 0 ≤ sizeB ∨ W.getD s 0 = sizeB + (s + 1) := by
    intro s
    rw [hW]
    exact hinv5.2.2.2.2.2 s
  refine ⟨hWgI, hWgJ, ?_, ?_, ?_⟩
  · rw [hWgI, hWgJ]
    push_cast
    omega
  · intro f hf nd hnd he
    have hle := computeCoverInfo_le blocks0 f.charcodes (hnodup f hf) nd hnd
    rw [he] at hle
    have h1 : nd.2 ≤ sizeB := by rw [hsB]; omega
    refine ⟨h1, ?_⟩
    rw [hWgJ]
    push_cast
    omega
  · intro hg hgj
    apply findFontIndexInBlock_shielded W i j hWlen ?_ ?_ ?_ ?_ hg hgj
    · rw [hWgI, hWgJ]
      push_cast
      omega
    · rw [hWgJ]
      push_cast
      omega
    · rw [hWgJ]
      exact hsmall
    · intro k hk hkj
      rcases hWchar k with h | h
      · rw [hWgJ]
        push_cast
        omega
      · rw [h, hWgJ]
        intro heq2
        push_cast at heq2
        omega

/-- Closed witness for C3: one block `A = [0, 1]`, two loaded fonts both
whitelisted for `A`; the run yields weights `[3, 4]` and resolution with
font 1 glyph-capable never answers font 0. -/
theorem claim_C3_witness :
    ([3, 4] : List Int).getD 0 0 = 2 + ((0 : Nat) + 1) ∧
    ([3, 4] : List Int).getD 1 0 = 2 + ((1 : Nat) + 1) ∧
    ([3, 4] : List Int).getD 0 0 < ([3, 4] : List Int).getD 1 0 ∧
    (∀ f ∈ [(⟨"f0", true, [0]⟩ : FontInput), ⟨"f1", true, [1]⟩],
      ∀ nd ∈ computeCoverInfo (initBlocks [("A", 0, 1)]) f.charcodes,
        nd.1 = 0 → nd.2 ≤ 2 ∧ nd.2 < ([3, 4] : List Int).getD 1 0) ∧
    (∀ hg : Nat → Bool, hg 1 = true →
      findFontIndexInBlock [3, 4] hg ≠ Int.ofNat 0) :=
  claim_C3 [("A", 0, 1)] [("f0", "A"), ("f1", "A")] []
    [⟨"f0", true, [0]⟩, ⟨"f1", true, [1]⟩] 0 1 0 2 [3, 4]
    (by decide) (by decide) (by decide) (by decide) (by decide) (by decide)
    (by decide) (by decide) (by decide) (by decide)
    ⟨[], 1, [], by decide, by simp, by simp⟩
    ⟨[], 1, [], by decide, by simp, by simp⟩

end dp
